import Mathlib

/-!
# upool: a deduplicating blob pool (open addressing, double hashing)

Shallow embedding of `src/upool.c`.

Conventions of the embedding.

* A blob handed to the C functions as `(elmSize, elmData)` is a `List Byte`; `elmSize` is its
  length.
* `u32` values are natural numbers, reduced modulo `2 ^ 32` where the C code can wrap on the
  runs considered: hash values, the offset `upoolAddData` returns (the length of the data
  buffer as a `u32`), and the doubled table length `l0 << 1` of `upoolEnlarge`.  The data
  buffer itself is a list of any length.  The statements that depend on offsets and table
  lengths not wrapping say so: they assume a data buffer shorter than `2 ^ 32` bytes, or a
  table shorter than `2 ^ 31` slots.  The counter `numSlotsUsed` and the sum `si + shift` of
  `upoolNextSlot` are not reduced.
* `XXH32` (from `xxhash.h`) is a parameter `XXH32 : List Byte → Nat → Nat` (data, seed); nothing
  is assumed about its values.
* `vec_t` (from `vec.h`) is a `List`; `vec_pusharr` appends, `vec_resize` followed by `memset 0`
  yields a list of zeroed slots.
* Undefined behaviour of C (remainder by zero, reads outside the data buffer, a slot index
  outside the table) and failed `assert`s are explicit faults.  Loops of the form `for (;;)`
  consume one unit of fuel per iteration; `Fault.outOfFuel` is the only fault that is an
  artefact of the embedding.
* The comparison `numSlotsUsed > length * 0.75f` is made in `float` (IEEE binary32, round to
  nearest, ties to even): `loadExceeded` rounds the converted length, its product with
  `0.75f` and the converted counter to 24 significant bits.  For counters and lengths below
  `2 ^ 22` it is the exact comparison `4 * numSlotsUsed > 3 * length`.
* The out-parameter `bool* isNew` of `upoolAdd` is returned as a component of the result.
-/

namespace UpoolModel

/-- A byte of the data buffer (`u8`). -/
abbrev Byte := Fin 256

/-- Ways in which a run of the C code fails to produce a value. -/
inductive Fault where
  | divByZero
  | outOfBounds
  | assertFailed
  | outOfFuel
  deriving DecidableEq, Repr

/-- Outcome of a C function: a value or a fault. -/
inductive Res (α : Type) where
  | ok (a : α)
  | fault (f : Fault)
  deriving DecidableEq, Repr

/-- Seed of the primary hash (`Upool_Seed_Hash`). -/
def Upool_Seed_Hash : Nat := 0

/-- Seed of the step hash (`Upool_Seed_Hash1`). -/
def Upool_Seed_Hash1 : Nat := 1

/-- Modelled from the spec: `Upool_ID_NULL` is declared in `upool.h`, which is not part of the
sources; the spec describes the sentinel as the maximum representable offset value. -/
def Upool_ID_NULL : Nat := 2 ^ 32 - 1

/-- The struct `Upool_Key`. -/
structure Upool_Key where
  offset : Nat
  size : Nat
  deriving DecidableEq, Repr

/-- The struct `Upool_Slot`. -/
structure Upool_Slot where
  occupied : Bool
  elm : Upool_Key
  deriving DecidableEq, Repr

/-- The struct `Upool`. -/
structure Upool where
  dataBuf : List Byte
  numSlotsUsed : Nat
  slotTable : List Upool_Slot
  deriving DecidableEq, Repr

/-- A zeroed slot, as produced by `memset(..., 0, ...)`. -/
def zeroSlot : Upool_Slot := ⟨false, ⟨0, 0⟩⟩

/-- `newUpool`: zero-allocated pool whose slot table has `initSize` zeroed slots. -/
def newUpool (initSize : Nat) : Upool :=
  { dataBuf := [], numSlotsUsed := 0, slotTable := List.replicate initSize zeroSlot }

/-- `calcHashX`: the 32-bit hash of a blob under a seed. -/
def calcHashX (XXH32 : List Byte → Nat → Nat) (data : List Byte) (seed : Nat) : Nat :=
  XXH32 data seed % 2 ^ 32

/-- `calcHash`: the primary hash. -/
def calcHash (XXH32 : List Byte → Nat → Nat) (data : List Byte) : Nat :=
  calcHashX XXH32 data Upool_Seed_Hash

/-- `calcHash1`: the step hash. -/
def calcHash1 (XXH32 : List Byte → Nat → Nat) (data : List Byte) : Nat :=
  calcHashX XXH32 data Upool_Seed_Hash1

/-- The C expression `a % b` on unsigned operands: undefined when `b` is zero. -/
def umod (a b : Nat) : Res Nat :=
  if b = 0 then .fault .divByZero else .ok (a % b)

/-- `upoolCalcShift`: the probe step of a blob for the current table length. -/
def upoolCalcShift (XXH32 : List Byte → Nat → Nat) (pool : Upool) (data : List Byte) : Res Nat :=
  let shift := calcHash1 XXH32 data
  let shift := if shift > 0 then shift else 1
  match umod shift pool.slotTable.length with
  | .fault f => .fault f
  | .ok shift => .ok (shift + (if shift % 2 ≠ 0 then 0 else 1))

/-- `upoolNextSlot`: the next slot index of a probe. -/
def upoolNextSlot (pool : Upool) (si shift : Nat) : Res Nat :=
  umod (si + shift) pool.slotTable.length

/-- `upoolAddData`: append a blob to the data buffer; returns the offset it was stored at,
which is the length of the buffer before the append, as a `u32`. -/
def upoolAddData (pool : Upool) (elmData : List Byte) : Nat × Upool :=
  (pool.dataBuf.length % 2 ^ 32, { pool with dataBuf := pool.dataBuf ++ elmData })

/-- The slot `pool->slotTable.data[si]`. -/
def slotAt (pool : Upool) (si : Nat) : Res Upool_Slot :=
  match pool.slotTable[si]? with
  | some slot => .ok slot
  | none => .fault .outOfBounds

/-- The `size` bytes at `pool->dataBuf.data + offset`. -/
def readData (pool : Upool) (offset size : Nat) : Res (List Byte) :=
  if offset + size ≤ pool.dataBuf.length then .ok ((pool.dataBuf.drop offset).take size)
  else .fault .outOfBounds

/-- `upoolOccupySlot`: count the slot as used and store the key in it.  The C function also
takes the primary hash, which it does not use. -/
def upoolOccupySlot (pool : Upool) (si elmSize elmOffset : Nat) : Res Upool :=
  let pool := { pool with numSlotsUsed := pool.numSlotsUsed + 1 }
  if ¬ si < pool.slotTable.length then .fault .assertFailed
  else
    match slotAt pool si with
    | .fault f => .fault f
    | .ok slot =>
      if slot.occupied then .fault .assertFailed
      else .ok { pool with slotTable := pool.slotTable.set si ⟨true, ⟨elmOffset, elmSize⟩⟩ }

/-- The inner `for (;;)` of `upoolEnlarge`: walk from `si` to the first free slot and occupy
it; the `assert` fails when the walk comes back to `s0`. -/
def enlargeProbe : Nat → Upool → Nat → Nat → Nat → Nat → Nat → Res Upool
  | 0, _, _, _, _, _, _ => .fault .outOfFuel
  | fuel + 1, pool, shift, s0, si, elmSize, elmOffset =>
    match slotAt pool si with
    | .fault f => .fault f
    | .ok slot =>
      if !slot.occupied then upoolOccupySlot pool si elmSize elmOffset
      else
        match upoolNextSlot pool si shift with
        | .fault f => .fault f
        | .ok si1 =>
          if si1 = s0 then .fault .assertFailed
          else enlargeProbe fuel pool shift s0 si1 elmSize elmOffset

/-- The body of the outer `for` of `upoolEnlarge` for one slot of the old table. -/
def enlargeSlot (XXH32 : List Byte → Nat → Nat) (fuel : Nat) (pool : Upool)
    (slot : Upool_Slot) : Res Upool :=
  if !slot.occupied then .ok pool
  else
    let elmSize := slot.elm.size
    let elmOffset := slot.elm.offset
    match readData pool elmOffset elmSize with
    | .fault f => .fault f
    | .ok elmData =>
      let hash := calcHash XXH32 elmData
      match upoolCalcShift XXH32 pool elmData with
      | .fault f => .fault f
      | .ok shift =>
        match umod hash pool.slotTable.length with
        | .fault f => .fault f
        | .ok si => enlargeProbe fuel pool shift si si elmSize elmOffset

/-- The outer `for` of `upoolEnlarge` over the slots of the old table, in index order. -/
def enlargeLoop (XXH32 : List Byte → Nat → Nat) (fuel : Nat) :
    List Upool_Slot → Upool → Res Upool
  | [], pool => .ok pool
  | slot :: rest, pool =>
    match enlargeSlot XXH32 fuel pool slot with
    | .fault f => .fault f
    | .ok pool1 => enlargeLoop XXH32 fuel rest pool1

/-- `upoolEnlarge`: replace the slot table by a zeroed one of twice the length (length one when
the old table is empty; `l0 << 1` is a `u32` shift) and re-insert every occupied slot of the
old table. -/
def upoolEnlarge (XXH32 : List Byte → Nat → Nat) (fuel : Nat) (pool : Upool) : Res Upool :=
  let l0 := pool.slotTable.length
  let l1 := if l0 = 0 then 1 else l0 * 2 % 2 ^ 32
  let slotTable0 := pool.slotTable
  let pool := { pool with slotTable := List.replicate l1 zeroSlot }
  enlargeLoop XXH32 fuel slotTable0 pool

/-- The size test and the `memcmp` of the lookup loops: `true` when the blob of `slot` is
byte-identical to `elmData`. -/
def slotMatches (pool : Upool) (slot : Upool_Slot) (elmData : List Byte) : Res Bool :=
  if slot.elm.size ≠ elmData.length then .ok false
  else
    match readData pool slot.elm.offset elmData.length with
    | .fault f => .fault f
    | .ok elmData0 => .ok (decide (elmData0 = elmData))

/-- The `for (;;)` of `upoolGet`. -/
def getProbe : Nat → Upool → List Byte → Nat → Nat → Res Nat
  | 0, _, _, _, _ => .fault .outOfFuel
  | fuel + 1, pool, elmData, shift, si =>
    match slotAt pool si with
    | .fault f => .fault f
    | .ok slot =>
      if !slot.occupied then .ok Upool_ID_NULL
      else
        match slotMatches pool slot elmData with
        | .fault f => .fault f
        | .ok true => .ok slot.elm.offset
        | .ok false =>
          match upoolNextSlot pool si shift with
          | .fault f => .fault f
          | .ok si1 => getProbe fuel pool elmData shift si1

/-- `upoolGet`: the offset of a stored blob, or `Upool_ID_NULL`. -/
def upoolGet (XXH32 : List Byte → Nat → Nat) (fuel : Nat) (pool : Upool)
    (elmData : List Byte) : Res Nat :=
  let hash := calcHash XXH32 elmData
  match upoolCalcShift XXH32 pool elmData with
  | .fault f => .fault f
  | .ok shift =>
    match umod hash pool.slotTable.length with
    | .fault f => .fault f
    | .ok si => getProbe fuel pool elmData shift si

/-- The first `for (;;)` of `upoolAdd`.  The result `none` is the exit through `break`
(the probe came back to `s0`); `some (offset, isNew, pool)` is a `return`. -/
def addProbe : Nat → Upool → List Byte → Nat → Nat → Nat → Res (Option (Nat × Bool × Upool))
  | 0, _, _, _, _, _ => .fault .outOfFuel
  | fuel + 1, pool, elmData, shift, s0, si =>
    match slotAt pool si with
    | .fault f => .fault f
    | .ok slot =>
      if !slot.occupied then
        let (elmOffset, pool1) := upoolAddData pool elmData
        match upoolOccupySlot pool1 si elmData.length elmOffset with
        | .fault f => .fault f
        | .ok pool2 => .ok (some (elmOffset, true, pool2))
      else
        match slotMatches pool slot elmData with
        | .fault f => .fault f
        | .ok true => .ok (some (slot.elm.offset, false, pool))
        | .ok false =>
          match upoolNextSlot pool si shift with
          | .fault f => .fault f
          | .ok si1 =>
            if si1 = s0 then .ok none
            else addProbe fuel pool elmData shift s0 si1

/-- The `for (;;)` after the label `enlarge:` of `upoolAdd`: walk to the first free slot
without comparing blobs.  The result `none` is the exit through `break`. -/
def retryProbe : Nat → Upool → List Byte → Nat → Nat → Nat → Res (Option (Nat × Bool × Upool))
  | 0, _, _, _, _, _ => .fault .outOfFuel
  | fuel + 1, pool, elmData, shift, s0, si =>
    match slotAt pool si with
    | .fault f => .fault f
    | .ok slot =>
      if !slot.occupied then
        let (elmOffset, pool1) := upoolAddData pool elmData
        match upoolOccupySlot pool1 si elmData.length elmOffset with
        | .fault f => .fault f
        | .ok pool2 => .ok (some (elmOffset, true, pool2))
      else
        match upoolNextSlot pool si shift with
        | .fault f => .fault f
        | .ok si1 =>
          if si1 = s0 then .ok none
          else retryProbe fuel pool elmData shift s0 si1

/-- The part of `upoolAdd` from the label `enlarge:` on: enlarge, probe for a free slot with
the step computed before the label, and `goto enlarge` when the probe comes back to its start.
The first argument bounds the number of passes through the label. -/
def addRetry (XXH32 : List Byte → Nat → Nat) (fuel : Nat) :
    Nat → Upool → List Byte → Nat → Nat → Res (Nat × Bool × Upool)
  | 0, _, _, _, _ => .fault .outOfFuel
  | rounds + 1, pool, elmData, hash, shift =>
    match upoolEnlarge XXH32 fuel pool with
    | .fault f => .fault f
    | .ok pool1 =>
      match umod hash pool1.slotTable.length with
      | .fault f => .fault f
      | .ok si =>
        match retryProbe fuel pool1 elmData shift si si with
        | .fault f => .fault f
        | .ok (some r) => .ok r
        | .ok none => addRetry XXH32 fuel rounds pool1 elmData hash shift

/-- The value of `(float)n` for an unsigned integer `n` in IEEE binary32 arithmetic: `n`
rounded to 24 significant bits, to nearest, ties to even.  Rounding commutes with a division by
four, so the function also rounds a number of quarters. -/
def roundSig24 (n : Nat) : Nat :=
  if n < 2 ^ 24 then n
  else
    let e := Nat.log2 n - 23
    let q := n / 2 ^ e
    let r := n % 2 ^ e
    (if 2 ^ e < 2 * r ∨ (2 * r = 2 ^ e ∧ q % 2 = 1) then q + 1 else q) * 2 ^ e

/-- The test `pool->numSlotsUsed > pool->slotTable.length*0.75f` of `upoolAdd`, evaluated in
`float`: the length is converted and multiplied by `0.75f`, the counter is converted, and each
of the three results is rounded to 24 significant bits.  Both sides are counted in quarters. -/
def loadExceeded (used length : Nat) : Bool :=
  decide (roundSig24 (3 * roundSig24 length) < 4 * roundSig24 used)

/-- `upoolAdd`: intern a blob; returns its offset, whether it was new, and the pool after the
call. -/
def upoolAdd (XXH32 : List Byte → Nat → Nat) (fuel : Nat) (pool : Upool)
    (elmData : List Byte) : Res (Nat × Bool × Upool) :=
  match (if loadExceeded pool.numSlotsUsed pool.slotTable.length
         then upoolEnlarge XXH32 fuel pool else .ok pool) with
  | .fault f => .fault f
  | .ok pool =>
    let hash := calcHash XXH32 elmData
    match upoolCalcShift XXH32 pool elmData with
    | .fault f => .fault f
    | .ok shift =>
      match umod hash pool.slotTable.length with
      | .fault f => .fault f
      | .ok si =>
        match addProbe fuel pool elmData shift si si with
        | .fault f => .fault f
        | .ok (some r) => .ok r
        | .ok none => addRetry XXH32 fuel fuel pool elmData hash shift

/-- `upoolElmsTotal`. -/
def upoolElmsTotal (pool : Upool) : Nat :=
  pool.numSlotsUsed

/-- The `for` of `upoolForEach` from slot index `i`, with `n` slots left to visit; the calls
of the callback are collected, in order, as `(elmSize, bytes at elmData)`. -/
def forEachLoop (pool : Upool) : Nat → Nat → List (Nat × List Byte)
  | 0, _ => []
  | n + 1, i =>
    match pool.slotTable[i]? with
    | none => []
    | some slot =>
      if !slot.occupied then forEachLoop pool n (i + 1)
      else
        (slot.elm.size, (pool.dataBuf.drop slot.elm.offset).take slot.elm.size)
          :: forEachLoop pool n (i + 1)

/-- `upoolForEach`: the list of callback invocations, in the order they are made. -/
def upoolForEach (pool : Upool) : List (Nat × List Byte) :=
  forEachLoop pool pool.slotTable.length 0

/-- A toy stand-in for `XXH32`, used to run the model on concrete inputs. -/
def toyHash (data : List Byte) (seed : Nat) : Nat :=
  (data.map Fin.val).sum * 7 + seed * 3 + data.length

/-! ## Notions used to state the properties -/

/-- The `k`-th slot index of the probe sequence that starts at `h % L` with step `st`. -/
def pos (L h st k : Nat) : Nat := (h + k * st) % L

/-- The value computed by `upoolCalcShift` for a table of length `L`. -/
def stepOf (XXH32 : List Byte → Nat → Nat) (L : Nat) (data : List Byte) : Nat :=
  (if calcHash1 XXH32 data > 0 then calcHash1 XXH32 data else 1) % L
    + (if (if calcHash1 XXH32 data > 0 then calcHash1 XXH32 data else 1) % L % 2 ≠ 0 then 0 else 1)

/-- The data-buffer bytes a key refers to. -/
def blob (buf : List Byte) (key : Upool_Key) : List Byte :=
  (buf.drop key.offset).take key.size

/-- The keys of the occupied slots of a table, in slot order. -/
def keysOf (T : List Upool_Slot) : List Upool_Key :=
  (T.filter (fun s => s.occupied)).map (fun s => s.elm)

/-- Slot `i` of the table exists and is occupied. -/
def occAt (T : List Upool_Slot) (i : Nat) : Prop :=
  ∃ s, T[i]? = some s ∧ s.occupied = true

/-- Probe-path property of a table: every occupied slot is reached from the home slot of its
blob by the probe sequence of that blob, passing only through occupied slots. -/
def PathInv (XXH32 : List Byte → Nat → Nat) (buf : List Byte) (T : List Upool_Slot) : Prop :=
  ∀ (i : Nat) (s : Upool_Slot), T[i]? = some s → s.occupied = true →
    ∃ k, pos T.length (calcHash XXH32 (blob buf s.elm))
          (stepOf XXH32 T.length (blob buf s.elm)) k = i ∧
      ∀ j, j < k → occAt T (pos T.length (calcHash XXH32 (blob buf s.elm))
          (stepOf XXH32 T.length (blob buf s.elm)) j)

/-- Slot `e` is occupied by a blob that the lookup loops find different from `x`. -/
def missAt (p : Upool) (x : List Byte) (e : Nat) : Prop :=
  ∃ s, p.slotTable[e]? = some s ∧ s.occupied = true ∧ slotMatches p s x = .ok false

/-- Invariant of the pools reachable from a fresh pool whose initial size is a power of
two. -/
structure Inv (XXH32 : List Byte → Nat → Nat) (p : Upool) : Prop where
  pow2 : ∃ m, p.slotTable.length = 2 ^ m
  inb : ∀ key, key ∈ keysOf p.slotTable → key.offset + key.size ≤ p.dataBuf.length
  nodup : ((keysOf p.slotTable).map (blob p.dataBuf)).Nodup
  path : PathInv XXH32 p.dataBuf p.slotTable
  used : (keysOf p.slotTable).length ≤ p.numSlotsUsed
  total : p.dataBuf.length = ((keysOf p.slotTable).map (fun key => key.size)).sum
  offs : ∀ k1, k1 ∈ keysOf p.slotTable → ∀ k2, k2 ∈ keysOf p.slotTable →
    k1.offset = k2.offset → k1.size ≠ 0 → k2.size ≠ 0 → k1 = k2

/-- `Reach X p0 tr p`: the pool `p` is obtained from `p0` by a finite sequence of calls of
`upoolAdd` that returned.  The trace `tr` lists the calls, most recent first, each as
(blob, returned offset, value stored in `*isNew`). -/
inductive Reach (XXH32 : List Byte → Nat → Nat) (p0 : Upool) :
    List (List Byte × Nat × Bool) → Upool → Prop where
  | init : Reach XXH32 p0 [] p0
  | add (tr : List (List Byte × Nat × Bool)) (p p1 : Upool) (fuel : Nat) (x : List Byte)
      (o : Nat) (b : Bool) :
      Reach XXH32 p0 tr p → upoolAdd XXH32 fuel p x = .ok (o, b, p1) →
      Reach XXH32 p0 ((x, o, b) :: tr) p1

/-- The calls recorded in a trace agree with the stored keys: every recorded call refers to a
stored key whose blob is the blob passed in, and every stored key was returned by a recorded
call. -/
def TraceOk (tr : List (List Byte × Nat × Bool)) (p : Upool) : Prop :=
  (∀ x o b, (x, o, b) ∈ tr →
    (⟨o, x.length⟩ : Upool_Key) ∈ keysOf p.slotTable ∧ blob p.dataBuf ⟨o, x.length⟩ = x) ∧
  (∀ key, key ∈ keysOf p.slotTable → ∃ b, (blob p.dataBuf key, key.offset, b) ∈ tr)

/-- The probe step as the specification words it: `s = h mod L`; if the result is zero it is
forced to one; if the result is even it is incremented by one. -/
def specStep (h L : Nat) : Nat :=
  let s := h % L
  let s := if s = 0 then 1 else s
  if s % 2 = 0 then s + 1 else s

/-- The slot index reached from `si` by `k` applications of `upoolNextSlot`. -/
def probeIter (pool : Upool) (shift : Nat) : Nat → Nat → Res Nat
  | 0, si => .ok si
  | k + 1, si =>
    match upoolNextSlot pool si shift with
    | .fault f => .fault f
    | .ok si1 => probeIter pool shift k si1

/-- A hash function under which the blobs `a` and `c` have the same primary hash and the
step hash of `c` is 5. -/
def clashHash (data : List Byte) (seed : Nat) : Nat :=
  if data = [99] ∧ seed = 1 then 5 else 0

/-- A blob of `2 ^ 32 - 1` zero bytes, the largest size a `u32` can express. -/
def maxBlob : List Byte := List.replicate (2 ^ 32 - 1) 0

theorem upoolCalcShift_eq (X : List Byte → Nat → Nat) (p : Upool) (x : List Byte)
    (hL : p.slotTable.length ≠ 0) :
    upoolCalcShift X p x = .ok (stepOf X p.slotTable.length x) := by
  simp [upoolCalcShift, umod, hL, stepOf]

theorem stepOf_odd (X : List Byte → Nat → Nat) (L : Nat) (x : List Byte) :
    stepOf X L x % 2 = 1 := by
  unfold stepOf
  generalize (if calcHash1 X x > 0 then calcHash1 X x else 1) % L = s
  split <;> omega

theorem pos_zero (L h st : Nat) : pos L h st 0 = h % L := by simp [pos]

theorem pos_succ (L h st k : Nat) : pos L h st (k + 1) = (pos L h st k + st) % L := by
  unfold pos
  rw [Nat.mod_add_mod, Nat.succ_mul, Nat.add_assoc]

theorem pos_lt (L h st k : Nat) (hL : 0 < L) : pos L h st k < L := Nat.mod_lt _ hL

theorem pos_mod (L h st k : Nat) : pos L h st (k % L) = pos L h st k := by
  unfold pos
  conv_rhs => rw [← Nat.div_add_mod k L]
  rw [Nat.add_mul, Nat.mul_assoc, Nat.add_comm (L * _), ← Nat.add_assoc, Nat.add_mul_mod_self_left]

theorem pos_inj (m h st a b : Nat) (hst : st % 2 = 1) (ha : a < 2 ^ m) (hb : b < 2 ^ m)
    (hab : pos (2 ^ m) h st a = pos (2 ^ m) h st b) : a = b := by
  have hcop : Nat.Coprime (2 ^ m) st := by
    apply Nat.Coprime.pow_left
    rw [Nat.coprime_two_left]
    exact Nat.odd_iff.mpr hst
  have h1 : (h + a * st) ≡ (h + b * st) [MOD 2 ^ m] := hab
  have h2 : a * st ≡ b * st [MOD 2 ^ m] := Nat.ModEq.add_left_cancel' h h1
  have h3 : a ≡ b [MOD 2 ^ m] := Nat.ModEq.cancel_right_of_coprime hcop h2
  exact Nat.ModEq.eq_of_lt_of_lt h3 ha hb

theorem pos_surj (m h st e : Nat) (hst : st % 2 = 1) (he : e < 2 ^ m) :
    ∃ k, k < 2 ^ m ∧ pos (2 ^ m) h st k = e := by
  have hL : 0 < 2 ^ m := Nat.pow_pos (by decide)
  let f : Fin (2 ^ m) → Fin (2 ^ m) := fun k => ⟨pos (2 ^ m) h st k.val, pos_lt _ _ _ _ hL⟩
  have hinj : Function.Injective f := by
    intro a b hab
    apply Fin.ext
    exact pos_inj m h st a.val b.val hst a.isLt b.isLt (congrArg Fin.val hab)
  have hsurj : Function.Surjective f := Finite.injective_iff_surjective.mp hinj
  obtain ⟨k, hk⟩ := hsurj ⟨e, he⟩
  exact ⟨k.val, k.isLt, congrArg Fin.val hk⟩

/-! ## Keys and blobs of a table -/

theorem blob_append (buf x : List Byte) (key : Upool_Key)
    (h : key.offset + key.size ≤ buf.length) : blob (buf ++ x) key = blob buf key := by
  unfold blob
  rw [List.drop_append_of_le_length (by omega), List.take_append_of_le_length]
  simp; omega

theorem blob_length (buf : List Byte) (key : Upool_Key)
    (h : key.offset + key.size ≤ buf.length) : (blob buf key).length = key.size := by
  simp [blob]; omega

theorem blob_new (buf x : List Byte) : blob (buf ++ x) ⟨buf.length, x.length⟩ = x := by
  simp [blob]

theorem keysOf_nil : keysOf [] = [] := rfl

theorem keysOf_cons (a : Upool_Slot) (T : List Upool_Slot) :
    keysOf (a :: T) = if a.occupied then a.elm :: keysOf T else keysOf T := by
  unfold keysOf
  cases h : a.occupied <;> simp [List.filter, h]

theorem keysOf_replicate (n : Nat) : keysOf (List.replicate n zeroSlot) = [] := by
  induction n with
  | zero => rfl
  | succ n ih => rw [List.replicate_succ, keysOf_cons]; simpa [zeroSlot] using ih

theorem mem_keysOf (T : List Upool_Slot) (key : Upool_Key) :
    key ∈ keysOf T ↔ ∃ (i : Nat) (s : Upool_Slot), T[i]? = some s ∧ s.occupied = true ∧ s.elm = key := by
  unfold keysOf
  simp only [List.mem_map, List.mem_filter]
  constructor
  · rintro ⟨s, ⟨hs, ho⟩, rfl⟩
    obtain ⟨i, hi⟩ := List.getElem?_of_mem hs
    exact ⟨i, s, hi, ho, rfl⟩
  · rintro ⟨i, s, hi, ho, rfl⟩
    exact ⟨s, ⟨List.getElem?_mem hi, ho⟩, rfl⟩

theorem keysOf_length_le (T : List Upool_Slot) : (keysOf T).length ≤ T.length := by
  unfold keysOf
  rw [List.length_map]
  exact List.length_filter_le _ _

theorem keysOf_set (T : List Upool_Slot) (e : Nat) (s : Upool_Slot) (key : Upool_Key)
    (he : T[e]? = some s) (hs : s.occupied = false) :
    (keysOf (T.set e ⟨true, key⟩)).Perm (key :: keysOf T) := by
  induction T generalizing e with
  | nil => simp at he
  | cons a T ih =>
    cases e with
    | zero =>
      simp at he
      subst he
      simp [keysOf_cons, hs]
    | succ e =>
      simp at he
      rw [List.set_cons_succ, keysOf_cons, keysOf_cons]
      cases a.occupied with
      | false => simpa using ih e he
      | true =>
        simp only [if_true]
        exact ((ih e he).cons a.elm).trans (List.Perm.swap key a.elm (keysOf T))

theorem exists_free (T : List Upool_Slot) (h : (keysOf T).length < T.length) :
    ∃ (i : Nat) (s : Upool_Slot), T[i]? = some s ∧ s.occupied = false := by
  induction T with
  | nil => simp at h
  | cons a T ih =>
    cases ha : a.occupied with
    | false => exact ⟨0, a, by simp, ha⟩
    | true =>
      rw [keysOf_cons, ha] at h
      simp only [if_true, List.length_cons, Nat.add_lt_add_iff_right] at h
      obtain ⟨i, s, hi, hs⟩ := ih h
      exact ⟨i + 1, s, by rw [List.getElem?_cons_succ]; exact hi, hs⟩

theorem index_eq_of_nodup (buf : List Byte) (T : List Upool_Slot)
    (hnd : ((keysOf T).map (blob buf)).Nodup) (i j : Nat) (si sj : Upool_Slot)
    (hi : T[i]? = some si) (hj : T[j]? = some sj)
    (hoi : si.occupied = true) (hoj : sj.occupied = true)
    (hb : blob buf si.elm = blob buf sj.elm) : i = j := by
  induction T generalizing i j with
  | nil => simp at hi
  | cons a T ih =>
    have hmem : ∀ (k : Nat) (s : Upool_Slot), T[k]? = some s → s.occupied = true →
        blob buf s.elm ∈ (keysOf T).map (blob buf) := by
      intro k s hk ho
      exact List.mem_map_of_mem _ ((mem_keysOf T s.elm).mpr ⟨k, s, hk, ho, rfl⟩)
    cases i with
    | zero =>
      cases j with
      | zero => rfl
      | succ j =>
        simp at hi hj
        subst hi
        rw [keysOf_cons, hoi] at hnd
        simp only [if_true, List.map_cons, List.nodup_cons] at hnd
        exact absurd (hb ▸ hmem j sj hj hoj) hnd.1
    | succ i =>
      cases j with
      | zero =>
        simp at hi hj
        subst hj
        rw [keysOf_cons, hoj] at hnd
        simp only [if_true, List.map_cons, List.nodup_cons] at hnd
        exact absurd (hb ▸ hmem i si hi hoi) hnd.1
      | succ j =>
        simp at hi hj
        have hnd1 : ((keysOf T).map (blob buf)).Nodup := by
          rw [keysOf_cons] at hnd
          split at hnd
          · exact (List.nodup_cons.mp hnd).2
          · exact hnd
        rw [ih hnd1 i j hi hj]

theorem slotMatches_eq (p : Upool) (slot : Upool_Slot) (x : List Byte)
    (h : slot.elm.offset + slot.elm.size ≤ p.dataBuf.length) :
    slotMatches p slot x = .ok (decide (blob p.dataBuf slot.elm = x)) := by
  unfold slotMatches
  by_cases hsz : slot.elm.size = x.length
  · have h1 : slot.elm.offset + x.length ≤ p.dataBuf.length := by omega
    simp [hsz, readData, h1, blob]
  · have hne : blob p.dataBuf slot.elm ≠ x := by
      intro hx
      apply hsz
      rw [← blob_length p.dataBuf slot.elm h, hx]
    simp [hsz, hne]

/-! ## Walking to a free slot -/

theorem walk_first (m h st : Nat) (Q : Nat → Prop) (hst : st % 2 = 1)
    (hQ : ∃ e, e < 2 ^ m ∧ Q e) :
    ∃ k, k < 2 ^ m ∧ Q (pos (2 ^ m) h st k) ∧ ∀ j, j < k → ¬ Q (pos (2 ^ m) h st j) := by
  classical
  obtain ⟨e, he, hQe⟩ := hQ
  obtain ⟨k, hk, hke⟩ := pos_surj m h st e hst he
  have hex : ∃ k, Q (pos (2 ^ m) h st k) := ⟨k, hke ▸ hQe⟩
  refine ⟨Nat.find hex, ?_, Nat.find_spec hex, fun j hj => Nat.find_min hex hj⟩
  exact lt_of_le_of_lt (Nat.find_min' hex (hke ▸ hQe)) hk

theorem pos_ne_start (m h st j : Nat) (hst : st % 2 = 1) (h0 : 0 < j) (hj : j < 2 ^ m) :
    pos (2 ^ m) h st j ≠ pos (2 ^ m) h st 0 := by
  intro heq
  have := pos_inj m h st j 0 hst hj (Nat.pow_pos (by decide)) heq
  omega

theorem enlargeProbe_walk (p : Upool) (h st sz off fuel k : Nat)
    (hL : p.slotTable.length ≠ 0) :
    ∀ d i, i + d = k →
      (∀ j, i ≤ j → j < k → occAt p.slotTable (pos p.slotTable.length h st j)) →
      (∀ j, i < j → j ≤ k → pos p.slotTable.length h st j ≠ pos p.slotTable.length h st 0) →
      enlargeProbe (fuel + d) p st (pos p.slotTable.length h st 0)
          (pos p.slotTable.length h st i) sz off
        = enlargeProbe fuel p st (pos p.slotTable.length h st 0)
          (pos p.slotTable.length h st k) sz off := by
  intro d
  induction d with
  | zero => intro i hi _ _; simp at hi; subst hi; rfl
  | succ d ih =>
    intro i hi hocc hne
    obtain ⟨s, hs, ho⟩ := hocc i (Nat.le_refl i) (by omega)
    have hstep : enlargeProbe (fuel + (d + 1)) p st (pos p.slotTable.length h st 0)
          (pos p.slotTable.length h st i) sz off
        = enlargeProbe (fuel + d) p st (pos p.slotTable.length h st 0)
          (pos p.slotTable.length h st (i + 1)) sz off := by
      rw [← Nat.add_assoc]
      simp [enlargeProbe, slotAt, hs, ho, upoolNextSlot, umod, hL, ← pos_succ,
        hne (i + 1) (by omega) (by omega)]
    rw [hstep]
    exact ih (i + 1) (by omega) (fun j h1 h2 => hocc j (by omega) h2)
      (fun j h1 h2 => hne j (by omega) h2)

theorem enlargeProbe_free (p : Upool) (st s0 si sz off fuel : Nat) (s : Upool_Slot)
    (hs : p.slotTable[si]? = some s) (ho : s.occupied = false) :
    enlargeProbe (fuel + 1) p st s0 si sz off
      = .ok { p with numSlotsUsed := p.numSlotsUsed + 1,
                     slotTable := p.slotTable.set si ⟨true, ⟨off, sz⟩⟩ } := by
  have hlt : si < p.slotTable.length := by
    by_contra hcon
    rw [List.getElem?_eq_none (by omega)] at hs
    cases hs
  simp [enlargeProbe, slotAt, hs, ho, upoolOccupySlot, hlt]

/-- On a power-of-two table with a free slot, a probe sequence with an odd step meets a free
slot within the first `2 ^ m` probes, after passing through occupied slots only. -/
theorem first_free (T : List Upool_Slot) (m h st : Nat) (hm : T.length = 2 ^ m)
    (hst : st % 2 = 1) (hfree : (keysOf T).length < T.length) :
    ∃ k e s, k < 2 ^ m ∧ pos (2 ^ m) h st k = e ∧ T[e]? = some s ∧
      s.occupied = false ∧ (∀ j, j < k → occAt T (pos (2 ^ m) h st j)) := by
  have hLpos : 0 < 2 ^ m := Nat.pow_pos (by decide)
  obtain ⟨e0, s0, he0, hs0⟩ := exists_free T hfree
  have he0lt : e0 < 2 ^ m := by
    rw [← hm]
    by_contra hcon
    rw [List.getElem?_eq_none (by omega)] at he0
    cases he0
  obtain ⟨k, hk, hQk, hmin⟩ := walk_first m h st (fun e => ¬ occAt T e) hst
    ⟨e0, he0lt, by rintro ⟨s, hs, ho⟩; rw [he0] at hs; cases hs; simp [hs0] at ho⟩
  have hlt : pos (2 ^ m) h st k < T.length := by rw [hm]; exact pos_lt _ _ _ _ hLpos
  obtain ⟨s, hs⟩ : ∃ s, T[pos (2 ^ m) h st k]? = some s :=
    ⟨_, List.getElem?_eq_getElem hlt⟩
  have hso : s.occupied = false := by
    cases hb : s.occupied with
    | false => rfl
    | true => exact absurd ⟨s, hs, hb⟩ hQk
  exact ⟨k, _, s, hk, rfl, hs, hso, fun j hj => not_not.mp (hmin j hj)⟩

/-- What the inner loop of `upoolEnlarge` does on a power-of-two table with a free slot. -/
theorem enlargeProbe_spec (p : Upool) (m h st sz off : Nat) (hm : p.slotTable.length = 2 ^ m)
    (hst : st % 2 = 1) (hfree : (keysOf p.slotTable).length < p.slotTable.length) :
    ∃ k e s, k < 2 ^ m ∧ pos (2 ^ m) h st k = e ∧ p.slotTable[e]? = some s ∧
      s.occupied = false ∧ (∀ j, j < k → occAt p.slotTable (pos (2 ^ m) h st j)) ∧
      ∀ fuel, 2 ^ m ≤ fuel →
        enlargeProbe fuel p st (h % 2 ^ m) (h % 2 ^ m) sz off
          = .ok { p with numSlotsUsed := p.numSlotsUsed + 1,
                         slotTable := p.slotTable.set e ⟨true, ⟨off, sz⟩⟩ } := by
  have hLpos : 0 < 2 ^ m := Nat.pow_pos (by decide)
  have hL : p.slotTable.length ≠ 0 := by omega
  obtain ⟨k, e, s, hk, hpos, hs, hso, hocc⟩ := first_free p.slotTable m h st hm hst hfree
  refine ⟨k, e, s, hk, hpos, hs, hso, hocc, ?_⟩
  intro fuel hfuel
  obtain ⟨f, rfl⟩ : ∃ f, fuel = (f + 1) + k := ⟨fuel - 1 - k, by omega⟩
  have hw := enlargeProbe_walk p h st sz off (f + 1) k hL k 0 (by omega)
    (fun j _ hj => by rw [hm]; exact hocc j hj)
    (fun j h1 h2 => by rw [hm]; exact pos_ne_start m h st j hst h1 (by omega))
  rw [hm, pos_zero, hpos] at hw
  rw [hw]
  exact enlargeProbe_free p st _ _ sz off f s hs hso

/-! ## The probe-path property and upoolEnlarge -/

theorem getElem?_lt {T : List Upool_Slot} {i : Nat} {s : Upool_Slot} (h : T[i]? = some s) :
    i < T.length := by
  by_contra hcon
  rw [List.getElem?_eq_none (by omega)] at h
  cases h

theorem occAt_set (T : List Upool_Slot) (e j : Nat) (key : Upool_Key) (h : occAt T j) :
    occAt (T.set e ⟨true, key⟩) j := by
  obtain ⟨s, hs, ho⟩ := h
  by_cases hje : e = j
  · subst hje
    exact ⟨⟨true, key⟩, by rw [List.getElem?_set_self (getElem?_lt hs)], rfl⟩
  · exact ⟨s, by rw [List.getElem?_set_ne hje]; exact hs, ho⟩

theorem pathInv_replicate (X : List Byte → Nat → Nat) (buf : List Byte) (n : Nat) :
    PathInv X buf (List.replicate n zeroSlot) := by
  intro i s hi ho
  have hmem := List.getElem?_mem hi
  rw [List.mem_replicate] at hmem
  rw [hmem.2] at ho
  simp [zeroSlot] at ho

theorem pathInv_set (X : List Byte → Nat → Nat) (buf buf1 : List Byte) (T : List Upool_Slot)
    (e : Nat) (key : Upool_Key) (hP : PathInv X buf T)
    (hblob : ∀ key1, key1 ∈ keysOf T → blob buf1 key1 = blob buf key1)
    (he : e < T.length)
    (hnew : ∃ k, pos T.length (calcHash X (blob buf1 key)) (stepOf X T.length (blob buf1 key)) k = e
      ∧ ∀ j, j < k → occAt T (pos T.length (calcHash X (blob buf1 key))
          (stepOf X T.length (blob buf1 key)) j)) :
    PathInv X buf1 (T.set e ⟨true, key⟩) := by
  intro i s hi ho
  rw [List.length_set]
  by_cases hie : e = i
  · subst hie
    rw [List.getElem?_set_self he] at hi
    cases hi
    obtain ⟨k, hk, hw⟩ := hnew
    exact ⟨k, hk, fun j hj => occAt_set T e _ key (hw j hj)⟩
  · rw [List.getElem?_set_ne hie] at hi
    obtain ⟨k, hk, hw⟩ := hP i s hi ho
    rw [hblob s.elm ((mem_keysOf T s.elm).mpr ⟨i, s, hi, ho, rfl⟩)]
    exact ⟨k, hk, fun j hj => occAt_set T e _ key (hw j hj)⟩

theorem enlargeSlot_spec (X : List Byte → Nat → Nat) (q : Upool) (slot : Upool_Slot) (m fuel : Nat)
    (hm : q.slotTable.length = 2 ^ m) (hfree : (keysOf q.slotTable).length < 2 ^ m)
    (ho : slot.occupied = true) (hin : slot.elm.offset + slot.elm.size ≤ q.dataBuf.length)
    (hP : PathInv X q.dataBuf q.slotTable) (hfuel : 2 ^ m ≤ fuel) :
    ∃ q1, enlargeSlot X fuel q slot = .ok q1 ∧ q1.dataBuf = q.dataBuf ∧
      q1.numSlotsUsed = q.numSlotsUsed + 1 ∧ q1.slotTable.length = 2 ^ m ∧
      (keysOf q1.slotTable).Perm (slot.elm :: keysOf q.slotTable) ∧
      PathInv X q.dataBuf q1.slotTable := by
  have hL : q.slotTable.length ≠ 0 := by
    have : 0 < 2 ^ m := Nat.pow_pos (by decide)
    omega
  obtain ⟨k, e, s, hk, hpos, hs, hso, hocc, hrun⟩ :=
    enlargeProbe_spec q m (calcHash X (blob q.dataBuf slot.elm))
      (stepOf X (2 ^ m) (blob q.dataBuf slot.elm)) slot.elm.size slot.elm.offset hm
      (stepOf_odd _ _ _) (by rw [hm]; exact hfree)
  have hrd : readData q slot.elm.offset slot.elm.size = .ok (blob q.dataBuf slot.elm) := by
    simp [readData, hin, blob]
  refine ⟨{ q with numSlotsUsed := q.numSlotsUsed + 1,
                   slotTable := q.slotTable.set e ⟨true, slot.elm⟩ }, ?_, rfl, rfl, ?_, ?_, ?_⟩
  · have hrun1 := hrun fuel hfuel
    simp only [enlargeSlot, ho, hrd, upoolCalcShift_eq X q _ hL, umod, hL, hm]
    simpa using hrun1
  · simp [hm]
  · exact keysOf_set q.slotTable e s slot.elm hs hso
  · apply pathInv_set X q.dataBuf q.dataBuf q.slotTable e slot.elm hP (fun _ _ => rfl)
      (getElem?_lt hs)
    rw [hm]
    exact ⟨k, hpos, hocc⟩

theorem enlargeLoop_spec (X : List Byte → Nat → Nat) (m fuel : Nat) (hfuel : 2 ^ m ≤ fuel)
    (rest : List Upool_Slot) :
    ∀ q : Upool, q.slotTable.length = 2 ^ m →
      (keysOf q.slotTable).length + (keysOf rest).length < 2 ^ m →
      (∀ key, key ∈ keysOf rest → key.offset + key.size ≤ q.dataBuf.length) →
      PathInv X q.dataBuf q.slotTable →
      ∃ q1, enlargeLoop X fuel rest q = .ok q1 ∧ q1.dataBuf = q.dataBuf ∧
        q1.numSlotsUsed = q.numSlotsUsed + (keysOf rest).length ∧
        q1.slotTable.length = 2 ^ m ∧
        (keysOf q1.slotTable).Perm (keysOf rest ++ keysOf q.slotTable) ∧
        PathInv X q.dataBuf q1.slotTable := by
  induction rest with
  | nil =>
    intro q hm _ _ hP
    exact ⟨q, rfl, rfl, by simp [keysOf_nil], hm, by simp [keysOf_nil], hP⟩
  | cons a rest ih =>
    intro q hm hcount hin hP
    cases ha : a.occupied with
    | false =>
      have hk : keysOf (a :: rest) = keysOf rest := by simp [keysOf_cons, ha]
      rw [hk] at hcount hin ⊢
      obtain ⟨q1, hrun, h1, h2, h3, h4, h5⟩ := ih q hm hcount hin hP
      refine ⟨q1, ?_, h1, h2, h3, h4, h5⟩
      simp only [enlargeLoop, enlargeSlot, ha]
      simpa using hrun
    | true =>
      have hk : keysOf (a :: rest) = a.elm :: keysOf rest := by simp [keysOf_cons, ha]
      rw [hk] at hcount hin ⊢
      simp only [List.length_cons] at hcount
      obtain ⟨q1, hrun1, hb1, hu1, hl1, hp1, hP1⟩ :=
        enlargeSlot_spec X q a m fuel hm (by omega) ha (hin a.elm (List.mem_cons_self _ _)) hP
          hfuel
      have hlen1 : (keysOf q1.slotTable).length = (keysOf q.slotTable).length + 1 := by
        rw [hp1.length_eq]; rfl
      obtain ⟨q2, hrun2, hb2, hu2, hl2, hp2, hP2⟩ := ih q1 hl1 (by omega)
        (fun key hkey => by rw [hb1]; exact hin key (List.mem_cons_of_mem _ hkey))
        (by rw [hb1]; exact hP1)
      refine ⟨q2, ?_, by rw [hb2, hb1], ?_, hl2, ?_, by rw [← hb1]; exact hP2⟩
      · simp only [enlargeLoop, hrun1]
        exact hrun2
      · rw [hu2, hu1]; simp only [List.length_cons]; omega
      · refine hp2.trans ?_
        refine (List.Perm.append_left _ hp1).trans ?_
        simp only [List.cons_append]
        exact List.perm_middle

/-- What `upoolEnlarge` does on a table whose length is zero or a power of two, whose doubled
length fits 32 bits, and whose occupied slots lie within the data buffer. -/
theorem upoolEnlarge_spec (X : List Byte → Nat → Nat) (p : Upool) (fuel : Nat)
    (hlen : p.slotTable.length = 0 ∨ ∃ m, p.slotTable.length = 2 ^ m)
    (hov : 2 * p.slotTable.length < 2 ^ 32)
    (hin : ∀ key, key ∈ keysOf p.slotTable → key.offset + key.size ≤ p.dataBuf.length)
    (hfuel : 2 * p.slotTable.length + 1 ≤ fuel) :
    ∃ p1, upoolEnlarge X fuel p = .ok p1 ∧ p1.dataBuf = p.dataBuf ∧
      p1.numSlotsUsed = p.numSlotsUsed + (keysOf p.slotTable).length ∧
      p1.slotTable.length = max 1 (2 * p.slotTable.length) ∧
      (∃ m, p1.slotTable.length = 2 ^ m) ∧
      (keysOf p1.slotTable).Perm (keysOf p.slotTable) ∧
      PathInv X p.dataBuf p1.slotTable := by
  have hmod : p.slotTable.length * 2 % 2 ^ 32 = p.slotTable.length * 2 :=
    Nat.mod_eq_of_lt (by omega)
  obtain ⟨m, hm, hcount⟩ : ∃ m,
      (if p.slotTable.length = 0 then 1 else p.slotTable.length * 2 % 2 ^ 32)
      = 2 ^ m ∧ (keysOf p.slotTable).length < 2 ^ m := by
    have hle := keysOf_length_le p.slotTable
    rw [hmod]
    rcases hlen with h0 | ⟨m, hm⟩
    · exact ⟨0, by simp [h0], by rw [h0] at hle; simpa using hle⟩
    · have hpos : 0 < 2 ^ m := Nat.pow_pos (by decide)
      refine ⟨m + 1, ?_, ?_⟩
      · rw [if_neg (by omega), hm, Nat.pow_succ]
      · rw [Nat.pow_succ]; omega
  have hmax : max 1 (2 * p.slotTable.length) = 2 ^ m := by
    rw [← hm, hmod]
    split <;> omega
  obtain ⟨q1, hrun, hb, hu, hl, hp, hP⟩ := enlargeLoop_spec X m fuel (by omega) p.slotTable
    { p with slotTable := List.replicate (2 ^ m) zeroSlot } (by simp)
    (by simpa [keysOf_replicate] using hcount) hin (pathInv_replicate X _ _)
  refine ⟨q1, ?_, hb, ?_, by rw [hl, hmax], ⟨m, hl⟩, ?_, hP⟩
  · simp only [upoolEnlarge, hm]
    exact hrun
  · simpa [keysOf_replicate] using hu
  · simpa [keysOf_replicate] using hp

/-! ## The probes of upoolAdd and upoolGet -/

theorem addProbe_walk (p : Upool) (x : List Byte) (h st fuel k : Nat)
    (hL : p.slotTable.length ≠ 0) :
    ∀ d i, i + d = k →
      (∀ j, i ≤ j → j < k → missAt p x (pos p.slotTable.length h st j)) →
      (∀ j, i < j → j ≤ k → pos p.slotTable.length h st j ≠ pos p.slotTable.length h st 0) →
      addProbe (fuel + d) p x st (pos p.slotTable.length h st 0)
          (pos p.slotTable.length h st i)
        = addProbe fuel p x st (pos p.slotTable.length h st 0)
          (pos p.slotTable.length h st k) := by
  intro d
  induction d with
  | zero => intro i hi _ _; simp at hi; subst hi; rfl
  | succ d ih =>
    intro i hi hocc hne
    obtain ⟨s, hs, ho, hmiss⟩ := hocc i (Nat.le_refl i) (by omega)
    have hstep : addProbe (fuel + (d + 1)) p x st (pos p.slotTable.length h st 0)
          (pos p.slotTable.length h st i)
        = addProbe (fuel + d) p x st (pos p.slotTable.length h st 0)
          (pos p.slotTable.length h st (i + 1)) := by
      rw [← Nat.add_assoc]
      simp [addProbe, slotAt, hs, ho, hmiss, upoolNextSlot, umod, hL, ← pos_succ,
        hne (i + 1) (by omega) (by omega)]
    rw [hstep]
    exact ih (i + 1) (by omega) (fun j h1 h2 => hocc j (by omega) h2)
      (fun j h1 h2 => hne j (by omega) h2)

theorem getProbe_walk (p : Upool) (x : List Byte) (h st fuel k : Nat)
    (hL : p.slotTable.length ≠ 0) :
    ∀ d i, i + d = k →
      (∀ j, i ≤ j → j < k → missAt p x (pos p.slotTable.length h st j)) →
      getProbe (fuel + d) p x st (pos p.slotTable.length h st i)
        = getProbe fuel p x st (pos p.slotTable.length h st k) := by
  intro d
  induction d with
  | zero => intro i hi _; simp at hi; subst hi; rfl
  | succ d ih =>
    intro i hi hocc
    obtain ⟨s, hs, ho, hmiss⟩ := hocc i (Nat.le_refl i) (by omega)
    have hstep : getProbe (fuel + (d + 1)) p x st (pos p.slotTable.length h st i)
        = getProbe (fuel + d) p x st (pos p.slotTable.length h st (i + 1)) := by
      rw [← Nat.add_assoc]
      simp [getProbe, slotAt, hs, ho, hmiss, upoolNextSlot, umod, hL, ← pos_succ]
    rw [hstep]
    exact ih (i + 1) (by omega) (fun j h1 h2 => hocc j (by omega) h2)

theorem addProbe_free (p : Upool) (x : List Byte) (st s0 si fuel : Nat) (s : Upool_Slot)
    (hs : p.slotTable[si]? = some s) (ho : s.occupied = false) :
    addProbe (fuel + 1) p x st s0 si
      = .ok (some (p.dataBuf.length % 2 ^ 32, true,
          { dataBuf := p.dataBuf ++ x, numSlotsUsed := p.numSlotsUsed + 1,
            slotTable := p.slotTable.set si
              ⟨true, ⟨p.dataBuf.length % 2 ^ 32, x.length⟩⟩ })) := by
  have hlt : si < p.slotTable.length := getElem?_lt hs
  simp [addProbe, slotAt, hs, ho, upoolOccupySlot, upoolAddData, hlt]

theorem addProbe_hit (p : Upool) (x : List Byte) (st s0 si fuel : Nat) (s : Upool_Slot)
    (hs : p.slotTable[si]? = some s) (ho : s.occupied = true)
    (hmatch : slotMatches p s x = .ok true) :
    addProbe (fuel + 1) p x st s0 si = .ok (some (s.elm.offset, false, p)) := by
  simp [addProbe, slotAt, hs, ho, hmatch]

theorem getProbe_free (p : Upool) (x : List Byte) (st si fuel : Nat) (s : Upool_Slot)
    (hs : p.slotTable[si]? = some s) (ho : s.occupied = false) :
    getProbe (fuel + 1) p x st si = .ok Upool_ID_NULL := by
  simp [getProbe, slotAt, hs, ho]

theorem getProbe_hit (p : Upool) (x : List Byte) (st si fuel : Nat) (s : Upool_Slot)
    (hs : p.slotTable[si]? = some s) (ho : s.occupied = true)
    (hmatch : slotMatches p s x = .ok true) :
    getProbe (fuel + 1) p x st si = .ok s.elm.offset := by
  simp [getProbe, slotAt, hs, ho, hmatch]

/-- An occupied in-bounds slot whose blob differs from `x` is a miss. -/
theorem missAt_of_ne (p : Upool) (x : List Byte) (e : Nat)
    (hin : ∀ key, key ∈ keysOf p.slotTable → key.offset + key.size ≤ p.dataBuf.length)
    (hocc : occAt p.slotTable e)
    (hne : ∀ s, p.slotTable[e]? = some s → blob p.dataBuf s.elm ≠ x) : missAt p x e := by
  obtain ⟨s, hs, ho⟩ := hocc
  refine ⟨s, hs, ho, ?_⟩
  rw [slotMatches_eq p s x (hin s.elm ((mem_keysOf _ _).mpr ⟨e, s, hs, ho, rfl⟩))]
  simp [hne s hs]

/-- The probes for a blob that is not stored, on a power-of-two table with a free slot. -/
theorem probe_absent (X : List Byte → Nat → Nat) (p : Upool) (x : List Byte) (m : Nat)
    (hm : p.slotTable.length = 2 ^ m)
    (hin : ∀ key, key ∈ keysOf p.slotTable → key.offset + key.size ≤ p.dataBuf.length)
    (hfree : (keysOf p.slotTable).length < p.slotTable.length)
    (habs : ∀ key, key ∈ keysOf p.slotTable → blob p.dataBuf key ≠ x) :
    ∃ k e s, k < 2 ^ m ∧ pos (2 ^ m) (calcHash X x) (stepOf X (2 ^ m) x) k = e ∧
      p.slotTable[e]? = some s ∧ s.occupied = false ∧
      (∀ j, j < k → occAt p.slotTable (pos (2 ^ m) (calcHash X x) (stepOf X (2 ^ m) x) j)) ∧
      ∀ fuel, 2 ^ m ≤ fuel →
        addProbe fuel p x (stepOf X (2 ^ m) x) (calcHash X x % 2 ^ m) (calcHash X x % 2 ^ m)
          = .ok (some (p.dataBuf.length % 2 ^ 32, true,
              { dataBuf := p.dataBuf ++ x, numSlotsUsed := p.numSlotsUsed + 1,
                slotTable := p.slotTable.set e
                  ⟨true, ⟨p.dataBuf.length % 2 ^ 32, x.length⟩⟩ })) ∧
        getProbe fuel p x (stepOf X (2 ^ m) x) (calcHash X x % 2 ^ m) = .ok Upool_ID_NULL := by
  have hLpos : 0 < 2 ^ m := Nat.pow_pos (by decide)
  have hL : p.slotTable.length ≠ 0 := by omega
  have hst := stepOf_odd X (2 ^ m) x
  obtain ⟨k, e, s, hk, hpos, hs, hso, hocc⟩ :=
    first_free p.slotTable m (calcHash X x) (stepOf X (2 ^ m) x) hm hst hfree
  refine ⟨k, e, s, hk, hpos, hs, hso, hocc, ?_⟩
  intro fuel hfuel
  obtain ⟨f, rfl⟩ : ∃ f, fuel = (f + 1) + k := ⟨fuel - 1 - k, by omega⟩
  have hmiss : ∀ j, 0 ≤ j → j < k →
      missAt p x (pos p.slotTable.length (calcHash X x) (stepOf X (2 ^ m) x) j) := by
    intro j _ hj
    rw [hm]
    refine missAt_of_ne p x _ hin (hocc j hj) ?_
    intro s1 hs1
    cases ho1 : s1.occupied with
    | false =>
      obtain ⟨s2, hs2, ho2⟩ := hocc j hj
      rw [hs1] at hs2; cases hs2; rw [ho1] at ho2; cases ho2
    | true => exact habs s1.elm ((mem_keysOf _ _).mpr ⟨_, s1, hs1, ho1, rfl⟩)
  constructor
  · have hw := addProbe_walk p x (calcHash X x) (stepOf X (2 ^ m) x) (f + 1) k hL k 0
      (by omega) hmiss
      (fun j h1 h2 => by rw [hm]; exact pos_ne_start m _ _ j hst h1 (by omega))
    rw [hm, pos_zero, hpos] at hw
    rw [hw]
    exact addProbe_free p x _ _ _ f s hs hso
  · have hw := getProbe_walk p x (calcHash X x) (stepOf X (2 ^ m) x) (f + 1) k hL k 0
      (by omega) hmiss
    rw [hm, pos_zero, hpos] at hw
    rw [hw]
    exact getProbe_free p x _ _ f s hs hso

/-- The probes for a blob that is stored, on a power-of-two table satisfying the probe-path
property and holding pairwise distinct blobs. -/
theorem probe_present (X : List Byte → Nat → Nat) (p : Upool) (x : List Byte) (m : Nat)
    (hm : p.slotTable.length = 2 ^ m)
    (hin : ∀ key, key ∈ keysOf p.slotTable → key.offset + key.size ≤ p.dataBuf.length)
    (hnd : ((keysOf p.slotTable).map (blob p.dataBuf)).Nodup)
    (hP : PathInv X p.dataBuf p.slotTable)
    (key : Upool_Key) (hkey : key ∈ keysOf p.slotTable) (hx : blob p.dataBuf key = x) :
    ∀ fuel, 2 ^ m ≤ fuel →
      addProbe fuel p x (stepOf X (2 ^ m) x) (calcHash X x % 2 ^ m) (calcHash X x % 2 ^ m)
        = .ok (some (key.offset, false, p)) ∧
      getProbe fuel p x (stepOf X (2 ^ m) x) (calcHash X x % 2 ^ m) = .ok key.offset := by
  have hLpos : 0 < 2 ^ m := Nat.pow_pos (by decide)
  have hL : p.slotTable.length ≠ 0 := by omega
  have hst := stepOf_odd X (2 ^ m) x
  obtain ⟨i, s, hi, hio, rfl⟩ := (mem_keysOf _ _).mp hkey
  have hilt : i < 2 ^ m := by rw [← hm]; exact getElem?_lt hi
  obtain ⟨ki, hki, hwalk⟩ := hP i s hi hio
  rw [hx, hm] at hki hwalk
  -- the first probe position that is free or holds `x`
  obtain ⟨k, hk, hQk, hmin⟩ := walk_first m (calcHash X x) (stepOf X (2 ^ m) x)
    (fun e => ¬ occAt p.slotTable e ∨
      ∃ s1, p.slotTable[e]? = some s1 ∧ s1.occupied = true ∧ blob p.dataBuf s1.elm = x) hst
    ⟨i, hilt, Or.inr ⟨s, hi, hio, hx⟩⟩
  have hkle : k ≤ ki := by
    by_contra hcon
    exact hmin ki (by omega) (Or.inr ⟨s, hki ▸ hi, hio, hx⟩)
  have hhit : ∃ s1, p.slotTable[pos (2 ^ m) (calcHash X x) (stepOf X (2 ^ m) x) k]? = some s1 ∧
      s1.occupied = true ∧ blob p.dataBuf s1.elm = x := by
    rcases hQk with hfree | hh
    · exfalso
      rcases Nat.lt_or_ge k ki with hlt | hge
      · exact hfree (hwalk k hlt)
      · have hkk : k = ki := by omega
        subst hkk
        exact hfree ⟨s, hki ▸ hi, hio⟩
    · exact hh
  obtain ⟨s1, hs1, ho1, hx1⟩ := hhit
  have hidx : pos (2 ^ m) (calcHash X x) (stepOf X (2 ^ m) x) k = i :=
    index_eq_of_nodup p.dataBuf p.slotTable hnd _ _ s1 s hs1 hi ho1 hio (by rw [hx1, hx])
  rw [hidx, hi] at hs1
  cases hs1
  have hmatch : slotMatches p s x = .ok true := by
    rw [slotMatches_eq p s x (hin s.elm hkey)]
    simp [hx]
  have hmiss : ∀ j, 0 ≤ j → j < k →
      missAt p x (pos p.slotTable.length (calcHash X x) (stepOf X (2 ^ m) x) j) := by
    intro j _ hj
    rw [hm]
    have hnQ := hmin j hj
    simp only [not_or, not_not] at hnQ
    refine missAt_of_ne p x _ hin hnQ.1 ?_
    intro s2 hs2 hx2
    obtain ⟨s3, hs3, ho3⟩ := hnQ.1
    rw [hs2] at hs3; cases hs3
    exact hnQ.2 ⟨s2, hs2, ho3, hx2⟩
  intro fuel hfuel
  obtain ⟨f, rfl⟩ : ∃ f, fuel = (f + 1) + k := ⟨fuel - 1 - k, by omega⟩
  constructor
  · have hw := addProbe_walk p x (calcHash X x) (stepOf X (2 ^ m) x) (f + 1) k hL k 0
      (by omega) hmiss
      (fun j h1 h2 => by rw [hm]; exact pos_ne_start m _ _ j hst h1 (by omega))
    rw [hm, pos_zero, hidx] at hw
    rw [hw]
    exact addProbe_hit p x _ _ _ f s hi hio hmatch
  · have hw := getProbe_walk p x (calcHash X x) (stepOf X (2 ^ m) x) (f + 1) k hL k 0
      (by omega) hmiss
    rw [hm, pos_zero, hidx] at hw
    rw [hw]
    exact getProbe_hit p x _ _ f s hi hio hmatch

/-! ## Results do not depend on the fuel -/

theorem enlargeProbe_mono (p : Upool) (st s0 sz off : Nat) :
    ∀ (fuel si : Nat) (r : Res Upool), enlargeProbe fuel p st s0 si sz off = r →
      r ≠ .fault .outOfFuel → ∀ fuel1, fuel ≤ fuel1 →
      enlargeProbe fuel1 p st s0 si sz off = r := by
  intro fuel
  induction fuel with
  | zero => intro si r h hr; exact absurd h.symm hr
  | succ f ih =>
    intro si r h hr fuel1 hle
    obtain ⟨f1, rfl⟩ : ∃ f1, fuel1 = f1 + 1 := ⟨fuel1 - 1, by omega⟩
    simp only [enlargeProbe] at h ⊢
    cases hs : slotAt p si with
    | fault e => simpa [hs] using h
    | ok slot =>
      simp only [hs] at h ⊢
      split
      · simpa [*] using h
      · rename_i hocc
        simp only [hocc] at h
        cases hn : upoolNextSlot p si st with
        | fault e => simpa [hn] using h
        | ok si1 =>
          simp only [hn] at h ⊢
          split
          · rename_i heq; simpa [heq] using h
          · rename_i hne
            simp only [hne, if_false] at h
            exact ih si1 r h hr f1 (by omega)

theorem enlargeSlot_mono (X : List Byte → Nat → Nat) (p : Upool) (slot : Upool_Slot)
    (fuel : Nat) (r : Res Upool) (h : enlargeSlot X fuel p slot = r)
    (hr : r ≠ .fault .outOfFuel) (fuel1 : Nat) (hle : fuel ≤ fuel1) :
    enlargeSlot X fuel1 p slot = r := by
  unfold enlargeSlot at h ⊢
  split
  · rename_i ho; simpa [ho] using h
  · rename_i ho
    simp only [ho] at h
    cases hrd : readData p slot.elm.offset slot.elm.size with
    | fault e => simpa [hrd] using h
    | ok d =>
      simp only [hrd] at h ⊢
      cases hsh : upoolCalcShift X p d with
      | fault e => simpa [hsh] using h
      | ok st =>
        simp only [hsh] at h ⊢
        cases hu : umod (calcHash X d) p.slotTable.length with
        | fault e => simpa [hu] using h
        | ok si =>
          simp only [hu] at h ⊢
          exact enlargeProbe_mono p st si _ _ fuel si r h hr fuel1 hle

theorem enlargeLoop_mono (X : List Byte → Nat → Nat) (fuel fuel1 : Nat) (hle : fuel ≤ fuel1)
    (rest : List Upool_Slot) :
    ∀ (p : Upool) (r : Res Upool), enlargeLoop X fuel rest p = r → r ≠ .fault .outOfFuel →
      enlargeLoop X fuel1 rest p = r := by
  induction rest with
  | nil => intro p r h _; simpa [enlargeLoop] using h
  | cons a rest ih =>
    intro p r h hr
    simp only [enlargeLoop] at h ⊢
    cases hs : enlargeSlot X fuel p a with
    | fault e =>
      simp only [hs] at h
      have he : e ≠ .outOfFuel := by rintro rfl; exact hr h.symm
      rw [enlargeSlot_mono X p a fuel _ hs (by simpa using he) fuel1 hle]
      exact h
    | ok p1 =>
      simp only [hs] at h
      rw [enlargeSlot_mono X p a fuel _ hs (by simp) fuel1 hle]
      exact ih p1 r h hr

theorem upoolEnlarge_mono (X : List Byte → Nat → Nat) (p : Upool) (fuel : Nat) (r : Res Upool)
    (h : upoolEnlarge X fuel p = r) (hr : r ≠ .fault .outOfFuel) (fuel1 : Nat)
    (hle : fuel ≤ fuel1) : upoolEnlarge X fuel1 p = r :=
  enlargeLoop_mono X fuel fuel1 hle _ _ r h hr

theorem addProbe_mono (p : Upool) (x : List Byte) (st s0 : Nat) :
    ∀ (fuel si : Nat) (r : Res (Option (Nat × Bool × Upool))),
      addProbe fuel p x st s0 si = r → r ≠ .fault .outOfFuel → ∀ fuel1, fuel ≤ fuel1 →
      addProbe fuel1 p x st s0 si = r := by
  intro fuel
  induction fuel with
  | zero => intro si r h hr; exact absurd h.symm hr
  | succ f ih =>
    intro si r h hr fuel1 hle
    obtain ⟨f1, rfl⟩ : ∃ f1, fuel1 = f1 + 1 := ⟨fuel1 - 1, by omega⟩
    simp only [addProbe] at h ⊢
    cases hs : slotAt p si with
    | fault e => simpa [hs] using h
    | ok slot =>
      simp only [hs] at h ⊢
      split
      · simpa [*] using h
      · rename_i hocc
        simp only [hocc] at h
        cases hmt : slotMatches p slot x with
        | fault e => simpa [hmt] using h
        | ok b =>
          cases b with
          | true => simpa [hmt] using h
          | false =>
            simp only [hmt] at h ⊢
            cases hn : upoolNextSlot p si st with
            | fault e => simpa [hn] using h
            | ok si1 =>
              simp only [hn] at h ⊢
              split
              · rename_i heq; simpa [heq] using h
              · rename_i hne
                simp only [hne, if_false] at h
                exact ih si1 r h hr f1 (by omega)

theorem retryProbe_mono (p : Upool) (x : List Byte) (st s0 : Nat) :
    ∀ (fuel si : Nat) (r : Res (Option (Nat × Bool × Upool))),
      retryProbe fuel p x st s0 si = r → r ≠ .fault .outOfFuel → ∀ fuel1, fuel ≤ fuel1 →
      retryProbe fuel1 p x st s0 si = r := by
  intro fuel
  induction fuel with
  | zero => intro si r h hr; exact absurd h.symm hr
  | succ f ih =>
    intro si r h hr fuel1 hle
    obtain ⟨f1, rfl⟩ : ∃ f1, fuel1 = f1 + 1 := ⟨fuel1 - 1, by omega⟩
    simp only [retryProbe] at h ⊢
    cases hs : slotAt p si with
    | fault e => simpa [hs] using h
    | ok slot =>
      simp only [hs] at h ⊢
      split
      · simpa [*] using h
      · rename_i hocc
        simp only [hocc] at h
        cases hn : upoolNextSlot p si st with
        | fault e => simpa [hn] using h
        | ok si1 =>
          simp only [hn] at h ⊢
          split
          · rename_i heq; simpa [heq] using h
          · rename_i hne
            simp only [hne, if_false] at h
            exact ih si1 r h hr f1 (by omega)

theorem getProbe_mono (p : Upool) (x : List Byte) (st : Nat) :
    ∀ (fuel si : Nat) (r : Res Nat),
      getProbe fuel p x st si = r → r ≠ .fault .outOfFuel → ∀ fuel1, fuel ≤ fuel1 →
      getProbe fuel1 p x st si = r := by
  intro fuel
  induction fuel with
  | zero => intro si r h hr; exact absurd h.symm hr
  | succ f ih =>
    intro si r h hr fuel1 hle
    obtain ⟨f1, rfl⟩ : ∃ f1, fuel1 = f1 + 1 := ⟨fuel1 - 1, by omega⟩
    simp only [getProbe] at h ⊢
    cases hs : slotAt p si with
    | fault e => simpa [hs] using h
    | ok slot =>
      simp only [hs] at h ⊢
      split
      · simpa [*] using h
      · rename_i hocc
        simp only [hocc] at h
        cases hmt : slotMatches p slot x with
        | fault e => simpa [hmt] using h
        | ok b =>
          cases b with
          | true => simpa [hmt] using h
          | false =>
            simp only [hmt] at h ⊢
            cases hn : upoolNextSlot p si st with
            | fault e => simpa [hn] using h
            | ok si1 =>
              simp only [hn] at h ⊢
              exact ih si1 r h hr f1 (by omega)

theorem addRetry_mono (X : List Byte → Nat → Nat) (x : List Byte) (hash st fuel fuel1 : Nat)
    (hle : fuel ≤ fuel1) :
    ∀ (rounds : Nat) (p : Upool) (r : Res (Nat × Bool × Upool)),
      addRetry X fuel rounds p x hash st = r → r ≠ .fault .outOfFuel →
      ∀ rounds1, rounds ≤ rounds1 → addRetry X fuel1 rounds1 p x hash st = r := by
  intro rounds
  induction rounds with
  | zero => intro p r h hr; exact absurd h.symm hr
  | succ n ih =>
    intro p r h hr rounds1 hle1
    obtain ⟨n1, rfl⟩ : ∃ n1, rounds1 = n1 + 1 := ⟨rounds1 - 1, by omega⟩
    simp only [addRetry] at h ⊢
    cases he : upoolEnlarge X fuel p with
    | fault e =>
      simp only [he] at h
      have hne : e ≠ .outOfFuel := by rintro rfl; exact hr h.symm
      rw [upoolEnlarge_mono X p fuel _ he (by simpa using hne) fuel1 hle]
      exact h
    | ok p1 =>
      simp only [he] at h
      rw [upoolEnlarge_mono X p fuel _ he (by simp) fuel1 hle]
      simp only
      cases hu : umod hash p1.slotTable.length with
      | fault e => simpa [hu] using h
      | ok si =>
        simp only [hu] at h ⊢
        cases hp : retryProbe fuel p1 x st si si with
        | fault e =>
          simp only [hp] at h
          have hne : e ≠ .outOfFuel := by rintro rfl; exact hr h.symm
          rw [retryProbe_mono p1 x st si fuel si _ hp (by simpa using hne) fuel1 hle]
          exact h
        | ok o =>
          simp only [hp] at h
          rw [retryProbe_mono p1 x st si fuel si _ hp (by simp) fuel1 hle]
          cases o with
          | some v => simpa using h
          | none => exact ih p1 r h hr n1 (by omega)

/-- The result of `upoolAdd` does not depend on the fuel, once there is enough of it. -/
theorem upoolAdd_mono (X : List Byte → Nat → Nat) (p : Upool) (x : List Byte) (fuel : Nat)
    (r : Res (Nat × Bool × Upool)) (h : upoolAdd X fuel p x = r)
    (hr : r ≠ .fault .outOfFuel) (fuel1 : Nat) (hle : fuel ≤ fuel1) :
    upoolAdd X fuel1 p x = r := by
  unfold upoolAdd at h ⊢
  have key : ∀ (q : Upool),
      (match upoolCalcShift X q x with
        | .fault f => .fault f
        | .ok shift =>
          match umod (calcHash X x) q.slotTable.length with
          | .fault f => .fault f
          | .ok si =>
            match addProbe fuel q x shift si si with
            | .fault f => .fault f
            | .ok (some r) => .ok r
            | .ok none => addRetry X fuel fuel q x (calcHash X x) shift) = r →
      (match upoolCalcShift X q x with
        | .fault f => .fault f
        | .ok shift =>
          match umod (calcHash X x) q.slotTable.length with
          | .fault f => .fault f
          | .ok si =>
            match addProbe fuel1 q x shift si si with
            | .fault f => .fault f
            | .ok (some r) => .ok r
            | .ok none => addRetry X fuel1 fuel1 q x (calcHash X x) shift) = r := by
    intro q hq
    cases hsh : upoolCalcShift X q x with
    | fault e => simpa [hsh] using hq
    | ok st =>
      simp only [hsh] at hq ⊢
      cases hu : umod (calcHash X x) q.slotTable.length with
      | fault e => simpa [hu] using hq
      | ok si =>
        simp only [hu] at hq ⊢
        cases hp : addProbe fuel q x st si si with
        | fault e =>
          simp only [hp] at hq
          have hne : e ≠ .outOfFuel := by rintro rfl; exact hr hq.symm
          rw [addProbe_mono q x st si fuel si _ hp (by simpa using hne) fuel1 hle]
          exact hq
        | ok o =>
          simp only [hp] at hq
          rw [addProbe_mono q x st si fuel si _ hp (by simp) fuel1 hle]
          cases o with
          | some v => simpa using hq
          | none => exact addRetry_mono X x _ st fuel fuel1 hle fuel q r hq hr fuel1 hle
  by_cases hload : loadExceeded p.numSlotsUsed p.slotTable.length
  · rw [if_pos hload] at h ⊢
    cases he : upoolEnlarge X fuel p with
    | fault e =>
      simp only [he] at h
      have hne : e ≠ .outOfFuel := by rintro rfl; exact hr h.symm
      rw [upoolEnlarge_mono X p fuel _ he (by simpa using hne) fuel1 hle]
      exact h
    | ok p1 =>
      simp only [he] at h
      rw [upoolEnlarge_mono X p fuel _ he (by simp) fuel1 hle]
      exact key p1 h
  · rw [if_neg hload] at h ⊢
    exact key p h

/-! ## The invariant of reachable pools -/

theorem inv_newUpool (X : List Byte → Nat → Nat) (m : Nat) : Inv X (newUpool (2 ^ m)) where
  pow2 := ⟨m, by simp [newUpool]⟩
  inb := by simp [newUpool, keysOf_replicate]
  nodup := by simp [newUpool, keysOf_replicate]
  path := pathInv_replicate X _ _
  used := by simp [newUpool, keysOf_replicate]
  total := by simp [newUpool, keysOf_replicate]
  offs := by simp [newUpool, keysOf_replicate]

theorem inv_of_perm (X : List Byte → Nat → Nat) (p q : Upool) (hI : Inv X p)
    (hb : q.dataBuf = p.dataBuf) (hperm : (keysOf q.slotTable).Perm (keysOf p.slotTable))
    (hlen : ∃ m, q.slotTable.length = 2 ^ m) (hP : PathInv X p.dataBuf q.slotTable)
    (hu : (keysOf p.slotTable).length ≤ q.numSlotsUsed) : Inv X q where
  pow2 := hlen
  inb := by
    intro key hkey
    rw [hb]
    exact hI.inb key (hperm.mem_iff.mp hkey)
  nodup := by
    rw [hb]
    exact ((hperm.map (blob p.dataBuf)).nodup_iff).mpr hI.nodup
  path := by rw [hb]; exact hP
  used := by rw [hperm.length_eq]; exact hu
  total := by
    rw [hb, hI.total]
    exact ((hperm.map (fun key => key.size)).sum_eq).symm
  offs := fun k1 h1 k2 h2 => hI.offs k1 (hperm.mem_iff.mp h1) k2 (hperm.mem_iff.mp h2)

/-! ## The load test -/

theorem roundSig24_small (n : Nat) (h : n < 2 ^ 24) : roundSig24 n = n := by
  unfold roundSig24
  rw [if_pos h]

/-- The rounding of a number given with its exponent, quotient and remainder. -/
theorem roundSig24_eval (n e q r : Nat) (hlo : 2 ^ (23 + e) ≤ n) (hhi : n < 2 ^ (24 + e))
    (hn : n = q * 2 ^ e + r) (hr : r < 2 ^ e) :
    roundSig24 n = (if 2 ^ e < 2 * r ∨ (2 * r = 2 ^ e ∧ q % 2 = 1) then q + 1 else q) * 2 ^ e := by
  have hpos : 0 < 2 ^ e := Nat.pow_pos (by decide)
  have hq : n / 2 ^ e = q := by
    rw [hn, Nat.mul_comm q, Nat.mul_add_div hpos, Nat.div_eq_of_lt hr, Nat.add_zero]
  have hrm : n % 2 ^ e = r := by
    rw [hn, Nat.mul_comm q, Nat.mul_add_mod, Nat.mod_eq_of_lt hr]
  unfold roundSig24
  by_cases hsmall : n < 2 ^ 24
  · rw [if_pos hsmall]
    have he : e = 0 := by
      by_contra hne
      have : 2 ^ 24 ≤ 2 ^ (23 + e) := Nat.pow_le_pow_right (by decide) (by omega)
      omega
    subst he
    simp only [Nat.pow_zero, Nat.lt_one_iff] at hr
    subst hr
    simp [hn]
  · rw [if_neg hsmall]
    have hn0 : n ≠ 0 := by
      have : 0 < 2 ^ (23 + e) := Nat.pow_pos (by decide)
      omega
    have h1 : 23 + e ≤ n.log2 := (Nat.le_log2 hn0).mpr hlo
    have h2 : n.log2 < 24 + e := (Nat.log2_lt hn0).mpr hhi
    have he : n.log2 - 23 = e := by omega
    simp only [he, hq, hrm]

theorem roundSig24_repr (c f : Nat) (hc1 : 2 ^ 23 ≤ c) (hc2 : c < 2 ^ 24) :
    roundSig24 (c * 2 ^ f) = c * 2 ^ f := by
  have hpos : 0 < 2 ^ f := Nat.pow_pos (by decide)
  have h := roundSig24_eval (c * 2 ^ f) f c 0
    (by rw [Nat.pow_add]; exact Nat.mul_le_mul_right _ hc1)
    (by rw [Nat.pow_add]; exact Nat.mul_lt_mul_of_pos_right hc2 hpos)
    (by omega) hpos
  rw [h, if_neg (by omega)]

theorem roundSig24_pow (m : Nat) : roundSig24 (2 ^ m) = 2 ^ m := by
  by_cases h : m < 24
  · exact roundSig24_small _ (Nat.pow_lt_pow_right (by decide) h)
  · have := roundSig24_repr (2 ^ 23) (m - 23) (Nat.le_refl _) (by decide)
    rwa [← Nat.pow_add, show 23 + (m - 23) = m by omega] at this

theorem roundSig24_three_pow (m : Nat) : roundSig24 (3 * 2 ^ m) = 3 * 2 ^ m := by
  by_cases h : m < 22
  · apply roundSig24_small
    have : 2 ^ m < 2 ^ 22 := Nat.pow_lt_pow_right (by decide) h
    omega
  · have := roundSig24_repr (3 * 2 ^ 22) (m - 22) (by decide) (by decide)
    rwa [Nat.mul_assoc, ← Nat.pow_add, show 22 + (m - 22) = m by omega] at this

/-- Rounding does not go below a power of two that the number reaches. -/
theorem roundSig24_ge_pow (n k : Nat) (h : 2 ^ k ≤ n) : 2 ^ k ≤ roundSig24 n := by
  unfold roundSig24
  by_cases hsmall : n < 2 ^ 24
  · rw [if_pos hsmall]; exact h
  · rw [if_neg hsmall]
    have hn0 : n ≠ 0 := by
      have : 0 < 2 ^ k := Nat.pow_pos (by decide)
      omega
    have hk : k ≤ n.log2 := (Nat.le_log2 hn0).mpr h
    have h24 : 24 ≤ n.log2 := (Nat.le_log2 hn0).mpr (by omega)
    have hself : 2 ^ n.log2 ≤ n := (Nat.le_log2 hn0).mp (Nat.le_refl _)
    have hpos : 0 < 2 ^ (n.log2 - 23) := Nat.pow_pos (by decide)
    have hq : 2 ^ 23 ≤ n / 2 ^ (n.log2 - 23) := by
      rw [Nat.le_div_iff_mul_le hpos, ← Nat.pow_add, show 23 + (n.log2 - 23) = n.log2 by omega]
      exact hself
    have hle : 2 ^ n.log2 ≤ n / 2 ^ (n.log2 - 23) * 2 ^ (n.log2 - 23) := by
      calc 2 ^ n.log2 = 2 ^ 23 * 2 ^ (n.log2 - 23) := by
            rw [← Nat.pow_add, show 23 + (n.log2 - 23) = n.log2 by omega]
        _ ≤ _ := Nat.mul_le_mul_right _ hq
    have hkk : 2 ^ k ≤ 2 ^ n.log2 := Nat.pow_le_pow_right (by decide) hk
    dsimp only
    split
    · calc 2 ^ k ≤ n / 2 ^ (n.log2 - 23) * 2 ^ (n.log2 - 23) := Nat.le_trans hkk hle
        _ ≤ _ := Nat.mul_le_mul_right _ (Nat.le_succ _)
    · exact Nat.le_trans hkk hle

theorem loadExceeded_zero (length : Nat) : loadExceeded 0 length = false := by
  simp [loadExceeded, roundSig24_small 0 (by decide)]

/-- On a table whose length is a power of two, the load test compares the rounded counter
with three quarters of the length. -/
theorem loadExceeded_pow (u m : Nat) :
    loadExceeded u (2 ^ m) = true ↔ 3 * 2 ^ m < 4 * roundSig24 u := by
  unfold loadExceeded
  rw [roundSig24_pow, roundSig24_three_pow]
  simp

/-- When the load test of a power-of-two table does not fire, the counter is below the table
length. -/
theorem noload_lt (u m : Nat) (h : ¬ loadExceeded u (2 ^ m) = true) : u < 2 ^ m := by
  by_contra hge
  apply h
  rw [loadExceeded_pow]
  have := roundSig24_ge_pow u m (by omega)
  have hpos : 0 < 2 ^ m := Nat.pow_pos (by decide)
  omega

/-- With a counter below `2 ^ 24` the load test of a power-of-two table is the exact
comparison. -/
theorem loadExceeded_pow_small (u m : Nat) (hu : u < 2 ^ 24) :
    loadExceeded u (2 ^ m) = true ↔ 3 * 2 ^ m < 4 * u := by
  rw [loadExceeded_pow, roundSig24_small u hu]

/-- The load check at the start of `upoolAdd`, on a pool satisfying the invariant, when the
doubled table length fits 32 bits in case the check fires. -/
theorem loadCheck_spec (X : List Byte → Nat → Nat) (p : Upool) (hI : Inv X p)
    (hov : loadExceeded p.numSlotsUsed p.slotTable.length → 2 * p.slotTable.length < 2 ^ 32)
    (fuel : Nat) (hfuel : 2 * p.slotTable.length + 1 ≤ fuel) :
    ∃ q, (if loadExceeded p.numSlotsUsed p.slotTable.length then upoolEnlarge X fuel p
          else .ok p) = .ok q ∧
      q.dataBuf = p.dataBuf ∧ (keysOf q.slotTable).Perm (keysOf p.slotTable) ∧ Inv X q ∧
      (keysOf q.slotTable).length < q.slotTable.length ∧
      q.slotTable.length = (if loadExceeded p.numSlotsUsed p.slotTable.length then 2 else 1)
        * p.slotTable.length ∧
      q.numSlotsUsed = p.numSlotsUsed +
        (if loadExceeded p.numSlotsUsed p.slotTable.length then (keysOf p.slotTable).length
         else 0) := by
  obtain ⟨m, hm⟩ := hI.pow2
  have hpos : 0 < 2 ^ m := Nat.pow_pos (by decide)
  have hle := keysOf_length_le p.slotTable
  by_cases hload : loadExceeded p.numSlotsUsed p.slotTable.length
  · rw [if_pos hload]
    obtain ⟨p1, hrun, hb, hu, hl, hl2, hperm, hP⟩ :=
      upoolEnlarge_spec X p fuel (Or.inr hI.pow2) (hov hload) hI.inb hfuel
    have hl3 : p1.slotTable.length = 2 * p.slotTable.length := by
      rw [hl]; omega
    refine ⟨p1, hrun, hb, hperm, inv_of_perm X p p1 hI hb hperm hl2 hP (by omega), ?_,
      by rw [if_pos hload]; exact hl3, by rw [if_pos hload]; exact hu⟩
    rw [hperm.length_eq]; omega
  · rw [if_neg hload]
    have := hI.used
    have hlt := noload_lt p.numSlotsUsed m (by rw [← hm]; exact hload)
    exact ⟨p, rfl, rfl, List.Perm.refl _, hI, by omega, by rw [if_neg hload]; omega,
      by rw [if_neg hload]; rfl⟩

theorem inv_insert (X : List Byte → Nat → Nat) (q : Upool) (x : List Byte) (hI : Inv X q)
    (e k : Nat) (s : Upool_Slot) (hs : q.slotTable[e]? = some s) (hso : s.occupied = false)
    (hpos : pos q.slotTable.length (calcHash X x) (stepOf X q.slotTable.length x) k = e)
    (hocc : ∀ j, j < k → occAt q.slotTable
      (pos q.slotTable.length (calcHash X x) (stepOf X q.slotTable.length x) j))
    (habs : ∀ key, key ∈ keysOf q.slotTable → blob q.dataBuf key ≠ x) :
    Inv X { dataBuf := q.dataBuf ++ x, numSlotsUsed := q.numSlotsUsed + 1,
            slotTable := q.slotTable.set e ⟨true, ⟨q.dataBuf.length, x.length⟩⟩ } := by
  have hperm := keysOf_set q.slotTable e s ⟨q.dataBuf.length, x.length⟩ hs hso
  have hblob : ∀ key, key ∈ keysOf q.slotTable → blob (q.dataBuf ++ x) key = blob q.dataBuf key :=
    fun key hkey => blob_append _ _ _ (hI.inb key hkey)
  constructor
  · obtain ⟨m, hm⟩ := hI.pow2
    exact ⟨m, by simpa using hm⟩
  · intro key hkey
    have := hperm.mem_iff.mp hkey
    simp only [List.mem_cons] at this
    simp only [List.length_append]
    rcases this with rfl | hold
    · simp
    · have := hI.inb key hold
      omega
  · refine ((hperm.map _).nodup_iff).mpr ?_
    simp only [List.map_cons, blob_new]
    rw [List.map_congr_left hblob]
    refine List.nodup_cons.mpr ⟨?_, hI.nodup⟩
    intro hmem
    obtain ⟨key, hkey, hx⟩ := List.mem_map.mp hmem
    exact habs key hkey hx
  · refine pathInv_set X q.dataBuf (q.dataBuf ++ x) q.slotTable e _ hI.path hblob
      (getElem?_lt hs) ?_
    rw [blob_new]
    exact ⟨k, hpos, hocc⟩
  · have := hI.used
    rw [hperm.length_eq]
    simp only [List.length_cons]
    omega
  · rw [(hperm.map _).sum_eq]
    simp only [List.length_append, List.map_cons, List.sum_cons]
    rw [hI.total]
    omega
  · have hold : ∀ key, key ∈ keysOf q.slotTable → key.size ≠ 0 →
        key.offset ≠ q.dataBuf.length := by
      intro key hkey hsz
      have := hI.inb key hkey
      omega
    intro k1 h1 k2 h2 hoff hs1 hs2
    have h1 := hperm.mem_iff.mp h1
    have h2 := hperm.mem_iff.mp h2
    simp only [List.mem_cons] at h1 h2
    rcases h1 with rfl | h1 <;> rcases h2 with rfl | h2
    · rfl
    · exact absurd hoff.symm (hold k2 h2 hs2)
    · exact absurd hoff (hold k1 h1 hs1)
    · exact hI.offs k1 h1 k2 h2 hoff hs1 hs2

/-- What `upoolAdd` does on a pool satisfying the invariant, when the doubled table length
fits 32 bits in case the load check fires and, for a new blob, the length of the data buffer
fits 32 bits. -/
theorem upoolAdd_spec (X : List Byte → Nat → Nat) (p : Upool) (hI : Inv X p) (x : List Byte)
    (hov : loadExceeded p.numSlotsUsed p.slotTable.length → 2 * p.slotTable.length < 2 ^ 32)
    (fuel : Nat) (hfuel : 2 * p.slotTable.length + 1 ≤ fuel) :
    (∀ key, key ∈ keysOf p.slotTable → blob p.dataBuf key = x →
      ∃ p1, upoolAdd X fuel p x = .ok (key.offset, false, p1) ∧ p1.dataBuf = p.dataBuf ∧
        (keysOf p1.slotTable).Perm (keysOf p.slotTable) ∧ Inv X p1 ∧
        p1.slotTable.length = (if loadExceeded p.numSlotsUsed p.slotTable.length then 2 else 1)
          * p.slotTable.length ∧
        p1.numSlotsUsed = p.numSlotsUsed +
          (if loadExceeded p.numSlotsUsed p.slotTable.length then (keysOf p.slotTable).length
           else 0)) ∧
    ((∀ key, key ∈ keysOf p.slotTable → blob p.dataBuf key ≠ x) →
      p.dataBuf.length < 2 ^ 32 →
      ∃ p1, upoolAdd X fuel p x = .ok (p.dataBuf.length, true, p1) ∧
        p1.dataBuf = p.dataBuf ++ x ∧
        (keysOf p1.slotTable).Perm (⟨p.dataBuf.length, x.length⟩ :: keysOf p.slotTable) ∧
        Inv X p1 ∧
        p1.slotTable.length = (if loadExceeded p.numSlotsUsed p.slotTable.length then 2 else 1)
          * p.slotTable.length ∧
        p1.numSlotsUsed = p.numSlotsUsed + 1 +
          (if loadExceeded p.numSlotsUsed p.slotTable.length then (keysOf p.slotTable).length
           else 0)) := by
  obtain ⟨q, hq, hb, hperm, hIq, hfree, hlen, hused⟩ := loadCheck_spec X p hI hov fuel hfuel
  obtain ⟨m, hm⟩ := hIq.pow2
  have hL : q.slotTable.length ≠ 0 := by
    have : 0 < 2 ^ m := Nat.pow_pos (by decide)
    omega
  have hhead : upoolAdd X fuel p x =
      match addProbe fuel q x (stepOf X (2 ^ m) x) (calcHash X x % 2 ^ m)
          (calcHash X x % 2 ^ m) with
      | .fault f => .fault f
      | .ok (some r) => .ok r
      | .ok none => addRetry X fuel fuel q x (calcHash X x) (stepOf X (2 ^ m) x) := by
    unfold upoolAdd
    rw [hq]
    have hu : umod (calcHash X x) q.slotTable.length = .ok (calcHash X x % 2 ^ m) := by
      simp [umod, hL, hm]
    simp only [upoolCalcShift_eq X q x hL, hu]
    rw [hm]
  constructor
  · intro key hkey hx
    have hkey1 : key ∈ keysOf q.slotTable := hperm.mem_iff.mpr hkey
    obtain ⟨hadd, _⟩ := probe_present X q x m hm hIq.inb hIq.nodup hIq.path key hkey1
      (by rw [hb]; exact hx) fuel (by split at hlen <;> omega)
    refine ⟨q, ?_, hb, hperm, hIq, hlen, hused⟩
    rw [hhead, hadd]
  · intro habs hbuf
    have habs1 : ∀ key, key ∈ keysOf q.slotTable → blob q.dataBuf key ≠ x := by
      intro key hkey
      rw [hb]
      exact habs key (hperm.mem_iff.mp hkey)
    obtain ⟨k, e, s, hk, hpos, hs, hso, hocc, hrun⟩ :=
      probe_absent X q x m hm hIq.inb hfree habs1
    obtain ⟨hadd, _⟩ := hrun fuel (by split at hlen <;> omega)
    have hmod : q.dataBuf.length % 2 ^ 32 = q.dataBuf.length :=
      Nat.mod_eq_of_lt (by rw [hb]; exact hbuf)
    rw [hmod] at hadd
    refine ⟨_, ?_, ?_, ?_, inv_insert X q x hIq e k s hs hso (by rw [hm]; exact hpos)
      (by rw [hm]; exact hocc) habs1, ?_, ?_⟩
    · rw [hhead, hadd, hb]
    · simp [hb]
    · simp only
      rw [hb]
      exact (keysOf_set q.slotTable e s _ hs hso).trans (List.Perm.cons _ hperm)
    · simpa using hlen
    · simp only [hused]
      omega

/-! ## Reachable pools -/

theorem key_eq_of_blob (p : Upool) (key : Upool_Key) (x : List Byte)
    (hin : key.offset + key.size ≤ p.dataBuf.length) (hx : blob p.dataBuf key = x) :
    key = ⟨key.offset, x.length⟩ := by
  have := blob_length p.dataBuf key hin
  rw [hx] at this
  cases key
  simp_all

/-- One successful `upoolAdd` preserves the invariant and extends the trace correctly. -/
theorem reach_step (X : List Byte → Nat → Nat) (p p1 : Upool)
    (tr : List (List Byte × Nat × Bool)) (hI : Inv X p) (hT : TraceOk tr p)
    (hov : loadExceeded p.numSlotsUsed p.slotTable.length → 2 * p.slotTable.length < 2 ^ 32)
    (hpb : p.dataBuf.length < 2 ^ 32)
    (fuel : Nat) (x : List Byte) (o : Nat) (b : Bool)
    (hadd : upoolAdd X fuel p x = .ok (o, b, p1)) :
    Inv X p1 ∧ TraceOk ((x, o, b) :: tr) p1 := by
  have hbig := upoolAdd_mono X p x fuel _ hadd (by simp)
    (max fuel (2 * p.slotTable.length + 1)) (Nat.le_max_left _ _)
  obtain ⟨hpres, habs⟩ := upoolAdd_spec X p hI x hov (max fuel (2 * p.slotTable.length + 1))
    (Nat.le_max_right _ _)
  by_cases hex : ∃ key, key ∈ keysOf p.slotTable ∧ blob p.dataBuf key = x
  · obtain ⟨key, hkey, hx⟩ := hex
    obtain ⟨p2, hrun, hb, hperm, hI2, _, _⟩ := hpres key hkey hx
    rw [hbig] at hrun
    simp only [Res.ok.injEq, Prod.mk.injEq] at hrun
    obtain ⟨rfl, rfl, rfl⟩ := hrun
    refine ⟨hI2, ?_, ?_⟩
    · intro x1 o1 b1 hmem
      rw [hb]
      simp only [List.mem_cons, Prod.mk.injEq] at hmem
      rcases hmem with ⟨rfl, rfl, rfl⟩ | hold
      · rw [← key_eq_of_blob p key x1 (hI.inb key hkey) hx]
        exact ⟨hperm.mem_iff.mpr hkey, hx⟩
      · exact ⟨hperm.mem_iff.mpr (hT.1 x1 o1 b1 hold).1, (hT.1 x1 o1 b1 hold).2⟩
    · intro key1 hkey1
      rw [hb]
      obtain ⟨b1, hb1⟩ := hT.2 key1 (hperm.mem_iff.mp hkey1)
      exact ⟨b1, List.mem_cons_of_mem _ hb1⟩
  · have hno : ∀ key, key ∈ keysOf p.slotTable → blob p.dataBuf key ≠ x :=
      fun key hkey hx => hex ⟨key, hkey, hx⟩
    obtain ⟨p2, hrun, hb, hperm, hI2, _, _⟩ := habs hno hpb
    rw [hbig] at hrun
    simp only [Res.ok.injEq, Prod.mk.injEq] at hrun
    obtain ⟨rfl, rfl, rfl⟩ := hrun
    refine ⟨hI2, ?_, ?_⟩
    · intro x1 o1 b1 hmem
      rw [hb]
      simp only [List.mem_cons, Prod.mk.injEq] at hmem
      rcases hmem with ⟨rfl, rfl, rfl⟩ | hold
      · exact ⟨hperm.mem_iff.mpr (List.mem_cons_self _ _), blob_new _ _⟩
      · obtain ⟨hk, hbl⟩ := hT.1 x1 o1 b1 hold
        refine ⟨hperm.mem_iff.mpr (List.mem_cons_of_mem _ hk), ?_⟩
        rw [blob_append _ _ _ (hI.inb _ hk)]
        exact hbl
    · intro key1 hkey1
      rw [hb]
      have := hperm.mem_iff.mp hkey1
      simp only [List.mem_cons] at this
      rcases this with rfl | hold
      · exact ⟨true, by rw [blob_new]; exact List.mem_cons_self _ _⟩
      · obtain ⟨b1, hb1⟩ := hT.2 key1 hold
        refine ⟨b1, List.mem_cons_of_mem _ ?_⟩
        rw [blob_append _ _ _ (hI.inb _ hold)]
        exact hb1

/-! ## The data buffer and the traversal -/

theorem upoolOccupySlot_buf (p q : Upool) (si sz off : Nat)
    (h : upoolOccupySlot p si sz off = .ok q) : q.dataBuf = p.dataBuf := by
  unfold upoolOccupySlot at h
  dsimp only at h
  split at h
  · cases h
  · split at h
    · cases h
    · split at h
      · cases h
      · cases h; rfl

theorem enlargeProbe_buf (p : Upool) (st s0 sz off : Nat) :
    ∀ (fuel si : Nat) (q : Upool), enlargeProbe fuel p st s0 si sz off = .ok q →
      q.dataBuf = p.dataBuf := by
  intro fuel
  induction fuel with
  | zero => intro si q h; cases h
  | succ f ih =>
    intro si q h
    simp only [enlargeProbe] at h
    split at h
    · cases h
    · split at h
      · exact upoolOccupySlot_buf _ _ _ _ _ h
      · split at h
        · cases h
        · split at h
          · cases h
          · exact ih _ q h

theorem enlargeSlot_buf (X : List Byte → Nat → Nat) (p q : Upool) (slot : Upool_Slot)
    (fuel : Nat) (h : enlargeSlot X fuel p slot = .ok q) : q.dataBuf = p.dataBuf := by
  unfold enlargeSlot at h
  split at h
  · cases h; rfl
  · dsimp only at h
    split at h
    · cases h
    · split at h
      · cases h
      · split at h
        · cases h
        · exact enlargeProbe_buf _ _ _ _ _ _ _ q h

theorem enlargeLoop_buf (X : List Byte → Nat → Nat) (fuel : Nat) (rest : List Upool_Slot) :
    ∀ (p q : Upool), enlargeLoop X fuel rest p = .ok q → q.dataBuf = p.dataBuf := by
  induction rest with
  | nil => intro p q h; cases h; rfl
  | cons a rest ih =>
    intro p q h
    simp only [enlargeLoop] at h
    split at h
    · cases h
    · rename_i p1 hp1
      rw [ih p1 q h, enlargeSlot_buf X p p1 a fuel hp1]

/-- `upoolEnlarge` never touches the data buffer. -/
theorem upoolEnlarge_buf (X : List Byte → Nat → Nat) (p q : Upool) (fuel : Nat)
    (h : upoolEnlarge X fuel p = .ok q) : q.dataBuf = p.dataBuf := by
  unfold upoolEnlarge at h
  dsimp only at h
  have hq := enlargeLoop_buf X fuel _ _ q h
  exact hq

theorem slotMatches_true (p : Upool) (slot : Upool_Slot) (x : List Byte)
    (h : slotMatches p slot x = .ok true) :
    slot.elm.offset + x.length ≤ p.dataBuf.length ∧
      blob p.dataBuf ⟨slot.elm.offset, x.length⟩ = x := by
  unfold slotMatches readData at h
  by_cases hsz : slot.elm.size = x.length
  · by_cases hle : slot.elm.offset + x.length ≤ p.dataBuf.length
    · simp only [hsz, ne_eq, not_true_eq_false, if_false, hle, if_true, Res.ok.injEq,
        decide_eq_true_eq] at h
      exact ⟨hle, h⟩
    · simp [hsz, hle] at h
  · simp [hsz] at h

theorem addProbe_buf (p : Upool) (x : List Byte) (st s0 : Nat) :
    ∀ (fuel si o : Nat) (b : Bool) (p1 : Upool),
      addProbe fuel p x st s0 si = .ok (some (o, b, p1)) →
      (∃ t, p1.dataBuf = p.dataBuf ++ t) ∧ o + x.length ≤ p1.dataBuf.length ∧
        (p.dataBuf.length < 2 ^ 32 → blob p1.dataBuf ⟨o, x.length⟩ = x) := by
  intro fuel
  induction fuel with
  | zero => intro si o b p1 h; cases h
  | succ f ih =>
    intro si o b p1 h
    simp only [addProbe] at h
    split at h
    · cases h
    · split at h
      · simp only [upoolAddData] at h
        split at h
        · cases h
        · rename_i p2 hp2
          have hb := upoolOccupySlot_buf _ _ _ _ _ hp2
          simp only [Res.ok.injEq, Option.some.injEq, Prod.mk.injEq] at h
          obtain ⟨rfl, rfl, rfl⟩ := h
          rw [hb]
          have hle := Nat.mod_le p.dataBuf.length (2 ^ 32)
          refine ⟨⟨x, rfl⟩, by simp only [List.length_append]; omega, fun hlt => ?_⟩
          rw [Nat.mod_eq_of_lt hlt]
          exact blob_new _ _
      · split at h
        · cases h
        · rename_i hmatch
          simp only [Res.ok.injEq, Option.some.injEq, Prod.mk.injEq] at h
          obtain ⟨rfl, rfl, rfl⟩ := h
          obtain ⟨h1, h2⟩ := slotMatches_true _ _ _ hmatch
          exact ⟨⟨[], by simp⟩, h1, fun _ => h2⟩
        · split at h
          · cases h
          · split at h
            · cases h
            · exact ih _ o b p1 h

theorem retryProbe_buf (p : Upool) (x : List Byte) (st s0 : Nat) :
    ∀ (fuel si o : Nat) (b : Bool) (p1 : Upool),
      retryProbe fuel p x st s0 si = .ok (some (o, b, p1)) →
      (∃ t, p1.dataBuf = p.dataBuf ++ t) ∧ o + x.length ≤ p1.dataBuf.length ∧
        (p.dataBuf.length < 2 ^ 32 → blob p1.dataBuf ⟨o, x.length⟩ = x) := by
  intro fuel
  induction fuel with
  | zero => intro si o b p1 h; cases h
  | succ f ih =>
    intro si o b p1 h
    simp only [retryProbe] at h
    split at h
    · cases h
    · split at h
      · simp only [upoolAddData] at h
        split at h
        · cases h
        · rename_i p2 hp2
          have hb := upoolOccupySlot_buf _ _ _ _ _ hp2
          simp only [Res.ok.injEq, Option.some.injEq, Prod.mk.injEq] at h
          obtain ⟨rfl, rfl, rfl⟩ := h
          rw [hb]
          have hle := Nat.mod_le p.dataBuf.length (2 ^ 32)
          refine ⟨⟨x, rfl⟩, by simp only [List.length_append]; omega, fun hlt => ?_⟩
          rw [Nat.mod_eq_of_lt hlt]
          exact blob_new _ _
      · split at h
        · cases h
        · split at h
          · cases h
          · exact ih _ o b p1 h

theorem addRetry_buf (X : List Byte → Nat → Nat) (x : List Byte) (hash st fuel : Nat) :
    ∀ (rounds : Nat) (p : Upool) (o : Nat) (b : Bool) (p1 : Upool),
      addRetry X fuel rounds p x hash st = .ok (o, b, p1) →
      (∃ t, p1.dataBuf = p.dataBuf ++ t) ∧ o + x.length ≤ p1.dataBuf.length ∧
        (p.dataBuf.length < 2 ^ 32 → blob p1.dataBuf ⟨o, x.length⟩ = x) := by
  intro rounds
  induction rounds with
  | zero => intro p o b p1 h; cases h
  | succ n ih =>
    intro p o b p1 h
    simp only [addRetry] at h
    split at h
    · cases h
    · rename_i q hq
      have hbq := upoolEnlarge_buf X p q fuel hq
      split at h
      · cases h
      · split at h
        · cases h
        · rename_i r hr
          simp only [Res.ok.injEq] at h
          subst h
          have := retryProbe_buf q x st _ fuel _ o b p1 hr
          rwa [hbq] at this
        · have := ih q o b p1 h
          rwa [hbq] at this

/-- A call of `upoolAdd` that returns only ever appends to the data buffer, returns an offset
at which a blob of the size of `x` fits, and, when the data buffer was shorter than `2 ^ 32`
before the call, leaves the blob at the returned offset (any pool, any hash values). -/
theorem upoolAdd_buf (X : List Byte → Nat → Nat) (p : Upool) (x : List Byte) (fuel o : Nat)
    (b : Bool) (p1 : Upool) (h : upoolAdd X fuel p x = .ok (o, b, p1)) :
    (∃ t, p1.dataBuf = p.dataBuf ++ t) ∧ o + x.length ≤ p1.dataBuf.length ∧
      (p.dataBuf.length < 2 ^ 32 → blob p1.dataBuf ⟨o, x.length⟩ = x) := by
  unfold upoolAdd at h
  split at h
  · cases h
  · rename_i q hq
    have hbq : q.dataBuf = p.dataBuf := by
      split at hq
      · exact upoolEnlarge_buf X p q fuel hq
      · cases hq; rfl
    dsimp only at h
    split at h
    · cases h
    · split at h
      · cases h
      · split at h
        · cases h
        · rename_i r hr
          simp only [Res.ok.injEq] at h
          subst h
          have := addProbe_buf q x _ _ fuel _ o b p1 hr
          rwa [hbq] at this
        · have := addRetry_buf X x _ _ fuel fuel q o b p1 h
          rwa [hbq] at this

theorem reach_buf (X : List Byte → Nat → Nat) (p0 p : Upool)
    (tr : List (List Byte × Nat × Bool)) (h : Reach X p0 tr p) :
    ∃ t, p.dataBuf = p0.dataBuf ++ t := by
  induction h with
  | init => exact ⟨[], by simp⟩
  | add tr p p1 fuel x o b _ hadd ih =>
    obtain ⟨t, ht⟩ := ih
    obtain ⟨⟨t1, ht1⟩, _, _⟩ := upoolAdd_buf X p x fuel o b p1 hadd
    exact ⟨t ++ t1, by rw [ht1, ht, List.append_assoc]⟩

/-- On a pool whose table is empty, the re-insertion of a slot returns only when the slot is
free. -/
theorem enlargeSlot_empty (X : List Byte → Nat → Nat) (fuel : Nat) (p q : Upool)
    (slot : Upool_Slot) (hp : p.slotTable = [])
    (h : enlargeSlot X fuel p slot = .ok q) : q = p ∧ slot.occupied = false := by
  unfold enlargeSlot at h
  cases ho : slot.occupied with
  | false =>
    simp only [ho, Bool.not_false, if_true, Res.ok.injEq] at h
    exact ⟨h.symm, rfl⟩
  | true =>
    simp only [ho, Bool.not_true, Bool.false_eq_true, if_false, upoolCalcShift, umod, hp,
      List.length_nil, if_true] at h
    split at h <;> cases h

theorem enlargeLoop_empty (X : List Byte → Nat → Nat) (fuel : Nat) (rest : List Upool_Slot) :
    ∀ (p q : Upool), p.slotTable = [] → enlargeLoop X fuel rest p = .ok q →
      q = p ∧ keysOf rest = [] := by
  induction rest with
  | nil => intro p q _ h; cases h; exact ⟨rfl, rfl⟩
  | cons a rest ih =>
    intro p q hp h
    simp only [enlargeLoop] at h
    split at h
    · cases h
    · rename_i p1 hp1
      obtain ⟨h1, ho⟩ := enlargeSlot_empty X fuel p p1 a hp hp1
      subst h1
      obtain ⟨h2, hk⟩ := ih p1 q hp h
      refine ⟨h2, ?_⟩
      rw [keysOf_cons, ho]
      exact hk

/-- A call of `upoolAdd` on a pool whose table length is a power of two returns only if the
resize of its load check, when that check fires, does not wrap the table length to zero. -/
theorem upoolAdd_ok_noov (X : List Byte → Nat → Nat) (p : Upool) (m : Nat)
    (hm : p.slotTable.length = 2 ^ m) (x : List Byte) (fuel : Nat) (r : Nat × Bool × Upool)
    (hadd : upoolAdd X fuel p x = .ok r)
    (hload : loadExceeded p.numSlotsUsed p.slotTable.length) : 2 * p.slotTable.length < 2 ^ 32 := by
  by_contra hge
  have hpos : 0 < 2 ^ m := Nat.pow_pos (by decide)
  have hm32 : 32 ≤ m + 1 := by
    by_contra hlt
    have : 2 ^ (m + 1) < 2 ^ 32 := Nat.pow_lt_pow_right (by decide) (by omega)
    rw [Nat.pow_succ] at this
    omega
  have hz : p.slotTable.length * 2 % 2 ^ 32 = 0 := by
    rw [hm, ← Nat.pow_succ]
    exact Nat.mod_eq_zero_of_dvd (Nat.pow_dvd_pow 2 hm32)
  unfold upoolAdd at hadd
  rw [if_pos hload] at hadd
  split at hadd
  · cases hadd
  · rename_i q hq
    unfold upoolEnlarge at hq
    simp only [hz, show p.slotTable.length ≠ 0 by omega, if_false, List.replicate_zero] at hq
    obtain ⟨hq1, _⟩ := enlargeLoop_empty X fuel _ _ q rfl hq
    subst hq1
    simp [upoolCalcShift, umod] at hadd

/-- Every pool reachable from a fresh pool of power-of-two size whose data buffer is shorter
than `2 ^ 32` satisfies the invariant, and its trace agrees with its stored keys. -/
theorem reach_inv (X : List Byte → Nat → Nat) (m : Nat) (tr : List (List Byte × Nat × Bool))
    (p : Upool) (h : Reach X (newUpool (2 ^ m)) tr p) (hbuf : p.dataBuf.length < 2 ^ 32) :
    Inv X p ∧ TraceOk tr p := by
  induction h with
  | init =>
    refine ⟨inv_newUpool X m, ?_, ?_⟩
    · intro x o b hmem; simp at hmem
    · intro key hkey; simp [newUpool, keysOf_replicate] at hkey
  | add tr p p1 fuel x o b _ hadd ih =>
    obtain ⟨⟨t, ht⟩, _, _⟩ := upoolAdd_buf X p x fuel o b p1 hadd
    have hpb : p.dataBuf.length < 2 ^ 32 := by
      rw [ht, List.length_append] at hbuf
      omega
    obtain ⟨hI, hT⟩ := ih hpb
    obtain ⟨m1, hm1⟩ := hI.pow2
    exact reach_step X p p1 tr hI hT (upoolAdd_ok_noov X p m1 hm1 x fuel _ hadd) hpb
      fuel x o b hadd

theorem forEachLoop_eq (p : Upool) :
    ∀ (n i : Nat), i + n = p.slotTable.length →
      forEachLoop p n i
        = (keysOf (p.slotTable.drop i)).map (fun key => (key.size, blob p.dataBuf key)) := by
  intro n
  induction n with
  | zero =>
    intro i hi
    rw [List.drop_of_length_le (by omega)]
    rfl
  | succ n ih =>
    intro i hi
    have hlt : i < p.slotTable.length := by omega
    rw [List.drop_eq_getElem_cons hlt, keysOf_cons]
    simp only [forEachLoop, List.getElem?_eq_getElem hlt]
    cases ho : (p.slotTable[i]).occupied with
    | false => simpa using ih (i + 1) (by omega)
    | true => simpa [blob] using ih (i + 1) (by omega)

/-- `upoolForEach` calls the callback on the occupied slots, in slot order. -/
theorem upoolForEach_eq (p : Upool) :
    upoolForEach p
      = (keysOf p.slotTable).map (fun key => (key.size, blob p.dataBuf key)) := by
  have := forEachLoop_eq p p.slotTable.length 0 (by omega)
  simpa [upoolForEach] using this

/-- On a pool satisfying the invariant, `upoolGet` of a stored blob returns the offset of its
key. -/
theorem upoolGet_present (X : List Byte → Nat → Nat) (p : Upool) (hI : Inv X p) (x : List Byte)
    (key : Upool_Key) (hkey : key ∈ keysOf p.slotTable) (hx : blob p.dataBuf key = x)
    (fuel : Nat) (hfuel : p.slotTable.length ≤ fuel) :
    upoolGet X fuel p x = .ok key.offset := by
  obtain ⟨m1, hm1⟩ := hI.pow2
  have hL : p.slotTable.length ≠ 0 := by
    have : 0 < 2 ^ m1 := Nat.pow_pos (by decide)
    omega
  obtain ⟨_, hget⟩ := probe_present X p x m1 hm1 hI.inb hI.nodup hI.path key hkey hx
    fuel (by omega)
  have hu : umod (calcHash X x) p.slotTable.length = .ok (calcHash X x % 2 ^ m1) := by
    simp [umod, hL, hm1]
  unfold upoolGet
  simp only [upoolCalcShift_eq X p x hL, hu]
  rw [hm1]
  exact hget

/-- On a pool with a power-of-two table that has a free slot and whose keys are in bounds,
`upoolGet` of a blob that no key refers to returns the sentinel. -/
theorem upoolGet_absent (X : List Byte → Nat → Nat) (p : Upool) (x : List Byte) (m : Nat)
    (hm : p.slotTable.length = 2 ^ m)
    (hin : ∀ key, key ∈ keysOf p.slotTable → key.offset + key.size ≤ p.dataBuf.length)
    (hfree : (keysOf p.slotTable).length < p.slotTable.length)
    (habs : ∀ key, key ∈ keysOf p.slotTable → blob p.dataBuf key ≠ x)
    (fuel : Nat) (hfuel : p.slotTable.length ≤ fuel) :
    upoolGet X fuel p x = .ok Upool_ID_NULL := by
  have hL : p.slotTable.length ≠ 0 := by
    have : 0 < 2 ^ m := Nat.pow_pos (by decide)
    omega
  obtain ⟨k, e, s, _, _, _, _, _, hrun⟩ := probe_absent X p x m hm hin hfree habs
  have hu : umod (calcHash X x) p.slotTable.length = .ok (calcHash X x % 2 ^ m) := by
    simp [umod, hL, hm]
  unfold upoolGet
  simp only [upoolCalcShift_eq X p x hL, hu]
  rw [hm]
  exact (hrun fuel (by omega)).2

/-- On a pool with a power-of-two table that has a free slot, whose keys are in bounds and
whose load check does not fire, `upoolAdd` of a blob that no key refers to appends the blob
and stores the key made of the truncated buffer length and the size of the blob. -/
theorem upoolAdd_absent_noload (X : List Byte → Nat → Nat) (p : Upool) (x : List Byte) (m : Nat)
    (hm : p.slotTable.length = 2 ^ m)
    (hin : ∀ key, key ∈ keysOf p.slotTable → key.offset + key.size ≤ p.dataBuf.length)
    (hfree : (keysOf p.slotTable).length < p.slotTable.length)
    (habs : ∀ key, key ∈ keysOf p.slotTable → blob p.dataBuf key ≠ x)
    (hload : ¬ loadExceeded p.numSlotsUsed p.slotTable.length) :
    ∃ p1, (∀ fuel, p.slotTable.length ≤ fuel →
        upoolAdd X fuel p x = .ok (p.dataBuf.length % 2 ^ 32, true, p1)) ∧
      p1.dataBuf = p.dataBuf ++ x ∧ p1.numSlotsUsed = p.numSlotsUsed + 1 ∧
      p1.slotTable.length = p.slotTable.length ∧
      (keysOf p1.slotTable).Perm (⟨p.dataBuf.length % 2 ^ 32, x.length⟩ :: keysOf p.slotTable) := by
  have hL : p.slotTable.length ≠ 0 := by
    have : 0 < 2 ^ m := Nat.pow_pos (by decide)
    omega
  obtain ⟨k, e, s, _, _, hs, hso, _, hrun⟩ := probe_absent X p x m hm hin hfree habs
  have hu : umod (calcHash X x) p.slotTable.length = .ok (calcHash X x % 2 ^ m) := by
    simp [umod, hL, hm]
  refine ⟨{ dataBuf := p.dataBuf ++ x, numSlotsUsed := p.numSlotsUsed + 1,
            slotTable := p.slotTable.set e ⟨true, ⟨p.dataBuf.length % 2 ^ 32, x.length⟩⟩ },
    ?_, rfl, rfl, by simp, keysOf_set p.slotTable e s _ hs hso⟩
  intro fuel hfuel
  have hadd := (hrun fuel (by omega)).1
  unfold upoolAdd
  rw [if_neg hload]
  simp only [upoolCalcShift_eq X p x hL, hu]
  rw [hm, hadd]

/-! ## Properties of the pool -/

/-- C1 (dedup, idempotence), amended.  Let `p` be reachable from `newUpool n`, `n` a power of
two, by calls of `upoolAdd`, let the data buffer of `p` be shorter than `2 ^ 32` bytes and its
table shorter than `2 ^ 31` slots, and let an earlier call have returned offset `o` for the blob
`x`.  Then `upoolAdd` of `x` on `p` returns `o` with `isNew = false` and leaves the data buffer
unchanged, whatever the hash function is. -/
theorem upoolAdd_dedup (XXH32 : List Byte → Nat → Nat) (n : Nat) (hn : ∃ m, n = 2 ^ m)
    (tr : List (List Byte × Nat × Bool)) (p : Upool) (hreach : Reach XXH32 (newUpool n) tr p)
    (hbuf : p.dataBuf.length < 2 ^ 32) (htab : p.slotTable.length < 2 ^ 31)
    (x : List Byte) (o : Nat) (b : Bool) (hmem : (x, o, b) ∈ tr)
    (fuel : Nat) (hfuel : 2 * p.slotTable.length + 1 ≤ fuel) :
    ∃ p1, upoolAdd XXH32 fuel p x = .ok (o, false, p1) ∧ p1.dataBuf = p.dataBuf := by
  obtain ⟨m, rfl⟩ := hn
  obtain ⟨hI, hT⟩ := reach_inv XXH32 m tr p hreach hbuf
  obtain ⟨hk, hx⟩ := hT.1 x o b hmem
  obtain ⟨p1, hrun, hb, _⟩ :=
    (upoolAdd_spec XXH32 p hI x (fun _ => by omega) fuel hfuel).1 ⟨o, x.length⟩ hk hx
  exact ⟨p1, hrun, hb⟩

/-- The dedup theorem on the pool obtained from `newUpool 1` by inserting `a` and `b`:
inserting `a` again returns offset 0. -/
theorem upoolAdd_dedup_witness :
    ∃ p1, upoolAdd toyHash 5
        ⟨[97, 98], 3, [⟨true, ⟨0, 1⟩⟩, ⟨true, ⟨1, 1⟩⟩]⟩ [97] = .ok (0, false, p1) ∧
      p1.dataBuf = [97, 98] :=
  upoolAdd_dedup toyHash 1 ⟨0, rfl⟩ [([98], 1, true), ([97], 0, true)]
    ⟨[97, 98], 3, [⟨true, ⟨0, 1⟩⟩, ⟨true, ⟨1, 1⟩⟩]⟩
    (Reach.add _ ⟨[97], 1, [⟨true, ⟨0, 1⟩⟩]⟩ _ 3 [98] 1 true
      (Reach.add _ (newUpool 1) _ 1 [97] 0 true Reach.init (by decide)) (by decide))
    (by decide) (by decide) [97] 0 true (by simp) 5 (by decide)

/-- C2 (lookup consistency across resizes), amended.  Let `p` be reachable from `newUpool n`,
`n` a power of two, by calls of `upoolAdd`, let the data buffer of `p` be shorter than `2 ^ 32`
bytes, and let an earlier call have returned offset `o` for the blob `x`.  Then `upoolGet` of
`x` on `p` returns `o` (with any fuel of at least the table length). -/
theorem upoolGet_consistent (XXH32 : List Byte → Nat → Nat) (n : Nat) (hn : ∃ m, n = 2 ^ m)
    (tr : List (List Byte × Nat × Bool)) (p : Upool) (hreach : Reach XXH32 (newUpool n) tr p)
    (hbuf : p.dataBuf.length < 2 ^ 32)
    (x : List Byte) (o : Nat) (b : Bool) (hmem : (x, o, b) ∈ tr)
    (fuel : Nat) (hfuel : p.slotTable.length ≤ fuel) :
    upoolGet XXH32 fuel p x = .ok o := by
  obtain ⟨m, rfl⟩ := hn
  obtain ⟨hI, hT⟩ := reach_inv XXH32 m tr p hreach hbuf
  obtain ⟨hk, hx⟩ := hT.1 x o b hmem
  exact upoolGet_present XXH32 p hI x ⟨o, x.length⟩ hk hx fuel hfuel

/-- The lookup theorem on the pool obtained from `newUpool 1` by inserting `a` and `b`:
looking up `b` returns offset 1. -/
theorem upoolGet_consistent_witness :
    upoolGet toyHash 2 ⟨[97, 98], 3, [⟨true, ⟨0, 1⟩⟩, ⟨true, ⟨1, 1⟩⟩]⟩ [98] = .ok 1 :=
  upoolGet_consistent toyHash 1 ⟨0, rfl⟩ [([98], 1, true), ([97], 0, true)]
    ⟨[97, 98], 3, [⟨true, ⟨0, 1⟩⟩, ⟨true, ⟨1, 1⟩⟩]⟩
    (Reach.add _ ⟨[97], 1, [⟨true, ⟨0, 1⟩⟩]⟩ _ 3 [98] 1 true
      (Reach.add _ (newUpool 1) _ 1 [97] 0 true Reach.init (by decide)) (by decide))
    (by decide) [98] 1 true (by simp) 2 (by decide)

/-- Two insertions of different blobs into `newUpool 1`, for an arbitrary hash function: the
second one enlarges the table, and the re-insertion of the first blob is counted again. -/
theorem fresh_two_adds (X : List Byte → Nat → Nat) (x y : List Byte) (hxy : x ≠ y)
    (hx : x.length < 2 ^ 32) (fuel : Nat) (hfuel : 3 ≤ fuel) :
    ∃ p1 p2, upoolAdd X fuel (newUpool 1) x = .ok (0, true, p1) ∧
      upoolAdd X fuel p1 y = .ok (x.length, true, p2) ∧
      p2.numSlotsUsed = 3 ∧
      (keysOf p2.slotTable).Perm [⟨x.length, y.length⟩, ⟨0, x.length⟩] ∧
      p2.dataBuf = x ++ y := by
  have hI0 : Inv X (newUpool 1) := inv_newUpool X 0
  have e1 : (newUpool 1).dataBuf = [] := rfl
  have e2 : (newUpool 1).numSlotsUsed = 0 := rfl
  have e3 : (newUpool 1).slotTable.length = 1 := rfl
  have hk0 : keysOf (newUpool 1).slotTable = [] := keysOf_replicate 1
  have h01 : loadExceeded 0 1 = false := by decide
  have h11 : loadExceeded 1 1 = true := by decide
  obtain ⟨p1, hrun1, hb1, hperm1, hI1, hlen1, hused1⟩ :=
    (upoolAdd_spec X (newUpool 1) hI0 x (fun _ => by rw [e3]; decide) fuel
      (by rw [e3]; omega)).2
      (by intro key hkey; rw [hk0] at hkey; cases hkey) (by rw [e1]; simp)
  simp only [e1, e2, e3, hk0, h01, List.length_nil, List.nil_append, Nat.zero_mul, Nat.one_mul,
    Bool.false_eq_true, if_false, Nat.mul_one, Nat.zero_add,
    Nat.add_zero] at hrun1 hb1 hperm1 hlen1 hused1
  have hkeys1 : ∀ key, key ∈ keysOf p1.slotTable → key = ⟨0, x.length⟩ := by
    intro key hkey
    simpa using hperm1.mem_iff.mp hkey
  have hblob1 : blob p1.dataBuf ⟨0, x.length⟩ = x := by
    rw [hb1]
    simpa using blob_new [] x
  obtain ⟨p2, hrun2, hb2, hperm2, _, _, hused2⟩ :=
    (upoolAdd_spec X p1 hI1 y (fun _ => by rw [hlen1]; decide) fuel (by omega)).2
      (by intro key hkey; rw [hkeys1 key hkey, hblob1]; exact hxy) (by rw [hb1]; exact hx)
  rw [hb1] at hrun2 hb2 hperm2
  have hl1 : (keysOf p1.slotTable).length = 1 := by rw [hperm1.length_eq]; rfl
  rw [hused1, hlen1, hl1, h11] at hused2
  refine ⟨p1, p2, hrun1, hrun2, by simpa using hused2, ?_, hb2⟩
  exact hperm2.trans (List.Perm.cons _ hperm1)

/-- C3 (count), the code at a failing input.  After inserting the two blobs `a` and `b` into
`newUpool 1`, for an arbitrary hash function, `upoolElmsTotal` is 3, although two distinct
blobs were inserted, two slots are occupied and `upoolForEach` makes two calls: the
re-insertion done by `upoolEnlarge` counts the first blob a second time. -/
theorem upoolElmsTotal_overcounts (XXH32 : List Byte → Nat → Nat) (fuel : Nat) :
    ∃ p1 p2, upoolAdd XXH32 (fuel + 3) (newUpool 1) [97] = .ok (0, true, p1) ∧
      upoolAdd XXH32 (fuel + 3) p1 [98] = .ok (1, true, p2) ∧
      upoolElmsTotal p2 = 3 ∧
      (p2.slotTable.filter (fun s => s.occupied)).length = 2 ∧
      (upoolForEach p2).length = 2 := by
  obtain ⟨p1, p2, h1, h2, hu, hperm, _⟩ :=
    fresh_two_adds XXH32 [97] [98] (by decide) (by simp) (fuel + 3) (by omega)
  have hlen : (keysOf p2.slotTable).length = 2 := by rw [hperm.length_eq]; rfl
  refine ⟨p1, p2, h1, h2, hu, ?_, ?_⟩
  · simpa [keysOf] using hlen
  · rw [upoolForEach_eq, List.length_map, hlen]

/-- C4 as stated fails, for every hash function: on `newUpool 1` the empty blob and the blob
`a`, inserted in this order, are both given offset 0. -/
theorem distinct_offsets_counterexample :
    ¬ ∃ XXH32 : List Byte → Nat → Nat,
      ∀ (n : Nat) (tr : List (List Byte × Nat × Bool)) (p : Upool),
        (∃ m, n = 2 ^ m) → Reach XXH32 (newUpool n) tr p →
        ∀ (x y : List Byte) (ox oy : Nat) (bx bY : Bool),
          (x, ox, bx) ∈ tr → (y, oy, bY) ∈ tr → x ≠ y → ox ≠ oy := by
  rintro ⟨X, h⟩
  obtain ⟨p1, p2, h1, h2, _⟩ := fresh_two_adds X [] [97] (by decide) (by simp) 3 (by omega)
  have hreach : Reach X (newUpool 1) [([97], 0, true), ([], 0, true)] p2 :=
    Reach.add _ p1 p2 3 [97] 0 true (Reach.add _ (newUpool 1) p1 3 [] 0 true Reach.init h1) h2
  exact h 1 _ p2 ⟨0, rfl⟩ hreach [] [97] 0 0 true true (by simp) (by simp) (by decide) rfl

/-- C4, amended.  In a pool reachable from `newUpool n`, `n` a power of two, whose data buffer
is shorter than `2 ^ 32` bytes, two different blobs are never given the same (offset, size)
pair, and two different blobs that are both non-empty are never given the same offset. -/
theorem distinct_keys (XXH32 : List Byte → Nat → Nat) (n : Nat) (hn : ∃ m, n = 2 ^ m)
    (tr : List (List Byte × Nat × Bool)) (p : Upool) (hreach : Reach XXH32 (newUpool n) tr p)
    (hbuf : p.dataBuf.length < 2 ^ 32)
    (x y : List Byte) (ox oy : Nat) (bx bY : Bool)
    (hx : (x, ox, bx) ∈ tr) (hy : (y, oy, bY) ∈ tr) (hxy : x ≠ y) :
    (ox, x.length) ≠ (oy, y.length) ∧ (x ≠ [] → y ≠ [] → ox ≠ oy) := by
  obtain ⟨m, rfl⟩ := hn
  obtain ⟨hI, hT⟩ := reach_inv XXH32 m tr p hreach hbuf
  obtain ⟨hkx, hbx⟩ := hT.1 x ox bx hx
  obtain ⟨hky, hbY⟩ := hT.1 y oy bY hy
  constructor
  · intro heq
    simp only [Prod.mk.injEq] at heq
    apply hxy
    rw [← hbx, ← hbY, heq.1, heq.2]
  · intro hx0 hy0 heq
    have hkey := hI.offs _ hkx _ hky heq
      (by simpa using hx0) (by simpa using hy0)
    apply hxy
    rw [← hbx, ← hbY, hkey]

/-- The amended distinctness theorem on the pool obtained from `newUpool 1` by inserting
`a` and `b`. -/
theorem distinct_keys_witness :
    ((0, 1) : Nat × Nat) ≠ (1, 1) ∧ (([97] : List Byte) ≠ [] → ([98] : List Byte) ≠ [] →
      (0 : Nat) ≠ 1) :=
  distinct_keys toyHash 1 ⟨0, rfl⟩ [([98], 1, true), ([97], 0, true)]
    ⟨[97, 98], 3, [⟨true, ⟨0, 1⟩⟩, ⟨true, ⟨1, 1⟩⟩]⟩
    (Reach.add _ ⟨[97], 1, [⟨true, ⟨0, 1⟩⟩]⟩ _ 3 [98] 1 true
      (Reach.add _ (newUpool 1) _ 1 [97] 0 true Reach.init (by decide)) (by decide))
    (by decide) [97] [98] 0 1 true true (by simp) (by simp) (by decide)

theorem getProbe_full_one (p : Upool) (hp : p = ⟨[97], 1, [⟨true, ⟨0, 1⟩⟩]⟩) :
    ∀ fuel, getProbe fuel p [98] 1 0 = .fault .outOfFuel := by
  subst hp
  intro fuel
  induction fuel with
  | zero => rfl
  | succ f ih =>
    simp only [getProbe, slotAt, slotMatches, readData, upoolNextSlot, umod]
    simpa using ih

/-- C5 (miss behaviour), the code at a failing input.  After one insertion into `newUpool 1`
the table is full; `upoolGet` of a blob that was never inserted then runs out of every amount
of fuel: its loop has no test for the probe coming back to its start, and never returns. -/
theorem upoolGet_full_table_diverges (XXH32 : List Byte → Nat → Nat) :
    (∀ fuel, upoolAdd XXH32 (fuel + 1) (newUpool 1) [97]
        = .ok (0, true, ⟨[97], 1, [⟨true, ⟨0, 1⟩⟩]⟩)) ∧
    ∀ fuel, upoolGet XXH32 fuel ⟨[97], 1, [⟨true, ⟨0, 1⟩⟩]⟩ [98] = .fault .outOfFuel := by
  constructor
  · intro fuel
    simp [upoolAdd, newUpool, loadExceeded_zero, upoolCalcShift, umod, addProbe, slotAt,
      zeroSlot, upoolAddData, upoolOccupySlot, Nat.mod_one]
  · intro fuel
    simp only [upoolGet, upoolCalcShift, umod, List.length_singleton, Nat.mod_one]
    simpa using getProbe_full_one _ rfl fuel

/-- C6 (offset stability), amended.  If a call of `upoolAdd` on any pool whose data buffer is
shorter than `2 ^ 32` bytes returned offset `o` for the blob `x`, then after every later
sequence of `upoolAdd` calls (whatever the growth of the data buffer) the data buffer holds
the bytes of `x` at positions `[o, o + |x|)`. -/
theorem offset_stable (XXH32 : List Byte → Nat → Nat) (p p1 p2 : Upool) (fuel : Nat)
    (hbuf : p.dataBuf.length < 2 ^ 32)
    (x : List Byte) (o : Nat) (b : Bool) (hadd : upoolAdd XXH32 fuel p x = .ok (o, b, p1))
    (tr : List (List Byte × Nat × Bool)) (hreach : Reach XXH32 p1 tr p2) :
    o + x.length ≤ p2.dataBuf.length ∧ (p2.dataBuf.drop o).take x.length = x := by
  obtain ⟨_, hle, hblob⟩ := upoolAdd_buf XXH32 p x fuel o b p1 hadd
  obtain ⟨t, ht⟩ := reach_buf XXH32 p1 p2 tr hreach
  have happ := blob_append p1.dataBuf t ⟨o, x.length⟩ hle
  rw [ht]
  refine ⟨by simp only [List.length_append]; omega, ?_⟩
  have hgoal : blob (p1.dataBuf ++ t) ⟨o, x.length⟩ = x := by rw [happ, hblob hbuf]
  exact hgoal

/-- The stability theorem for the insertion of `a` into `newUpool 1`, followed by the
insertion of `b`. -/
theorem offset_stable_witness :
    0 + ([97] : List Byte).length ≤ ([97, 98] : List Byte).length ∧
      (([97, 98] : List Byte).drop 0).take ([97] : List Byte).length = [97] :=
  offset_stable toyHash (newUpool 1) ⟨[97], 1, [⟨true, ⟨0, 1⟩⟩]⟩
    ⟨[97, 98], 3, [⟨true, ⟨0, 1⟩⟩, ⟨true, ⟨1, 1⟩⟩]⟩ 1 (by decide) [97] 0 true (by decide)
    [([98], 1, true)]
    (Reach.add _ ⟨[97], 1, [⟨true, ⟨0, 1⟩⟩]⟩ _ 3 [98] 1 true Reach.init (by decide))

/-- C7 (insertion of a new blob), amended.  Let `n` be a power of two.  On every pool `p`
reachable from `newUpool n` whose data buffer is shorter than `2 ^ 32` bytes and whose table is
shorter than `2 ^ 31` slots, `upoolAdd` of a blob `x` that differs from every stored blob sets
`isNew = true`, returns the length of the data buffer before the call, appends `x` to the data
buffer and adds exactly the key `(offset, |x|)` to the keys of the occupied slots; the length
of the data buffer of `p` is the total size of the stored blobs.  On the fresh pool the blobs
`foo`, `bar`, `foo` get the offsets 0, 3, 0, the last one with `isNew = false`. -/
theorem upoolAdd_new (XXH32 : List Byte → Nat → Nat) (n : Nat) (hn : ∃ m, n = 2 ^ m) :
    (∀ (tr : List (List Byte × Nat × Bool)) (p : Upool), Reach XXH32 (newUpool n) tr p →
      p.dataBuf.length < 2 ^ 32 → p.slotTable.length < 2 ^ 31 →
      ∀ x : List Byte, (∀ key, key ∈ keysOf p.slotTable → blob p.dataBuf key ≠ x) →
      ∀ fuel, 2 * p.slotTable.length + 1 ≤ fuel →
        (∃ p1, upoolAdd XXH32 fuel p x = .ok (p.dataBuf.length, true, p1) ∧
          p1.dataBuf = p.dataBuf ++ x ∧
          (keysOf p1.slotTable).Perm (⟨p.dataBuf.length, x.length⟩ :: keysOf p.slotTable)) ∧
        p.dataBuf.length = ((keysOf p.slotTable).map (fun key => key.size)).sum) ∧
    (∀ k, ∃ p1 p2 p3,
      upoolAdd XXH32 (8 * n + 1 + k) (newUpool n) [102, 111, 111] = .ok (0, true, p1) ∧
      upoolAdd XXH32 (8 * n + 1 + k) p1 [98, 97, 114] = .ok (3, true, p2) ∧
      upoolAdd XXH32 (8 * n + 1 + k) p2 [102, 111, 111] = .ok (0, false, p3)) := by
  obtain ⟨m, rfl⟩ := hn
  constructor
  · intro tr p hreach hbuf htab x hnew fuel hfuel
    obtain ⟨hI, _⟩ := reach_inv XXH32 m tr p hreach hbuf
    obtain ⟨p1, hrun, hb, hperm, _⟩ :=
      (upoolAdd_spec XXH32 p hI x (fun _ => by omega) fuel hfuel).2 hnew hbuf
    exact ⟨⟨p1, hrun, hb, hperm⟩, hI.total⟩
  · intro k
    have hI0 : Inv XXH32 (newUpool (2 ^ m)) := inv_newUpool XXH32 m
    have e1 : (newUpool (2 ^ m)).dataBuf = [] := rfl
    have e2 : (newUpool (2 ^ m)).numSlotsUsed = 0 := rfl
    have e3 : (newUpool (2 ^ m)).slotTable.length = 2 ^ m := by simp [newUpool]
    have hk0 : keysOf (newUpool (2 ^ m)).slotTable = [] := keysOf_replicate _
    have hpos : 0 < 2 ^ m := Nat.pow_pos (by decide)
    have h0 : ¬ loadExceeded (newUpool (2 ^ m)).numSlotsUsed
        (newUpool (2 ^ m)).slotTable.length = true := by
      rw [e2, loadExceeded_zero]; decide
    obtain ⟨p1, hrun1, hb1, hperm1, hI1, hlen1, hused1⟩ :=
      (upoolAdd_spec XXH32 (newUpool (2 ^ m)) hI0 [102, 111, 111] (fun h => absurd h h0)
        (8 * 2 ^ m + 1 + k) (by rw [e3]; omega)).2
        (by intro key hkey; rw [hk0] at hkey; cases hkey) (by rw [e1]; simp)
    simp only [e1, hk0, List.length_nil, List.nil_append] at hrun1 hb1 hperm1
    have hl1 : p1.slotTable.length = 2 ^ m := by
      rw [hlen1, if_neg h0, e3]; omega
    have hu1 : p1.numSlotsUsed = 1 := by
      rw [hused1, if_neg h0, e2]
    have hsmall : ∀ (q : Upool), Inv XXH32 q → q.numSlotsUsed ≤ 3 →
        loadExceeded q.numSlotsUsed q.slotTable.length = true →
        2 * q.slotTable.length < 2 ^ 32 := by
      intro q hq hu hload
      obtain ⟨mq, hmq⟩ := hq.pow2
      rw [hmq] at hload ⊢
      have := (loadExceeded_pow_small q.numSlotsUsed mq
        (Nat.lt_of_le_of_lt hu (by decide))).mp hload
      omega
    have hkeys1 : ∀ key, key ∈ keysOf p1.slotTable → key = ⟨0, 3⟩ := by
      intro key hkey
      simpa using hperm1.mem_iff.mp hkey
    have hblob1 : blob p1.dataBuf ⟨0, 3⟩ = [102, 111, 111] := by rw [hb1]; rfl
    have hkl1 : (keysOf p1.slotTable).length = 1 := by rw [hperm1.length_eq]; rfl
    obtain ⟨p2, hrun2, hb2, hperm2, hI2, hlen2, hused2⟩ :=
      (upoolAdd_spec XXH32 p1 hI1 [98, 97, 114] (hsmall p1 hI1 (by omega))
        (8 * 2 ^ m + 1 + k) (by omega)).2
        (by intro key hkey; rw [hkeys1 key hkey, hblob1]; decide) (by rw [hb1]; simp)
    rw [hb1] at hrun2 hb2 hperm2
    have hl2 : p2.slotTable.length ≤ 4 * 2 ^ m := by
      rw [hlen2]; split <;> omega
    have hl2m : 2 ^ m ≤ p2.slotTable.length := by
      rw [hlen2]; split <;> omega
    have hu2 : p2.numSlotsUsed ≤ 3 := by
      rw [hused2, hkl1, hu1]; split <;> omega
    obtain ⟨p3, hrun3, _⟩ :=
      (upoolAdd_spec XXH32 p2 hI2 [102, 111, 111] (hsmall p2 hI2 hu2) (8 * 2 ^ m + 1 + k)
        (by omega)).1 ⟨0, 3⟩
        (hperm2.mem_iff.mpr (List.mem_cons_of_mem _ (hperm1.mem_iff.mpr
          (List.mem_cons_self _ _))))
        (by rw [hb2]; rfl)
    exact ⟨p1, p2, p3, hrun1, hrun2, hrun3⟩

/-- The insertion theorem on the pool obtained from `newUpool 1` by inserting `a`: the new
blob `b` is stored at offset 1. -/
theorem upoolAdd_new_witness :
    ∃ p1, upoolAdd toyHash 3 ⟨[97], 1, [⟨true, ⟨0, 1⟩⟩]⟩ [98] = .ok (1, true, p1) ∧
      p1.dataBuf = [97, 98] ∧
      (keysOf p1.slotTable).Perm [⟨1, 1⟩, ⟨0, 1⟩] :=
  ((upoolAdd_new toyHash 1 ⟨0, rfl⟩).1 [([97], 0, true)] ⟨[97], 1, [⟨true, ⟨0, 1⟩⟩]⟩
    (Reach.add _ (newUpool 1) _ 1 [97] 0 true Reach.init (by decide))
    (by decide) (by decide) [98] (by decide) 3 (by decide)).1

/-- C8 (resize).  On every pool whose table length `L` is zero or a power of two and whose
occupied slots refer to blobs inside the data buffer, `upoolEnlarge` produces a table of length
`max 1 (2 * L)` when `2 * L` fits 32 bits (absent 32-bit overflow), leaves the data buffer
unchanged, and the keys of the occupied slots of the new table are the keys of the occupied
slots of the old table, each exactly once.  (That the blobs are pairwise distinct is not
needed.) -/
theorem upoolEnlarge_frame (XXH32 : List Byte → Nat → Nat) (p : Upool)
    (hlen : p.slotTable.length = 0 ∨ ∃ m, p.slotTable.length = 2 ^ m)
    (hov : 2 * p.slotTable.length < 2 ^ 32)
    (hin : ∀ key, key ∈ keysOf p.slotTable → key.offset + key.size ≤ p.dataBuf.length)
    (fuel : Nat) (hfuel : 2 * p.slotTable.length + 1 ≤ fuel) :
    ∃ p1, upoolEnlarge XXH32 fuel p = .ok p1 ∧
      p1.slotTable.length = max 1 (2 * p.slotTable.length) ∧
      p1.dataBuf = p.dataBuf ∧
      (keysOf p1.slotTable).Perm (keysOf p.slotTable) := by
  obtain ⟨p1, hrun, hb, _, hl, _, hperm, _⟩ :=
    upoolEnlarge_spec XXH32 p fuel hlen hov hin hfuel
  exact ⟨p1, hrun, hl, hb, hperm⟩

/-- The resize theorem on a full table of length two. -/
theorem upoolEnlarge_frame_witness :
    ∃ p1, upoolEnlarge toyHash 5
        ⟨[97, 98], 3, [⟨true, ⟨0, 1⟩⟩, ⟨true, ⟨1, 1⟩⟩]⟩ = .ok p1 ∧
      p1.slotTable.length = max 1 (2 * 2) ∧ p1.dataBuf = [97, 98] ∧
      (keysOf p1.slotTable).Perm [⟨0, 1⟩, ⟨1, 1⟩] :=
  upoolEnlarge_frame toyHash ⟨[97, 98], 3, [⟨true, ⟨0, 1⟩⟩, ⟨true, ⟨1, 1⟩⟩]⟩
    (Or.inr ⟨1, rfl⟩) (by decide) (by decide) 5 (by decide)

/-- C9 (traversal), amended.  `upoolForEach` calls the callback once for every occupied slot
and for no other slot, in increasing slot order, with the size of the slot and the bytes of
the data buffer at its offset.  On a pool reachable from `newUpool n`, `n` a power of two,
if the data buffer is shorter than `2 ^ 32` bytes, every call passes as many bytes as the size
says, no blob is passed twice, and the blobs passed are exactly the blobs that were
inserted. -/
theorem upoolForEach_traversal (XXH32 : List Byte → Nat → Nat) (n : Nat) (hn : ∃ m, n = 2 ^ m)
    (tr : List (List Byte × Nat × Bool)) (p : Upool) (hreach : Reach XXH32 (newUpool n) tr p) :
    upoolForEach p = (p.slotTable.filter (fun s => s.occupied)).map
        (fun s => (s.elm.size, (p.dataBuf.drop s.elm.offset).take s.elm.size)) ∧
      (p.dataBuf.length < 2 ^ 32 →
        (∀ c, c ∈ upoolForEach p → c.2.length = c.1) ∧
        ((upoolForEach p).map Prod.snd).Nodup ∧
        ∀ x, x ∈ (upoolForEach p).map Prod.snd ↔ ∃ o b, (x, o, b) ∈ tr) := by
  obtain ⟨m, rfl⟩ := hn
  have hsnd : (upoolForEach p).map Prod.snd = (keysOf p.slotTable).map (blob p.dataBuf) := by
    rw [upoolForEach_eq, List.map_map]
    rfl
  refine ⟨?_, fun hbuf => ?_⟩
  · rw [upoolForEach_eq, keysOf, List.map_map]
    rfl
  obtain ⟨hI, hT⟩ := reach_inv XXH32 m tr p hreach hbuf
  refine ⟨?_, ?_, ?_⟩
  · intro c hc
    rw [upoolForEach_eq] at hc
    obtain ⟨key, hkey, rfl⟩ := List.mem_map.mp hc
    exact blob_length _ _ (hI.inb key hkey)
  · rw [hsnd]
    exact hI.nodup
  · intro x
    rw [hsnd]
    constructor
    · intro hx
      obtain ⟨key, hkey, rfl⟩ := List.mem_map.mp hx
      obtain ⟨b, hb⟩ := hT.2 key hkey
      exact ⟨key.offset, b, hb⟩
    · rintro ⟨o, b, hmem⟩
      obtain ⟨hk, hbl⟩ := hT.1 x o b hmem
      exact List.mem_map.mpr ⟨_, hk, hbl⟩

/-- The traversal theorem on the pool obtained from `newUpool 1` by inserting `a` and `b`:
the callback is called with `a` and with `b`, and no blob is passed twice. -/
theorem upoolForEach_traversal_witness :
    upoolForEach ⟨[97, 98], 3, [⟨true, ⟨0, 1⟩⟩, ⟨true, ⟨1, 1⟩⟩]⟩ = [(1, [97]), (1, [98])] ∧
      ((upoolForEach ⟨[97, 98], 3, [⟨true, ⟨0, 1⟩⟩, ⟨true, ⟨1, 1⟩⟩]⟩).map Prod.snd).Nodup :=
  ⟨(upoolForEach_traversal toyHash 1 ⟨0, rfl⟩ [([98], 1, true), ([97], 0, true)]
      ⟨[97, 98], 3, [⟨true, ⟨0, 1⟩⟩, ⟨true, ⟨1, 1⟩⟩]⟩
      (Reach.add _ ⟨[97], 1, [⟨true, ⟨0, 1⟩⟩]⟩ _ 3 [98] 1 true
        (Reach.add _ (newUpool 1) _ 1 [97] 0 true Reach.init (by decide)) (by decide))).1,
    ((upoolForEach_traversal toyHash 1 ⟨0, rfl⟩ [([98], 1, true), ([97], 0, true)]
      ⟨[97, 98], 3, [⟨true, ⟨0, 1⟩⟩, ⟨true, ⟨1, 1⟩⟩]⟩
      (Reach.add _ ⟨[97], 1, [⟨true, ⟨0, 1⟩⟩]⟩ _ 3 [98] 1 true
        (Reach.add _ (newUpool 1) _ 1 [97] 0 true Reach.init (by decide)) (by decide))).2
      (by decide)).2.1⟩

/-- C10 (zero initial capacity), the code at a failing input.  On `newUpool 0` the load check
`0 > 0 * 0.75f` of `upoolAdd` is false, no resize happens, and `upoolCalcShift` takes a
remainder modulo the table length zero. -/
theorem upoolAdd_zero_capacity_faults (XXH32 : List Byte → Nat → Nat) (fuel : Nat)
    (x : List Byte) : upoolAdd XXH32 fuel (newUpool 0) x = .fault .divByZero := by
  simp [upoolAdd, newUpool, loadExceeded_zero, upoolCalcShift, umod]

/-! ## Step derivation, full cycles, and a capacity that is not a power of two -/

theorem probeIter_eq_pos (p : Upool) (h st : Nat) (hL : p.slotTable.length ≠ 0) :
    ∀ k j, probeIter p st k (pos p.slotTable.length h st j)
      = .ok (pos p.slotTable.length h st (j + k)) := by
  intro k
  induction k with
  | zero => intro j; rfl
  | succ k ih =>
    intro j
    simp only [probeIter, upoolNextSlot, umod, hL, if_false, ← pos_succ]
    rw [ih (j + 1)]
    congr 2
    omega

theorem probeIter_start (p : Upool) (s0 st k : Nat) (hs0 : s0 < p.slotTable.length) :
    probeIter p st k s0 = .ok (pos p.slotTable.length s0 st k) := by
  have h := probeIter_eq_pos p s0 st (by omega) k 0
  rw [pos_zero, Nat.mod_eq_of_lt hs0, Nat.zero_add] at h
  exact h

/-- C13 (step derivation).  For every value `h` of the step hash and every table length
`L ≥ 1`, `upoolCalcShift` returns the step the specification defines; that step is odd, and
when `L` is even it lies in `[1, L)`.  (As the hash function is arbitrary, `h` ranges over all
32-bit values.) -/
theorem upoolCalcShift_refines (XXH32 : List Byte → Nat → Nat) (pool : Upool)
    (data : List Byte) (h : Nat) (hh : calcHash1 XXH32 data = h)
    (hL : 1 ≤ pool.slotTable.length) :
    upoolCalcShift XXH32 pool data = .ok (specStep h pool.slotTable.length) ∧
      specStep h pool.slotTable.length % 2 = 1 ∧
      (pool.slotTable.length % 2 = 0 →
        1 ≤ specStep h pool.slotTable.length ∧
        specStep h pool.slotTable.length < pool.slotTable.length) := by
  have hL0 : pool.slotTable.length ≠ 0 := by omega
  subst hh
  have hlt : ∀ a, a % pool.slotTable.length < pool.slotTable.length :=
    fun a => Nat.mod_lt _ (by omega)
  refine ⟨?_, ?_, ?_⟩
  · rw [upoolCalcShift_eq XXH32 pool data hL0]
    congr 1
    unfold stepOf specStep
    by_cases h0 : calcHash1 XXH32 data > 0
    · simp only [h0, if_true]
      have := hlt (calcHash1 XXH32 data)
      generalize calcHash1 XXH32 data % pool.slotTable.length = s at *
      by_cases hs0 : s = 0
      · simp [hs0]
      · simp only [hs0, if_false]
        split_ifs <;> omega
    · have hz : calcHash1 XXH32 data = 0 := by omega
      simp only [hz, Nat.lt_irrefl, if_false, gt_iff_lt, Nat.zero_mod]
      rcases Nat.lt_or_ge 1 pool.slotTable.length with h1 | h1
      · rw [Nat.mod_eq_of_lt h1]
        simp
      · have h1' : pool.slotTable.length = 1 := by omega
        rw [h1']
        simp
  · unfold specStep
    generalize calcHash1 XXH32 data % pool.slotTable.length = s
    dsimp only
    by_cases hs0 : s = 0
    · simp [hs0]
    · simp only [hs0, if_false]
      split_ifs <;> omega
  · intro heven
    unfold specStep
    have := hlt (calcHash1 XXH32 data)
    generalize calcHash1 XXH32 data % pool.slotTable.length = s at *
    dsimp only
    by_cases hs0 : s = 0
    · have h12 : ¬ (1 % 2 = 0) := by decide
      simp only [hs0, if_true, h12, if_false]
      omega
    · simp only [hs0, if_false]
      split_ifs <;> omega

/-- The step theorem for the step hash 6 of the toy hash on a table of length four: the step
is 3. -/
theorem upoolCalcShift_refines_witness :
    upoolCalcShift toyHash (newUpool 4) [] = .ok (specStep 3 4) ∧ specStep 3 4 % 2 = 1 ∧
      ((newUpool 4).slotTable.length % 2 = 0 → 1 ≤ specStep 3 4 ∧ specStep 3 4 < 4) :=
  upoolCalcShift_refines toyHash (newUpool 4) [] 3 (by decide) (by decide)

/-- C14 (full-cycle coverage).  On a table whose length `L` is a power of two, with an odd
step and a start slot `s0 < L`, the iteration of `upoolNextSlot` from `s0` reaches every slot
index below `L` at exactly one of the probes `0, ..., L - 1`, is back at `s0` after `L`
applications, and is not at `s0` after any number of applications strictly between `0` and
`L`. -/
theorem upoolNextSlot_full_cycle (pool : Upool) (m : Nat) (hm : pool.slotTable.length = 2 ^ m)
    (shift : Nat) (hodd : shift % 2 = 1) (s0 : Nat) (hs0 : s0 < pool.slotTable.length) :
    (∀ e, e < pool.slotTable.length →
      ∃ k, k < pool.slotTable.length ∧ probeIter pool shift k s0 = .ok e ∧
        ∀ k1, k1 < pool.slotTable.length → probeIter pool shift k1 s0 = .ok e → k1 = k) ∧
    probeIter pool shift pool.slotTable.length s0 = .ok s0 ∧
    ∀ k, 0 < k → k < pool.slotTable.length → probeIter pool shift k s0 ≠ .ok s0 := by
  have hiter := fun k => probeIter_start pool s0 shift k hs0
  refine ⟨?_, ?_, ?_⟩
  · intro e he
    rw [hm] at he
    obtain ⟨k, hk, hke⟩ := pos_surj m s0 shift e hodd he
    refine ⟨k, by rw [hm]; exact hk, by rw [hiter, hm, hke], ?_⟩
    intro k1 hk1 hk1e
    rw [hiter, hm] at hk1e
    simp only [Res.ok.injEq] at hk1e
    rw [hm] at hk1
    exact pos_inj m s0 shift k1 k hodd hk1 hk (by rw [hk1e, hke])
  · rw [hiter]
    congr 1
    have := pos_mod pool.slotTable.length s0 shift pool.slotTable.length
    rw [Nat.mod_self, pos_zero, Nat.mod_eq_of_lt hs0] at this
    exact this.symm
  · intro k hk0 hk hcon
    rw [hiter, hm] at hcon
    simp only [Res.ok.injEq] at hcon
    rw [hm] at hk hs0
    have h0 : pos (2 ^ m) s0 shift 0 = s0 := by rw [pos_zero, Nat.mod_eq_of_lt hs0]
    exact pos_ne_start m s0 shift k hodd hk0 hk (by rw [hcon, h0])

/-- The full-cycle theorem on a table of length four with step 3 and start slot 1. -/
theorem upoolNextSlot_full_cycle_witness :
    probeIter (newUpool 4) 3 4 1 = .ok 1 :=
  (upoolNextSlot_full_cycle (newUpool 4) 2 (by decide) 3 (by decide) 1 (by decide)).2.1

/-- C15 (a capacity that is not a power of two breaks lookup).  On `newUpool 3`, under a hash
function that gives `a` and `c` the same primary hash and `c` the step hash 5, the calls
`upoolAdd a`, `upoolAdd c` return the offsets 0 and 1; afterwards `upoolGet c` returns
`Upool_ID_NULL` although `c` is stored at offset 1, and `upoolAdd c` stores `c` again, at
offset 2, with `isNew = true`. -/
theorem nonpow2_false_miss :
    ∃ (n : Nat) (XXH32 : List Byte → Nat → Nat) (tr : List (List Byte × Nat × Bool))
      (p p1 : Upool) (x : List Byte) (o o1 : Nat),
      1 ≤ n ∧ (¬ ∃ m, n = 2 ^ m) ∧ Reach XXH32 (newUpool n) tr p ∧ (x, o, true) ∈ tr ∧
      (p.dataBuf.drop o).take x.length = x ∧
      upoolGet XXH32 6 p x = .ok Upool_ID_NULL ∧
      upoolAdd XXH32 6 p x = .ok (o1, true, p1) ∧ o1 ≠ o ∧
      p1.dataBuf = p.dataBuf ++ x := by
  refine ⟨3, clashHash, [([99], 1, true), ([97], 0, true)],
    ⟨[97, 99], 3, [⟨true, ⟨0, 1⟩⟩, zeroSlot, zeroSlot, ⟨true, ⟨1, 1⟩⟩, zeroSlot, zeroSlot]⟩,
    ⟨[97, 99, 99], 4,
      [⟨true, ⟨0, 1⟩⟩, zeroSlot, zeroSlot, ⟨true, ⟨1, 1⟩⟩, zeroSlot, ⟨true, ⟨2, 1⟩⟩]⟩,
    [99], 1, 2, by decide, ?_, ?_, by simp, by decide, by decide, by decide, by decide,
    by decide⟩
  · rintro ⟨m, hm⟩
    have h2 : m < 2 := by
      by_contra hcon
      have : 2 ^ 2 ≤ 2 ^ m := Nat.pow_le_pow_right (by decide) (by omega)
      omega
    interval_cases m <;> simp at hm
  · exact Reach.add _ ⟨[97], 1, [⟨true, ⟨0, 1⟩⟩, zeroSlot, zeroSlot]⟩ _ 6 [99] 1 true
      (Reach.add _ (newUpool 3) _ 6 [97] 0 true Reach.init (by decide)) (by decide)

/-! ## Stored keys of arbitrary pools -/

theorem slotAt_ok (p : Upool) (si : Nat) (slot : Upool_Slot) (h : slotAt p si = .ok slot) :
    p.slotTable[si]? = some slot := by
  unfold slotAt at h
  split at h
  · rename_i s hs
    cases h
    exact hs
  · cases h

theorem upoolOccupySlot_keys (p q : Upool) (si sz off : Nat)
    (h : upoolOccupySlot p si sz off = .ok q) :
    (keysOf q.slotTable).Perm (⟨off, sz⟩ :: keysOf p.slotTable) := by
  unfold upoolOccupySlot at h
  dsimp only at h
  split at h
  · cases h
  · split at h
    · cases h
    · rename_i slot hslot
      split at h
      · cases h
      · rename_i hocc
        cases h
        have hs := slotAt_ok _ _ _ hslot
        exact keysOf_set p.slotTable si slot ⟨off, sz⟩ hs (by simpa using hocc)

theorem enlargeProbe_keys (p : Upool) (st s0 sz off : Nat) :
    ∀ (fuel si : Nat) (q : Upool), enlargeProbe fuel p st s0 si sz off = .ok q →
      (keysOf q.slotTable).Perm (⟨off, sz⟩ :: keysOf p.slotTable) := by
  intro fuel
  induction fuel with
  | zero => intro si q h; cases h
  | succ f ih =>
    intro si q h
    simp only [enlargeProbe] at h
    split at h
    · cases h
    · split at h
      · exact upoolOccupySlot_keys _ _ _ _ _ h
      · split at h
        · cases h
        · split at h
          · cases h
          · exact ih _ q h

theorem enlargeSlot_keys (X : List Byte → Nat → Nat) (p q : Upool) (slot : Upool_Slot)
    (fuel : Nat) (h : enlargeSlot X fuel p slot = .ok q) :
    (keysOf q.slotTable).Perm (keysOf [slot] ++ keysOf p.slotTable) := by
  unfold enlargeSlot at h
  split at h
  · rename_i ho
    cases h
    have : slot.occupied = false := by simpa using ho
    simp [keysOf_cons, this, keysOf_nil]
  · rename_i ho
    have hocc : slot.occupied = true := by simpa using ho
    dsimp only at h
    split at h
    · cases h
    · split at h
      · cases h
      · split at h
        · cases h
        · have := enlargeProbe_keys _ _ _ _ _ _ _ q h
          simpa [keysOf_cons, hocc, keysOf_nil] using this

theorem keysOf_cons_append (a : Upool_Slot) (T : List Upool_Slot) :
    keysOf (a :: T) = keysOf [a] ++ keysOf T := by
  rw [keysOf_cons, keysOf_cons, keysOf_nil]
  split <;> rfl

theorem enlargeLoop_keys (X : List Byte → Nat → Nat) (fuel : Nat) (rest : List Upool_Slot) :
    ∀ (p q : Upool), enlargeLoop X fuel rest p = .ok q →
      (keysOf q.slotTable).Perm (keysOf rest ++ keysOf p.slotTable) := by
  induction rest with
  | nil => intro p q h; cases h; simp [keysOf_nil]
  | cons a rest ih =>
    intro p q h
    simp only [enlargeLoop] at h
    split at h
    · cases h
    · rename_i p1 hp1
      have h1 := enlargeSlot_keys X p p1 a fuel hp1
      have h2 := ih p1 q h
      rw [keysOf_cons_append]
      refine h2.trans ?_
      refine (List.Perm.append_left _ h1).trans ?_
      rw [← List.append_assoc]
      exact List.Perm.append_right _ List.perm_append_comm

/-- Whenever `upoolEnlarge` returns, the occupied slots of the new table carry the keys of
the occupied slots of the old table, each exactly once (any pool, any hash values). -/
theorem upoolEnlarge_keys (X : List Byte → Nat → Nat) (p q : Upool) (fuel : Nat)
    (h : upoolEnlarge X fuel p = .ok q) :
    (keysOf q.slotTable).Perm (keysOf p.slotTable) := by
  unfold upoolEnlarge at h
  dsimp only at h
  have hq := enlargeLoop_keys X fuel _ _ q h
  simpa [keysOf_replicate] using hq

theorem addProbe_keys (p : Upool) (x : List Byte) (st s0 : Nat) :
    ∀ (fuel si o : Nat) (b : Bool) (p1 : Upool),
      addProbe fuel p x st s0 si = .ok (some (o, b, p1)) →
      ∀ key, key ∈ keysOf p1.slotTable → key ∈ keysOf p.slotTable ∨ key = ⟨o, x.length⟩ := by
  intro fuel
  induction fuel with
  | zero => intro si o b p1 h; cases h
  | succ f ih =>
    intro si o b p1 h
    simp only [addProbe] at h
    split at h
    · cases h
    · split at h
      · simp only [upoolAddData] at h
        split at h
        · cases h
        · rename_i p2 hp2
          have hk := upoolOccupySlot_keys _ _ _ _ _ hp2
          simp only [Res.ok.injEq, Option.some.injEq, Prod.mk.injEq] at h
          obtain ⟨rfl, rfl, rfl⟩ := h
          intro key hkey
          have := hk.mem_iff.mp hkey
          simp only [List.mem_cons] at this
          rcases this with h1 | h1
          · exact Or.inr h1
          · exact Or.inl h1
      · split at h
        · cases h
        · simp only [Res.ok.injEq, Option.some.injEq, Prod.mk.injEq] at h
          obtain ⟨rfl, rfl, rfl⟩ := h
          exact fun key hkey => Or.inl hkey
        · split at h
          · cases h
          · split at h
            · cases h
            · exact ih _ o b p1 h

theorem retryProbe_keys (p : Upool) (x : List Byte) (st s0 : Nat) :
    ∀ (fuel si o : Nat) (b : Bool) (p1 : Upool),
      retryProbe fuel p x st s0 si = .ok (some (o, b, p1)) →
      ∀ key, key ∈ keysOf p1.slotTable → key ∈ keysOf p.slotTable ∨ key = ⟨o, x.length⟩ := by
  intro fuel
  induction fuel with
  | zero => intro si o b p1 h; cases h
  | succ f ih =>
    intro si o b p1 h
    simp only [retryProbe] at h
    split at h
    · cases h
    · split at h
      · simp only [upoolAddData] at h
        split at h
        · cases h
        · rename_i p2 hp2
          have hk := upoolOccupySlot_keys _ _ _ _ _ hp2
          simp only [Res.ok.injEq, Option.some.injEq, Prod.mk.injEq] at h
          obtain ⟨rfl, rfl, rfl⟩ := h
          intro key hkey
          have := hk.mem_iff.mp hkey
          simp only [List.mem_cons] at this
          rcases this with h1 | h1
          · exact Or.inr h1
          · exact Or.inl h1
      · split at h
        · cases h
        · split at h
          · cases h
          · exact ih _ o b p1 h

theorem addRetry_keys (X : List Byte → Nat → Nat) (x : List Byte) (hash st fuel : Nat) :
    ∀ (rounds : Nat) (p : Upool) (o : Nat) (b : Bool) (p1 : Upool),
      addRetry X fuel rounds p x hash st = .ok (o, b, p1) →
      ∀ key, key ∈ keysOf p1.slotTable → key ∈ keysOf p.slotTable ∨ key = ⟨o, x.length⟩ := by
  intro rounds
  induction rounds with
  | zero => intro p o b p1 h; cases h
  | succ n ih =>
    intro p o b p1 h
    simp only [addRetry] at h
    split at h
    · cases h
    · rename_i q hq
      have hkq := upoolEnlarge_keys X p q fuel hq
      split at h
      · cases h
      · split at h
        · cases h
        · rename_i r hr
          simp only [Res.ok.injEq] at h
          subst h
          intro key hkey
          rcases retryProbe_keys q x st _ fuel _ o b p1 hr key hkey with h1 | h1
          · exact Or.inl (hkq.mem_iff.mp h1)
          · exact Or.inr h1
        · intro key hkey
          rcases ih q o b p1 h key hkey with h1 | h1
          · exact Or.inl (hkq.mem_iff.mp h1)
          · exact Or.inr h1

/-- A call of `upoolAdd` that returns keeps the stored keys and adds at most the key of the
blob passed in (any pool, any hash values). -/
theorem upoolAdd_keys (X : List Byte → Nat → Nat) (p : Upool) (x : List Byte) (fuel o : Nat)
    (b : Bool) (p1 : Upool) (h : upoolAdd X fuel p x = .ok (o, b, p1)) :
    ∀ key, key ∈ keysOf p1.slotTable → key ∈ keysOf p.slotTable ∨ key = ⟨o, x.length⟩ := by
  unfold upoolAdd at h
  split at h
  · cases h
  · rename_i q hq
    have hkq : (keysOf q.slotTable).Perm (keysOf p.slotTable) := by
      split at hq
      · exact upoolEnlarge_keys X p q fuel hq
      · cases hq; exact List.Perm.refl _
    dsimp only at h
    split at h
    · cases h
    · split at h
      · cases h
      · split at h
        · cases h
        · rename_i r hr
          simp only [Res.ok.injEq] at h
          subst h
          intro key hkey
          rcases addProbe_keys q x _ _ fuel _ o b p1 hr key hkey with h1 | h1
          · exact Or.inl (hkq.mem_iff.mp h1)
          · exact Or.inr h1
        · intro key hkey
          rcases addRetry_keys X x _ _ fuel fuel q o b p1 h key hkey with h1 | h1
          · exact Or.inl (hkq.mem_iff.mp h1)
          · exact Or.inr h1

/-- Every stored key of a pool reachable from a pool with in-bounds keys is in bounds. -/
theorem reach_inb (X : List Byte → Nat → Nat) (p0 p : Upool)
    (tr : List (List Byte × Nat × Bool)) (h : Reach X p0 tr p)
    (h0 : ∀ key, key ∈ keysOf p0.slotTable → key.offset + key.size ≤ p0.dataBuf.length) :
    ∀ key, key ∈ keysOf p.slotTable → key.offset + key.size ≤ p.dataBuf.length := by
  induction h with
  | init => exact h0
  | add tr p p1 fuel x o b _ hadd ih =>
    intro key hkey
    obtain ⟨⟨t, ht⟩, hle, _⟩ := upoolAdd_buf X p x fuel o b p1 hadd
    rcases upoolAdd_keys X p x fuel o b p1 hadd key hkey with h1 | h1
    · have := ih key h1
      rw [ht, List.length_append]
      omega
    · rw [h1]
      exact hle

/-- C17 (in-bounds invariant).  In every pool reachable from `newUpool n` (any `n`) by calls
of `upoolAdd` that returned, every occupied slot satisfies
`offset + size ≤ length of the data buffer`. -/
theorem slots_in_bounds (XXH32 : List Byte → Nat → Nat) (n : Nat)
    (tr : List (List Byte × Nat × Bool)) (p : Upool) (hreach : Reach XXH32 (newUpool n) tr p)
    (i : Nat) (s : Upool_Slot) (hs : p.slotTable[i]? = some s) (ho : s.occupied = true) :
    s.elm.offset + s.elm.size ≤ p.dataBuf.length :=
  reach_inb XXH32 (newUpool n) p tr hreach
    (by intro key hkey; simp [newUpool, keysOf_replicate] at hkey)
    s.elm ((mem_keysOf _ _).mpr ⟨i, s, hs, ho, rfl⟩)

/-- The in-bounds theorem on the pool obtained from `newUpool 3` by inserting `a` and `c`
under the clashing hash function, where the second insertion goes through the retry path. -/
theorem slots_in_bounds_witness : 1 + 1 ≤ ([97, 99] : List Byte).length :=
  slots_in_bounds clashHash 3 [([99], 1, true), ([97], 0, true)]
    ⟨[97, 99], 3, [⟨true, ⟨0, 1⟩⟩, zeroSlot, zeroSlot, ⟨true, ⟨1, 1⟩⟩, zeroSlot, zeroSlot]⟩
    (Reach.add _ ⟨[97], 1, [⟨true, ⟨0, 1⟩⟩, zeroSlot, zeroSlot]⟩ _ 6 [99] 1 true
      (Reach.add _ (newUpool 3) _ 6 [97] 0 true Reach.init (by decide)) (by decide))
    3 ⟨true, ⟨1, 1⟩⟩ (by decide) rfl

/-! ## The first probe loop and the calls of upoolEnlarge -/

theorem free_count (T : List Upool_Slot) (i : Nat) (s : Upool_Slot) (hi : T[i]? = some s)
    (hs : s.occupied = false) : (keysOf T).length < T.length := by
  induction T generalizing i with
  | nil => simp at hi
  | cons a T ih =>
    cases i with
    | zero =>
      simp at hi
      subst hi
      rw [keysOf_cons, hs]
      have := keysOf_length_le T
      simp only [Bool.false_eq_true, if_false, List.length_cons]
      omega
    | succ i =>
      rw [List.getElem?_cons_succ] at hi
      have := ih i hi
      rw [keysOf_cons]
      split <;> simp only [List.length_cons] <;> omega

/-- C11 (load-factor bound), the code at a failing input.  After the insertion of `a` into
`newUpool 1`, the load check of the next `upoolAdd` fires and calls `upoolEnlarge`; the pool
that the probe then starts on has a table of length 2 and `numSlotsUsed = 2`, which exceeds
`0.75 * 2`: the re-insertion done by `upoolEnlarge` counted the stored blob a second time.
Holds for every hash function. -/
theorem load_bound_fails (XXH32 : List Byte → Nat → Nat) (fuel : Nat) :
    upoolAdd XXH32 (fuel + 1) (newUpool 1) [97]
        = .ok (0, true, ⟨[97], 1, [⟨true, ⟨0, 1⟩⟩]⟩) ∧
    ∃ q, (if (⟨[97], 1, [⟨true, ⟨0, 1⟩⟩]⟩ : Upool).numSlotsUsed * 4
            > (⟨[97], 1, [⟨true, ⟨0, 1⟩⟩]⟩ : Upool).slotTable.length * 3
          then upoolEnlarge XXH32 (fuel + 3) ⟨[97], 1, [⟨true, ⟨0, 1⟩⟩]⟩
          else .ok ⟨[97], 1, [⟨true, ⟨0, 1⟩⟩]⟩) = .ok q ∧
      q.numSlotsUsed = 2 ∧ q.slotTable.length = 2 ∧
      ¬ (q.numSlotsUsed * 4 ≤ q.slotTable.length * 3) ∧
      (q.slotTable.filter (fun s => s.occupied)).length = 1 := by
  constructor
  · simp [upoolAdd, newUpool, loadExceeded_zero, upoolCalcShift, umod, addProbe, slotAt,
      zeroSlot, upoolAddData, upoolOccupySlot, Nat.mod_one]
  · obtain ⟨q, hq, _, hu, hl, _, hperm, _⟩ :=
      upoolEnlarge_spec XXH32 ⟨[97], 1, [⟨true, ⟨0, 1⟩⟩]⟩ (fuel + 3) (Or.inr ⟨0, rfl⟩)
        (by decide) (by decide) (by simp)
    have hu2 : q.numSlotsUsed = 2 := hu
    have hl2 : q.slotTable.length = 2 := hl
    refine ⟨q, ?_, hu2, hl2, by rw [hu2, hl2]; decide, ?_⟩
    · rw [if_pos (by decide)]
      exact hq
    · have := hperm.length_eq
      simpa [keysOf] using this

/-- C16 (dedup invariant), amended.  In every pool reachable from `newUpool n`, `n` a power
of two, whose data buffer is shorter than `2 ^ 32` bytes, two occupied slots whose blobs are
byte-identical (the same bytes, hence the same size) are the same slot. -/
theorem dedup_invariant (XXH32 : List Byte → Nat → Nat) (n : Nat) (hn : ∃ m, n = 2 ^ m)
    (tr : List (List Byte × Nat × Bool)) (p : Upool) (hreach : Reach XXH32 (newUpool n) tr p)
    (hbuf : p.dataBuf.length < 2 ^ 32)
    (i j : Nat) (si sj : Upool_Slot)
    (hi : p.slotTable[i]? = some si) (hj : p.slotTable[j]? = some sj)
    (hoi : si.occupied = true) (hoj : sj.occupied = true)
    (hbytes : (p.dataBuf.drop si.elm.offset).take si.elm.size
      = (p.dataBuf.drop sj.elm.offset).take sj.elm.size) : i = j := by
  obtain ⟨m, rfl⟩ := hn
  obtain ⟨hI, _⟩ := reach_inv XXH32 m tr p hreach hbuf
  exact index_eq_of_nodup p.dataBuf p.slotTable hI.nodup i j si sj hi hj hoi hoj hbytes

/-- The dedup invariant on the pool obtained from `newUpool 1` by inserting `a`, `b` and `a`
again, at the slot that holds `b`. -/
theorem dedup_invariant_witness : (3 : Nat) = 3 :=
  dedup_invariant toyHash 1 ⟨0, rfl⟩ [([97], 0, false), ([98], 1, true), ([97], 0, true)]
    ⟨[97, 98], 5, [⟨true, ⟨0, 1⟩⟩, zeroSlot, zeroSlot, ⟨true, ⟨1, 1⟩⟩]⟩
    (Reach.add _ ⟨[97, 98], 3, [⟨true, ⟨0, 1⟩⟩, ⟨true, ⟨1, 1⟩⟩]⟩ _ 5 [97] 0 false
      (Reach.add _ ⟨[97], 1, [⟨true, ⟨0, 1⟩⟩]⟩ _ 3 [98] 1 true
        (Reach.add _ (newUpool 1) _ 1 [97] 0 true Reach.init (by decide)) (by decide))
      (by decide))
    (by decide) 3 3 ⟨true, ⟨1, 1⟩⟩ ⟨true, ⟨1, 1⟩⟩ (by decide) (by decide) rfl rfl rfl

/-- C18 (lookup on a table that is not full), amended.  On every pool reachable from
`newUpool n`, `n` a power of two, whose table has a free slot and whose data buffer is shorter
than `Upool_ID_NULL = 2 ^ 32 - 1` bytes, `upoolGet` of any blob `z` returns within as many
probes as the table has slots, and it returns `Upool_ID_NULL` if and only if no occupied slot
holds a blob byte-identical to `z`. -/
theorem upoolGet_nonfull (XXH32 : List Byte → Nat → Nat) (n : Nat) (hn : ∃ m, n = 2 ^ m)
    (tr : List (List Byte × Nat × Bool)) (p : Upool) (hreach : Reach XXH32 (newUpool n) tr p)
    (hfree : ∃ (i : Nat) (s : Upool_Slot), p.slotTable[i]? = some s ∧ s.occupied = false)
    (hsent : p.dataBuf.length < Upool_ID_NULL)
    (z : List Byte) (fuel : Nat) (hfuel : p.slotTable.length ≤ fuel) :
    ∃ r, upoolGet XXH32 fuel p z = .ok r ∧
      (r = Upool_ID_NULL ↔
        ∀ (i : Nat) (s : Upool_Slot), p.slotTable[i]? = some s → s.occupied = true →
          (p.dataBuf.drop s.elm.offset).take s.elm.size ≠ z) := by
  obtain ⟨m, rfl⟩ := hn
  obtain ⟨hI, _⟩ := reach_inv XXH32 m tr p hreach
    (Nat.lt_of_lt_of_le hsent (by decide))
  obtain ⟨i0, s0, hi0, hs0⟩ := hfree
  have hcount := free_count p.slotTable i0 s0 hi0 hs0
  obtain ⟨m1, hm1⟩ := hI.pow2
  have hL : p.slotTable.length ≠ 0 := by
    have : 0 < 2 ^ m1 := Nat.pow_pos (by decide)
    omega
  have hu : umod (calcHash XXH32 z) p.slotTable.length = .ok (calcHash XXH32 z % 2 ^ m1) := by
    simp [umod, hL, hm1]
  have hget : upoolGet XXH32 fuel p z
      = getProbe fuel p z (stepOf XXH32 (2 ^ m1) z) (calcHash XXH32 z % 2 ^ m1) := by
    unfold upoolGet
    simp only [upoolCalcShift_eq XXH32 p z hL, hu]
    rw [hm1]
  by_cases hex : ∃ key, key ∈ keysOf p.slotTable ∧ blob p.dataBuf key = z
  · obtain ⟨key, hkey, hx⟩ := hex
    have hrun := (probe_present XXH32 p z m1 hm1 hI.inb hI.nodup hI.path key hkey hx fuel
      (by omega)).2
    refine ⟨key.offset, by rw [hget, hrun], ?_⟩
    have hin := hI.inb key hkey
    constructor
    · intro heq
      omega
    · intro hall
      obtain ⟨i, s, hi, ho, rfl⟩ := (mem_keysOf _ _).mp hkey
      exact absurd hx (hall i s hi ho)
  · have hno : ∀ key, key ∈ keysOf p.slotTable → blob p.dataBuf key ≠ z :=
      fun key hkey hx => hex ⟨key, hkey, hx⟩
    obtain ⟨k, e, s, _, _, _, _, _, hrun⟩ := probe_absent XXH32 p z m1 hm1 hI.inb hcount hno
    refine ⟨Upool_ID_NULL, by rw [hget, (hrun fuel (by omega)).2], ?_⟩
    constructor
    · intro _ i s hi ho
      exact hno s.elm ((mem_keysOf _ _).mpr ⟨i, s, hi, ho, rfl⟩)
    · intro _
      rfl

/-- The lookup theorem on the pool obtained from `newUpool 2` by inserting `foo`: the lookup
of `a` returns the sentinel. -/
theorem upoolGet_nonfull_witness :
    ∃ r, upoolGet toyHash 2 ⟨[102, 111, 111], 1, [zeroSlot, ⟨true, ⟨0, 3⟩⟩]⟩ [97] = .ok r ∧
      (r = Upool_ID_NULL ↔
        ∀ (i : Nat) (s : Upool_Slot),
          (⟨[102, 111, 111], 1, [zeroSlot, ⟨true, ⟨0, 3⟩⟩]⟩ : Upool).slotTable[i]? = some s →
          s.occupied = true →
          (([102, 111, 111] : List Byte).drop s.elm.offset).take s.elm.size ≠ [97]) :=
  upoolGet_nonfull toyHash 2 ⟨1, rfl⟩ [([102, 111, 111], 0, true)]
    ⟨[102, 111, 111], 1, [zeroSlot, ⟨true, ⟨0, 3⟩⟩]⟩
    (Reach.add _ (newUpool 2) _ 2 [102, 111, 111] 0 true Reach.init (by decide))
    ⟨0, zeroSlot, rfl, rfl⟩ (by decide) [97] 2 (by decide)

theorem maxBlob_length : maxBlob.length = 2 ^ 32 - 1 := List.length_replicate _ _

/-- A key that is in bounds and whose size differs from the length of `x` does not refer to
`x`. -/
theorem blob_ne_of_size (buf x : List Byte) (key : Upool_Key)
    (hin : key.offset + key.size ≤ buf.length) (hsz : key.size ≠ x.length) :
    blob buf key ≠ x := by
  intro h
  have := blob_length buf key hin
  rw [h] at this
  exact hsz this.symm

/-- Three insertions into `newUpool 4`, for an arbitrary hash function: a one-byte blob, a
blob of `2 ^ 32 - 1` bytes and another one-byte blob.  The third blob is appended at position
`2 ^ 32` of the data buffer and is given the offset 0, at which the first blob lies. -/
theorem wrap_scenario (X : List Byte → Nat → Nat) :
    ∃ p2 p3 p4 : Upool,
      Reach X (newUpool 4) [(maxBlob, 1, true), ([0], 0, true)] p2 ∧
      (∀ fuel, 4 ≤ fuel → upoolAdd X fuel p2 [2] = .ok (0, true, p3)) ∧
      p2.dataBuf = [0] ++ maxBlob ∧
      (∀ key, key ∈ keysOf p2.slotTable → blob p2.dataBuf key ≠ [2]) ∧
      p2.slotTable.length = 4 ∧
      p3.dataBuf = [0] ++ maxBlob ++ [2] ∧ p3.slotTable.length = 4 ∧
      (keysOf p3.slotTable).Perm [⟨0, 1⟩, ⟨1, 2 ^ 32 - 1⟩, ⟨0, 1⟩] ∧
      (∀ fuel, 4 ≤ fuel → upoolAdd X fuel p3 [2] = .ok (1, true, p4)) ∧
      (∀ fuel, 4 ≤ fuel → upoolGet X fuel p3 [2] = .ok Upool_ID_NULL) := by
  have e1 : (newUpool 4).dataBuf = [] := rfl
  have e2 : (newUpool 4).numSlotsUsed = 0 := rfl
  have e3 : (newUpool 4).slotTable.length = 4 := rfl
  have hk0 : keysOf (newUpool 4).slotTable = [] := keysOf_replicate 4
  have hN := maxBlob_length
  obtain ⟨p1, hrun1, hb1, hu1, hl1, hperm1⟩ :=
    upoolAdd_absent_noload X (newUpool 4) [0] 2 (by rw [e3]; rfl)
      (by intro key hkey; rw [hk0] at hkey; cases hkey)
      (by rw [hk0, e3]; decide)
      (by intro key hkey; rw [hk0] at hkey; cases hkey)
      (by rw [e2, e3]; decide)
  simp only [e1, e2, e3, hk0, List.length_nil, List.nil_append, Nat.zero_mod, Nat.zero_add,
    List.length_singleton] at hrun1 hb1 hu1 hl1 hperm1
  have hkeys1 : ∀ key, key ∈ keysOf p1.slotTable → key = ⟨0, 1⟩ := by
    intro key hkey
    simpa using hperm1.mem_iff.mp hkey
  have hkl1 : (keysOf p1.slotTable).length = 1 := by rw [hperm1.length_eq]; rfl
  obtain ⟨p2, hrun2, hb2, hu2, hl2, hperm2⟩ :=
    upoolAdd_absent_noload X p1 maxBlob 2 (by rw [hl1]; rfl)
      (by intro key hkey; rw [hkeys1 key hkey, hb1]; decide)
      (by rw [hkl1, hl1]; decide)
      (by
        intro key hkey
        rw [hkeys1 key hkey]
        exact blob_ne_of_size _ _ _ (by rw [hb1]; decide) (by rw [hN]; decide))
      (by rw [hu1, hl1]; decide)
  have hmod1 : (1 : Nat) % 2 ^ 32 = 1 := by decide
  simp only [hb1, hu1, hl1, hN, List.length_singleton, hmod1] at hrun2 hb2 hu2 hl2 hperm2
  have hlen2 : p2.dataBuf.length = 2 ^ 32 := by
    rw [hb2, List.length_append, hN]; rfl
  have hkeys2 : ∀ key, key ∈ keysOf p2.slotTable →
      key = ⟨1, 2 ^ 32 - 1⟩ ∨ key = ⟨0, 1⟩ := by
    intro key hkey
    have := hperm2.mem_iff.mp hkey
    simp only [List.mem_cons] at this
    rcases this with h | h
    · exact Or.inl h
    · exact Or.inr (hkeys1 key h)
  have hkl2 : (keysOf p2.slotTable).length = 2 := by
    rw [hperm2.length_eq, List.length_cons, hkl1]
  have hin2 : ∀ key, key ∈ keysOf p2.slotTable → key.offset + key.size ≤ p2.dataBuf.length := by
    intro key hkey
    rw [hlen2]
    rcases hkeys2 key hkey with rfl | rfl <;> decide
  have hhead : ∀ t : List Byte, blob ([0] ++ t) ⟨0, 1⟩ = [0] := by
    intro t
    simp [blob]
  have habs2 : ∀ key, key ∈ keysOf p2.slotTable → blob p2.dataBuf key ≠ [2] := by
    intro key hkey
    rcases hkeys2 key hkey with rfl | rfl
    · exact blob_ne_of_size _ _ _ (by rw [hlen2]; decide) (by decide)
    · rw [hb2, hhead]; decide
  obtain ⟨p3, hrun3, hb3, hu3, hl3, hperm3⟩ :=
    upoolAdd_absent_noload X p2 [2] 2 (by rw [hl2]; rfl) hin2 (by rw [hkl2, hl2]; decide)
      habs2 (by rw [hu2, hl2]; decide)
  have hmod2 : (2 : Nat) ^ 32 % 2 ^ 32 = 0 := by decide
  simp only [hlen2, hmod2, hl2, List.length_singleton] at hrun3 hl3 hperm3
  have hlen3 : p3.dataBuf.length = 2 ^ 32 + 1 := by
    rw [hb3, List.length_append, hlen2]; rfl
  have hkeys3 : ∀ key, key ∈ keysOf p3.slotTable →
      key = ⟨1, 2 ^ 32 - 1⟩ ∨ key = ⟨0, 1⟩ := by
    intro key hkey
    have := hperm3.mem_iff.mp hkey
    simp only [List.mem_cons] at this
    rcases this with h | h
    · exact Or.inr h
    · exact hkeys2 key h
  have hkl3 : (keysOf p3.slotTable).length = 3 := by
    rw [hperm3.length_eq, List.length_cons, hkl2]
  have hin3 : ∀ key, key ∈ keysOf p3.slotTable → key.offset + key.size ≤ p3.dataBuf.length := by
    intro key hkey
    rw [hlen3]
    rcases hkeys3 key hkey with rfl | rfl <;> decide
  have habs3 : ∀ key, key ∈ keysOf p3.slotTable → blob p3.dataBuf key ≠ [2] := by
    intro key hkey
    rcases hkeys3 key hkey with rfl | rfl
    · exact blob_ne_of_size _ _ _ (by rw [hlen3]; decide) (by decide)
    · rw [hb3, hb2, List.append_assoc, hhead]; decide
  obtain ⟨p4, hrun4, _⟩ :=
    upoolAdd_absent_noload X p3 [2] 2 (by rw [hl3]; rfl) hin3 (by rw [hkl3, hl3]; decide)
      habs3 (by rw [hu3, hu2, hl3]; decide)
  have hmod3 : ((2 : Nat) ^ 32 + 1) % 2 ^ 32 = 1 := by decide
  simp only [hlen3, hmod3, hl3] at hrun4
  refine ⟨p2, p3, p4, ?_, hrun3, hb2, habs2, hl2, by rw [hb3, hb2], hl3, ?_, hrun4, ?_⟩
  · exact Reach.add _ p1 p2 4 maxBlob 1 true
      (Reach.add _ (newUpool 4) p1 4 [0] 0 true Reach.init (hrun1 4 (Nat.le_refl _)))
      (hrun2 4 (Nat.le_refl _))
  · exact hperm3.trans (List.Perm.cons _ (hperm2.trans (List.Perm.cons _ hperm1)))
  · intro fuel hfuel
    exact upoolGet_absent X p3 [2] 2 (by rw [hl3]; rfl) hin3 (by rw [hkl3, hl3]; decide)
      habs3 fuel (by rw [hl3]; exact hfuel)

theorem upoolForEach_snd (p : Upool) :
    (upoolForEach p).map Prod.snd = (keysOf p.slotTable).map (blob p.dataBuf) := by
  rw [upoolForEach_eq, List.map_map]
  rfl

/-- If occupied slots with byte-identical blobs always have the same index, the blobs of the
occupied slots are pairwise different. -/
theorem nodup_of_index_inj (buf : List Byte) (T : List Upool_Slot)
    (h : ∀ (i j : Nat) (si sj : Upool_Slot), T[i]? = some si → T[j]? = some sj →
      si.occupied = true → sj.occupied = true → blob buf si.elm = blob buf sj.elm → i = j) :
    ((keysOf T).map (blob buf)).Nodup := by
  induction T with
  | nil => simp [keysOf_nil]
  | cons a T ih =>
    have hT := ih (fun i j si sj hi hj hoi hoj hb => by
      have := h (i + 1) (j + 1) si sj (by simpa using hi) (by simpa using hj) hoi hoj hb
      omega)
    rw [keysOf_cons]
    cases ha : a.occupied with
    | false => simpa using hT
    | true =>
      simp only [if_true, List.map_cons]
      refine List.nodup_cons.mpr ⟨?_, hT⟩
      intro hmem
      obtain ⟨key, hkey, hkb⟩ := List.mem_map.mp hmem
      obtain ⟨i, s, hi, ho, rfl⟩ := (mem_keysOf _ _).mp hkey
      have := h 0 (i + 1) a s (by simp) (by simpa using hi) ha ho hkb.symm
      omega

/-- In the pool of `wrap_scenario` after the third insertion, two stored keys refer to the
same bytes. -/
theorem wrap_not_nodup (buf : List Byte) (ks : List Upool_Key)
    (hperm : ks.Perm [⟨0, 1⟩, ⟨1, 2 ^ 32 - 1⟩, ⟨0, 1⟩]) : ¬ (ks.map (blob buf)).Nodup := by
  intro hnd
  have := ((hperm.map (blob buf)).nodup_iff).mp hnd
  simp at this

/-- C1 as stated fails, for every hash function.  On `newUpool 4` insert a one-byte blob `0`,
a blob of `2 ^ 32 - 1` bytes and the one-byte blob `2`: the data buffer is `2 ^ 32` bytes long
before the third insertion, which returns the truncated offset 0.  Inserting `2` again does
not return offset 0 with `isNew = false`: the bytes at offset 0 are those of the first blob, so
the blob is stored once more, at offset 1 with `isNew = true`. -/
theorem upoolAdd_dedup_counterexample :
    ¬ ∃ XXH32 : List Byte → Nat → Nat,
      ∀ (n : Nat) (tr : List (List Byte × Nat × Bool)) (p : Upool),
        (∃ m, n = 2 ^ m) → Reach XXH32 (newUpool n) tr p →
        ∀ (x : List Byte) (o : Nat) (b : Bool), (x, o, b) ∈ tr →
        ∀ fuel, 2 * p.slotTable.length + 1 ≤ fuel →
          ∃ p1, upoolAdd XXH32 fuel p x = .ok (o, false, p1) ∧ p1.dataBuf = p.dataBuf := by
  rintro ⟨X, h⟩
  obtain ⟨p2, p3, p4, hreach, hadd3, _, _, _, _, hl3, _, hadd4, _⟩ := wrap_scenario X
  have hreach3 := Reach.add _ p2 p3 4 [2] 0 true hreach (hadd3 4 (Nat.le_refl _))
  obtain ⟨p5, hrun, _⟩ := h 4 _ p3 ⟨2, rfl⟩ hreach3 [2] 0 true (by simp) 9 (by rw [hl3])
  rw [hadd4 9 (by decide)] at hrun
  simp at hrun

/-- C2 as stated fails, for every hash function.  On `newUpool 4` insert a one-byte blob `0`,
a blob of `2 ^ 32 - 1` bytes and the one-byte blob `2`; the third insertion returns the
truncated offset 0.  `upoolGet` of `2` then compares with the bytes of the first blob and
returns `Upool_ID_NULL`, not the offset 0 that `upoolAdd` returned. -/
theorem upoolGet_consistent_counterexample :
    ¬ ∃ XXH32 : List Byte → Nat → Nat,
      ∀ (n : Nat) (tr : List (List Byte × Nat × Bool)) (p : Upool),
        (∃ m, n = 2 ^ m) → Reach XXH32 (newUpool n) tr p →
        ∀ (x : List Byte) (o : Nat) (b : Bool), (x, o, b) ∈ tr →
        ∀ fuel, p.slotTable.length ≤ fuel → upoolGet XXH32 fuel p x = .ok o := by
  rintro ⟨X, h⟩
  obtain ⟨p2, p3, p4, hreach, hadd3, _, _, _, _, hl3, _, _, hget⟩ := wrap_scenario X
  have hreach3 := Reach.add _ p2 p3 4 [2] 0 true hreach (hadd3 4 (Nat.le_refl _))
  have hrun := h 4 _ p3 ⟨2, rfl⟩ hreach3 [2] 0 true (by simp) 4 (by rw [hl3])
  rw [hget 4 (Nat.le_refl _)] at hrun
  simp [Upool_ID_NULL] at hrun

/-- C6 as stated fails, for every hash function.  On a pool whose data buffer holds `2 ^ 32`
bytes (a one-byte blob `0` and a blob of `2 ^ 32 - 1` bytes inserted into `newUpool 4`),
`upoolAdd` of the one-byte blob `2` returns the truncated offset 0, and the byte of the data
buffer at position 0 is `0`, not `2`. -/
theorem offset_stable_counterexample :
    ¬ ∃ XXH32 : List Byte → Nat → Nat,
      ∀ (p p1 p2 : Upool) (fuel : Nat) (x : List Byte) (o : Nat) (b : Bool),
        upoolAdd XXH32 fuel p x = .ok (o, b, p1) →
        ∀ tr : List (List Byte × Nat × Bool), Reach XXH32 p1 tr p2 →
          o + x.length ≤ p2.dataBuf.length ∧ (p2.dataBuf.drop o).take x.length = x := by
  rintro ⟨X, h⟩
  obtain ⟨p2, p3, p4, _, hadd3, _, _, _, hb3, _⟩ := wrap_scenario X
  have := (h p2 p3 p3 4 [2] 0 true (hadd3 4 (Nat.le_refl _)) [] Reach.init).2
  rw [hb3] at this
  simp at this

/-- C7 as stated fails, for every hash function.  On the pool obtained from `newUpool 4` by
inserting a one-byte blob `0` and a blob of `2 ^ 32 - 1` bytes, the data buffer is `2 ^ 32`
bytes long; `upoolAdd` of the new one-byte blob `2` returns the truncated offset 0, not the
length of the data buffer before the call. -/
theorem upoolAdd_new_counterexample :
    ¬ ∃ XXH32 : List Byte → Nat → Nat, ∀ n : Nat, (∃ m, n = 2 ^ m) →
      (∀ (tr : List (List Byte × Nat × Bool)) (p : Upool), Reach XXH32 (newUpool n) tr p →
        ∀ x : List Byte, (∀ key, key ∈ keysOf p.slotTable → blob p.dataBuf key ≠ x) →
        ∀ fuel, 2 * p.slotTable.length + 1 ≤ fuel →
          (∃ p1, upoolAdd XXH32 fuel p x = .ok (p.dataBuf.length, true, p1) ∧
            p1.dataBuf = p.dataBuf ++ x ∧
            (keysOf p1.slotTable).Perm (⟨p.dataBuf.length, x.length⟩ :: keysOf p.slotTable)) ∧
          p.dataBuf.length = ((keysOf p.slotTable).map (fun key => key.size)).sum) ∧
      (∀ k, ∃ p1 p2 p3,
        upoolAdd XXH32 (8 * n + 1 + k) (newUpool n) [102, 111, 111] = .ok (0, true, p1) ∧
        upoolAdd XXH32 (8 * n + 1 + k) p1 [98, 97, 114] = .ok (3, true, p2) ∧
        upoolAdd XXH32 (8 * n + 1 + k) p2 [102, 111, 111] = .ok (0, false, p3)) := by
  rintro ⟨X, h⟩
  obtain ⟨p2, p3, p4, hreach, hadd3, hb2, habs2, hl2, _⟩ := wrap_scenario X
  obtain ⟨⟨p5, hrun, _⟩, _⟩ := (h 4 ⟨2, rfl⟩).1 _ p2 hreach [2] habs2 9 (by rw [hl2])
  have hlen : ([0] ++ maxBlob : List Byte).length = 2 ^ 32 := by
    rw [List.length_append, maxBlob_length]; rfl
  rw [hadd3 9 (by decide), hb2, hlen] at hrun
  simp only [Res.ok.injEq, Prod.mk.injEq] at hrun
  exact absurd hrun.1 (by decide)

/-- C9 as stated fails, for every hash function.  On `newUpool 4` insert a one-byte blob `0`,
a blob of `2 ^ 32 - 1` bytes and the one-byte blob `2`; the slot of the third blob holds the
truncated offset 0.  `upoolForEach` then passes the blob `0` twice (and never the blob
`2`). -/
theorem upoolForEach_traversal_counterexample :
    ¬ ∃ XXH32 : List Byte → Nat → Nat,
      ∀ (n : Nat) (tr : List (List Byte × Nat × Bool)) (p : Upool),
        (∃ m, n = 2 ^ m) → Reach XXH32 (newUpool n) tr p →
        upoolForEach p = (p.slotTable.filter (fun s => s.occupied)).map
            (fun s => (s.elm.size, (p.dataBuf.drop s.elm.offset).take s.elm.size)) ∧
          (∀ c, c ∈ upoolForEach p → c.2.length = c.1) ∧
          ((upoolForEach p).map Prod.snd).Nodup ∧
          ∀ x, x ∈ (upoolForEach p).map Prod.snd ↔ ∃ o b, (x, o, b) ∈ tr := by
  rintro ⟨X, h⟩
  obtain ⟨p2, p3, p4, hreach, hadd3, _, _, _, _, _, hperm3, _⟩ := wrap_scenario X
  have hreach3 := Reach.add _ p2 p3 4 [2] 0 true hreach (hadd3 4 (Nat.le_refl _))
  have hnd := (h 4 _ p3 ⟨2, rfl⟩ hreach3).2.2.1
  rw [upoolForEach_snd] at hnd
  exact wrap_not_nodup _ _ hperm3 hnd

/-- C16 as stated fails, for every hash function.  On `newUpool 4` insert a one-byte blob
`0`, a blob of `2 ^ 32 - 1` bytes and the one-byte blob `2`; the slot of the third blob holds
the truncated offset 0 and size 1, the same byte range as the slot of the first blob: two
different occupied slots reference byte-identical blobs. -/
theorem dedup_invariant_counterexample :
    ¬ ∃ XXH32 : List Byte → Nat → Nat,
      ∀ (n : Nat) (tr : List (List Byte × Nat × Bool)) (p : Upool),
        (∃ m, n = 2 ^ m) → Reach XXH32 (newUpool n) tr p →
        ∀ (i j : Nat) (si sj : Upool_Slot),
          p.slotTable[i]? = some si → p.slotTable[j]? = some sj →
          si.occupied = true → sj.occupied = true →
          (p.dataBuf.drop si.elm.offset).take si.elm.size
            = (p.dataBuf.drop sj.elm.offset).take sj.elm.size → i = j := by
  rintro ⟨X, h⟩
  obtain ⟨p2, p3, p4, hreach, hadd3, _, _, _, _, _, hperm3, _⟩ := wrap_scenario X
  have hreach3 := Reach.add _ p2 p3 4 [2] 0 true hreach (hadd3 4 (Nat.le_refl _))
  exact wrap_not_nodup _ _ hperm3
    (nodup_of_index_inj p3.dataBuf p3.slotTable (h 4 _ p3 ⟨2, rfl⟩ hreach3))

/-! ## The sentinel as an offset -/

/-- Two insertions into `newUpool 4`, for an arbitrary hash function: a blob of `2 ^ 32 - 1`
bytes and the empty blob.  The empty blob is stored at the end of the data buffer, at offset
`2 ^ 32 - 1`, which is the sentinel. -/
theorem sentinel_scenario (X : List Byte → Nat → Nat) :
    ∃ p2 : Upool,
      Reach X (newUpool 4) [([], Upool_ID_NULL, true), (maxBlob, 0, true)] p2 ∧
      p2.slotTable.length = 4 ∧ (keysOf p2.slotTable).length = 2 ∧
      p2.dataBuf.length = 2 ^ 32 - 1 ∧
      (⟨Upool_ID_NULL, 0⟩ : Upool_Key) ∈ keysOf p2.slotTable ∧
      ∀ fuel, 4 ≤ fuel → upoolGet X fuel p2 [] = .ok Upool_ID_NULL := by
  have hI0 : Inv X (newUpool 4) := inv_newUpool X 2
  have e1 : (newUpool 4).dataBuf = [] := rfl
  have e2 : (newUpool 4).numSlotsUsed = 0 := rfl
  have e3 : (newUpool 4).slotTable.length = 4 := rfl
  have hk0 : keysOf (newUpool 4).slotTable = [] := keysOf_replicate 4
  have hN := maxBlob_length
  obtain ⟨p1, hrun1, hb1, hperm1, hI1, hlen1, hused1⟩ :=
    (upoolAdd_spec X (newUpool 4) hI0 maxBlob (by rw [e2, e3]; omega) 9
      (by rw [e3])).2
      (by intro key hkey; rw [hk0] at hkey; cases hkey) (by rw [e1]; decide)
  rw [e2, e3, if_neg (by decide)] at hlen1 hused1
  simp only [e1, hk0, List.length_nil, List.nil_append, hN] at hrun1 hb1 hperm1
  have hkeys1 : ∀ key, key ∈ keysOf p1.slotTable → key = ⟨0, 2 ^ 32 - 1⟩ := by
    intro key hkey
    simpa using hperm1.mem_iff.mp hkey
  have hkl1 : (keysOf p1.slotTable).length = 1 := by rw [hperm1.length_eq]; rfl
  have hlenb1 : p1.dataBuf.length = 2 ^ 32 - 1 := by rw [hb1, hN]
  obtain ⟨p2, hrun2, hb2, hperm2, hI2, hlen2, hused2⟩ :=
    (upoolAdd_spec X p1 hI1 [] (by rw [hused1, hlen1]; omega) 9
      (by rw [hlen1])).2
      (by
        intro key hkey
        exact blob_ne_of_size _ _ _ (hI1.inb key hkey) (by rw [hkeys1 key hkey]; decide))
      (by rw [hlenb1]; decide)
  rw [hused1, hlen1, if_neg (by decide)] at hlen2 hused2
  rw [hlenb1] at hrun2 hperm2
  have hl2 : p2.slotTable.length = 4 := by rw [hlen2]
  have hkey2 : (⟨Upool_ID_NULL, 0⟩ : Upool_Key) ∈ keysOf p2.slotTable :=
    hperm2.mem_iff.mpr (List.mem_cons_self _ _)
  refine ⟨p2, ?_, hl2, by rw [hperm2.length_eq, List.length_cons, hkl1], ?_, hkey2, ?_⟩
  · exact Reach.add _ p1 p2 9 [] _ true
      (Reach.add _ (newUpool 4) p1 9 maxBlob 0 true Reach.init hrun1) hrun2
  · rw [hb2, List.append_nil, hlenb1]
  · intro fuel hfuel
    exact upoolGet_present X p2 hI2 [] ⟨Upool_ID_NULL, 0⟩ hkey2 (by simp [blob]) fuel
      (by rw [hl2]; exact hfuel)

/-- C18 as stated fails, for every hash function.  On `newUpool 4` insert a blob of
`2 ^ 32 - 1` bytes and then the empty blob: the empty blob is stored at offset `2 ^ 32 - 1`,
which is `Upool_ID_NULL`.  The table has free slots, `upoolGet` of the empty blob returns
`Upool_ID_NULL`, and yet an occupied slot holds the empty blob. -/
theorem upoolGet_nonfull_counterexample :
    ¬ ∃ XXH32 : List Byte → Nat → Nat,
      ∀ (n : Nat) (tr : List (List Byte × Nat × Bool)) (p : Upool),
        (∃ m, n = 2 ^ m) → Reach XXH32 (newUpool n) tr p →
        (∃ (i : Nat) (s : Upool_Slot), p.slotTable[i]? = some s ∧ s.occupied = false) →
        ∀ (z : List Byte) (fuel : Nat), p.slotTable.length ≤ fuel →
          ∃ r, upoolGet XXH32 fuel p z = .ok r ∧
            (r = Upool_ID_NULL ↔
              ∀ (i : Nat) (s : Upool_Slot), p.slotTable[i]? = some s → s.occupied = true →
                (p.dataBuf.drop s.elm.offset).take s.elm.size ≠ z) := by
  rintro ⟨X, h⟩
  obtain ⟨p2, hreach, hl2, hkl2, _, hkey2, hget⟩ := sentinel_scenario X
  obtain ⟨r, hrun, hiff⟩ := h 4 _ p2 ⟨2, rfl⟩ hreach
    (exists_free p2.slotTable (by rw [hkl2, hl2]; decide)) [] 4 (by rw [hl2])
  rw [hget 4 (Nat.le_refl _)] at hrun
  simp only [Res.ok.injEq] at hrun
  obtain ⟨i, s, hi, ho, hs⟩ := (mem_keysOf _ _).mp hkey2
  refine hiff.mp hrun.symm i s hi ho ?_
  rw [hs]
  simp

/-! ## A table of 2^31 slots -/

end UpoolModel
